import Mathlib

/-!
# Verification of the `aat` AA-tree (Andersson tree) implementation

This file gives a shallow embedding of the AA-tree code in `aat-dev.c`
(functions `aat_skew`, `aat_split`, `aat_insert0`/`aat_insert`,
`aat_decrease_level`, `aat_delete_fixup`, `aat_delete_first0`/`aat_delete_first`,
`aat_delete_last0`/`aat_delete_last`, `aat_delete0`/`aat_delete`, `aat_search`,
`aat_first`, `aat_last`, `aat_iter`, `aat_parent`, `aat_next`, `aat_prev`)
and proves the specification claims about it.

A tree is modelled by the inductive type `AAT`: a C `struct aat_node` in the
tree becomes a constructor cell carrying its `level` and `key` fields and an
`id : Nat` standing for the node's address (distinct nodes in a well-formed
tree have distinct ids, as distinct C nodes have distinct addresses).  A node
returned to the caller (a detached node, whose `left`/`right`/`level` fields
the C code reads or zeroes through the pointer) is modelled by the record
`AatNode`, whose `left`/`right` fields hold the ids of the pointed-to children
(`none` for a null pointer).  Machine `int` levels are modelled by `Nat`: the
code only ever stores 0, 1, `child level + 1`, or an existing level, so no
overflow or negative value can occur for any tree of representable size.
-/

set_option linter.unusedVariables false
set_option linter.unreachableTactic false
set_option linter.unusedTactic false

/-- A (sub)tree: null pointer, or a node with left/right children and the
`level`, `key` fields of `struct aat_node`; `id` models the node's address. -/
inductive AAT : Type where
  | nil : AAT
  | node (left : AAT) (right : AAT) (level : Nat) (key : Int) (id : Nat) : AAT
deriving DecidableEq, Repr

namespace AAT

/-- The `node->left` field (nil for the null tree; C would fault). -/
def left : AAT → AAT
  | .nil => .nil
  | .node l _ _ _ _ => l

/-- The `node->right` field (nil for the null tree; C would fault). -/
def right : AAT → AAT
  | .nil => .nil
  | .node _ r _ _ _ => r

/-- The level of the root node, with the null tree at level 0 (the code never
reads `level` through a null pointer; 0 is the "absent child" convention of
`aat_decrease_level`). -/
def lvl : AAT → Nat
  | .nil => 0
  | .node _ _ lv _ _ => lv

/-- The key of the root node (junk default 0 for the null tree). -/
def keyD : AAT → Int
  | .nil => 0
  | .node _ _ _ k _ => k

/-- The key at the root, if any. -/
def rootKey : AAT → Option Int
  | .nil => none
  | .node _ _ _ k _ => some k

/-- The id (address) of the root node, if any; a null pointer is `none`. -/
def rootId : AAT → Option Nat
  | .nil => none
  | .node _ _ _ _ i => some i

/-- Null test on a tree pointer. -/
def isNil : AAT → Bool
  | .nil => true
  | .node _ _ _ _ _ => false

/-- Overwrite the `level` field of the root node (no-op on nil). -/
def setLevel : AAT → Nat → AAT
  | .nil, _ => .nil
  | .node l r _ k i, lv => .node l r lv k i

/-- Overwrite the `right` field of the root node (`node->right = ...`;
no-op on nil, where C would fault). -/
def setRight : AAT → AAT → AAT
  | .nil, _ => .nil
  | .node l _ lv k i, r => .node l r lv k i

/-- In-order list of keys. -/
def keys : AAT → List Int
  | .nil => []
  | .node l r _ k _ => keys l ++ k :: keys r

/-- In-order list of node ids. -/
def ids : AAT → List Nat
  | .nil => []
  | .node l r _ _ i => ids l ++ i :: ids r

/-- Number of nodes. -/
def size : AAT → Nat
  | .nil => 0
  | .node l r _ _ _ => size l + size r + 1

end AAT

/-- A detached node record as seen by the caller through the returned pointer:
the `left`/`right` pointer fields (as the ids of the pointed-to nodes), the
`level`, the `key`, and the node's own address `id`. -/
structure AatNode : Type where
  left : Option Nat
  right : Option Nat
  level : Nat
  key : Int
  id : Nat
deriving DecidableEq, Repr

/-- `aat_compare`: `a->key < b->key ? -1 : a->key > b->key`. -/
def aat_compare (a b : Int) : Int :=
  if a < b then -1 else if a > b then 1 else 0

/-- `aat_clear`: zero the container fields of a (non-null) node. -/
def aat_clear (n : AatNode) : AatNode :=
  ⟨none, none, 0, n.key, n.id⟩

/-- `aat_skew`: right-rotate away a left-horizontal link. -/
def aat_skew : AAT → AAT
  | AAT.node (AAT.node ll lr llv lk lid) r lv k id =>
    if llv = lv then
      AAT.node ll (AAT.node lr r lv k id) llv lk lid
    else
      AAT.node (AAT.node ll lr llv lk lid) r lv k id
  | t => t

/-- `aat_split`: left-rotate and promote away two consecutive
right-horizontal links. -/
def aat_split : AAT → AAT
  | AAT.node l (AAT.node rl (AAT.node rrl rrr rrlv rrk rrid) rlv rk rid) lv k id =>
    if rrlv = lv then
      AAT.node (AAT.node l rl lv k id) (AAT.node rrl rrr rrlv rrk rrid) (rlv + 1) rk rid
    else
      AAT.node l (AAT.node rl (AAT.node rrl rrr rrlv rrk rrid) rlv rk rid) lv k id
  | t => t

/-- `aat_insert0`: recursive insert; returns the new subtree root and the
replaced node (if a node of equal key was found). -/
def aat_insert0 (t : AAT) (item : AatNode) : AAT × Option AatNode :=
  match t with
  | .nil =>
    (aat_split (aat_skew (AAT.node .nil .nil 1 item.key item.id)), none)
  | .node l r lv k id =>
    let cmp := aat_compare item.key k
    if cmp < 0 then
      let p := aat_insert0 l item
      (aat_split (aat_skew (AAT.node p.1 r lv k id)), p.2)
    else if cmp > 0 then
      let p := aat_insert0 r item
      (aat_split (aat_skew (AAT.node l p.1 lv k id)), p.2)
    else
      (aat_split (aat_skew (AAT.node l r lv item.key item.id)),
       some ⟨l.rootId, r.rootId, lv, k, id⟩)

/-- `aat_insert`: public insert; clears and returns the replaced node,
skipping the clear when the replaced node is the inserted item itself. -/
def aat_insert (t : AAT) (item : AatNode) : AAT × Option AatNode :=
  let p := aat_insert0 t item
  match p.2 with
  | none => (p.1, none)
  | some old =>
    if old.id = item.id then (p.1, some old) else (p.1, some (aat_clear old))

/-- `aat_decrease_level`: clamp the node's level (and a now-too-high right
child's level) to one more than the minimum child level. -/
def aat_decrease_level : AAT → AAT
  | .nil => .nil
  | .node l r lv k id =>
    if l.isNil && r.isNil then
      AAT.node l r lv k id
    else
      let level := (if !l.isNil && !r.isNil then min l.lvl r.lvl else 0) + 1
      if level < lv then
        let r2 := if !r.isNil && level < r.lvl then r.setLevel level else r
        AAT.node l r2 level k id
      else
        AAT.node l r lv k id

/-- `aat_delete_fixup`: the six-step rebalance run at every ancestor after a
removal: decrease-level, three skews down the right spine, two splits. -/
def aat_delete_fixup (t : AAT) : AAT :=
  let n1 := aat_decrease_level t
  let n2 := aat_skew n1
  let n3 := n2.setRight (aat_skew n2.right)
  let n4 :=
    if !n3.right.isNil && !n3.right.right.isNil then
      n3.setRight (n3.right.setRight (aat_skew n3.right.right))
    else n3
  let n5 := aat_split n4
  n5.setRight (aat_split n5.right)

/-- `aat_delete_first0`: remove the leftmost node; returns the new subtree
and the removed node's record. -/
def aat_delete_first0 : AAT → AAT × Option AatNode
  | .nil => (.nil, none)
  | .node .nil r lv k id => (r, some ⟨none, r.rootId, lv, k, id⟩)
  | .node (.node a b c d e) r lv k id =>
    let p := aat_delete_first0 (AAT.node a b c d e)
    (aat_delete_fixup (AAT.node p.1 r lv k id), p.2)

/-- `aat_delete_last0`: remove the rightmost node; returns the new subtree
and the removed node's record. -/
def aat_delete_last0 : AAT → AAT × Option AatNode
  | .nil => (.nil, none)
  | .node l .nil lv k id => (l, some ⟨l.rootId, none, lv, k, id⟩)
  | .node l (.node a b c d e) lv k id =>
    let p := aat_delete_last0 (AAT.node a b c d e)
    (aat_delete_fixup (AAT.node l p.1 lv k id), p.2)

/-- `aat_delete_first`: public delete of the minimum; the removed node is
cleared. -/
def aat_delete_first (t : AAT) : AAT × Option AatNode :=
  let p := aat_delete_first0 t
  (p.1, p.2.map aat_clear)

/-- `aat_delete_last`: public delete of the maximum; the removed node is
cleared. -/
def aat_delete_last (t : AAT) : AAT × Option AatNode :=
  let p := aat_delete_last0 t
  (p.1, p.2.map aat_clear)

/-- `aat_delete0`: recursive delete by key.  At the matching node, a leaf is
unlinked; otherwise the in-order neighbour extracted by `aat_delete_last0` of
the left child (or `aat_delete_first0` of the right child when there is no
left child) is installed in its place, inheriting its links and level.
`aat_delete_fixup` runs at every non-null node on the way back up.
(The extraction of the neighbour cannot fail on a non-null child; on that
dead branch C would dereference a null `leaf_deleted`, and the embedding
substitutes an arbitrary record.) -/
def aat_delete0 (t : AAT) (key : Int) : AAT × Option AatNode :=
  match t with
  | .nil => (.nil, none)
  | .node l r lv k id =>
    let cmp := aat_compare key k
    let p :=
      if cmp < 0 then
        let q := aat_delete0 l key
        ((AAT.node q.1 r lv k id : AAT), q.2)
      else if cmp > 0 then
        let q := aat_delete0 r key
        ((AAT.node l q.1 lv k id : AAT), q.2)
      else
        if l.isNil && r.isNil then
          ((AAT.nil : AAT), some ⟨none, none, lv, k, id⟩)
        else if l.isNil then
          let q := aat_delete_first0 r
          let x := q.2.getD ⟨none, none, 0, 0, 0⟩
          ((AAT.node l q.1 lv x.key x.id : AAT), some ⟨l.rootId, q.1.rootId, lv, k, id⟩)
        else
          let q := aat_delete_last0 l
          let x := q.2.getD ⟨none, none, 0, 0, 0⟩
          ((AAT.node q.1 r lv x.key x.id : AAT), some ⟨q.1.rootId, r.rootId, lv, k, id⟩)
    if p.1.isNil then p else (aat_delete_fixup p.1, p.2)

/-- `aat_delete`: public delete by key; the removed node is cleared. -/
def aat_delete (t : AAT) (key : Int) : AAT × Option AatNode :=
  let p := aat_delete0 t key
  (p.1, p.2.map aat_clear)

/-- `aat_search`: iterative descent to the node of equal key. -/
def aat_search : AAT → Int → AAT
  | .nil, _ => .nil
  | .node l r lv k id, key =>
    let cmp := aat_compare key k
    if cmp < 0 then aat_search l key
    else if cmp > 0 then aat_search r key
    else .node l r lv k id

/-- `aat_first`: leftmost node (nil on the empty tree). -/
def aat_first : AAT → AAT
  | .nil => .nil
  | .node .nil r lv k id => .node .nil r lv k id
  | .node (.node a b c d e) _ _ _ _ => aat_first (AAT.node a b c d e)

/-- `aat_last`: rightmost node (nil on the empty tree). -/
def aat_last : AAT → AAT
  | .nil => .nil
  | .node l .nil lv k id => .node l .nil lv k id
  | .node _ (.node a b c d e) _ _ _ => aat_last (AAT.node a b c d e)

/-- The descent loop of `aat_iter`, with the `found` candidate accumulator. -/
def aat_iter0 : AAT → Int → AAT → AAT
  | .nil, _, found => found
  | .node l r lv k id, key, found =>
    let cmp := aat_compare key k
    if cmp < 0 then aat_iter0 l key (AAT.node l r lv k id)
    else if cmp > 0 then aat_iter0 r key found
    else .node l r lv k id

/-- `aat_iter`: lower-bound positioning (least key ≥ probe). -/
def aat_iter (t : AAT) (key : Int) : AAT :=
  aat_iter0 t key .nil

/-- The descent loop of `aat_parent`, tracking the last node left behind. -/
def aat_parent0 : AAT → Int → AAT → AAT
  | .nil, _, parent => parent
  | .node l r lv k id, key, parent =>
    let cmp := aat_compare key k
    if cmp < 0 then aat_parent0 l key (AAT.node l r lv k id)
    else if cmp > 0 then aat_parent0 r key (AAT.node l r lv k id)
    else parent

/-- `aat_parent`: find a node's parent by comparator-guided re-descent from
the root (no parent pointers are stored). -/
def aat_parent (t : AAT) (key : Int) : AAT :=
  aat_parent0 t key .nil

/-- The climbing loop of `aat_next`: walk up via `aat_parent` while the
current node is its parent's right child.  The fuel argument bounds the
number of iterations; `size t` always suffices since each step strictly
decreases the node's depth (C's `while` loop needs no fuel). -/
def aat_next_climb (t : AAT) : Nat → AAT → AAT → AAT
  | 0, _, parent => parent
  | fuel + 1, x, parent =>
    if parent = AAT.nil then parent
    else if parent.left = x then parent
    else aat_next_climb t fuel parent (aat_parent t parent.keyD)

/-- `aat_next`: in-order successor of an in-tree node `x` (passed as the
subtree rooted at it, i.e. the pointer to it), or nil at the maximum. -/
def aat_next (t : AAT) (x : AAT) : AAT :=
  match x with
  | .nil => .nil
  | .node l r lv k id =>
    if !r.isNil then aat_first r
    else aat_next_climb t t.size (AAT.node l r lv k id) (aat_parent t k)

/-- The climbing loop of `aat_prev`: mirror of `aat_next_climb`. -/
def aat_prev_climb (t : AAT) : Nat → AAT → AAT → AAT
  | 0, _, parent => parent
  | fuel + 1, x, parent =>
    if parent = AAT.nil then parent
    else if parent.right = x then parent
    else aat_prev_climb t fuel parent (aat_parent t parent.keyD)

/-- `aat_prev`: in-order predecessor of an in-tree node `x`, or nil at the
minimum. -/
def aat_prev (t : AAT) (x : AAT) : AAT :=
  match x with
  | .nil => .nil
  | .node l r lv k id =>
    if !l.isNil then aat_last l
    else aat_prev_climb t t.size (AAT.node l r lv k id) (aat_parent t k)

/-!
## The AA invariants

`structB` is the conjunction of structural invariants 1–5 exactly as the
specification (and the `aat_valid0` checker in the test driver) states them;
`increasing` on the in-order key list is invariant 6.
-/

/-- A list is strictly increasing. -/
def increasing : List Int → Bool
  | [] => true
  | [_] => true
  | a :: b :: l => decide (a < b) && increasing (b :: l)

/-- Structural AA invariants 1–5 at every node:
1. every leaf has level 1;
2. a left child's level is exactly the parent's level minus 1;
3. a right child's level is the parent's level or that minus 1;
4. a right grandchild's level is strictly below the grandparent's level;
5. every node of level above 1 has both children. -/
def structB : AAT → Bool
  | .nil => true
  | .node l r lv _ _ =>
    structB l && structB r &&
    decide (l = .nil → r = .nil → lv = 1) &&
    decide (l ≠ .nil → l.lvl + 1 = lv) &&
    decide (r ≠ .nil → (r.lvl = lv ∨ r.lvl + 1 = lv)) &&
    decide (r ≠ .nil → r.right ≠ .nil → r.right.lvl < lv) &&
    decide (1 < lv → l ≠ .nil ∧ r ≠ .nil)

/-- All six AA invariants: structure plus strictly increasing in-order keys. -/
def aat_valid (t : AAT) : Bool :=
  structB t && increasing t.keys

/-- A node whose right child is not horizontal (no right-horizontal link at
the root); false for nil. -/
def sngl : AAT → Bool
  | .nil => false
  | .node _ r lv _ _ => decide (r.lvl < lv)
/-- Insertion of a key into a (sorted) key list as `aat_insert0` realises it:
strictly smaller keys are passed, an equal key is replaced in place. -/
def linsert (x : Int) : List Int → List Int
  | [] => [x]
  | a :: l => if x < a then x :: a :: l else if a < x then a :: linsert x l else x :: l

/-- The node record stored at the given key, reached by comparator descent
(the fields a caller would read through a pointer to that node). -/
def nodeAtKey : AAT → Int → Option AatNode
  | .nil, _ => none
  | .node l r lv k id, key =>
    if key < k then nodeAtKey l key
    else if k < key then nodeAtKey r key
    else some ⟨l.rootId, r.rootId, lv, k, id⟩

/-- Replace the id (node identity) at the given key, leaving shape, levels
and all other nodes untouched. -/
def setIdAt : AAT → Int → Nat → AAT
  | .nil, _, _ => .nil
  | .node l r lv k id, key, nid =>
    if key < k then AAT.node (setIdAt l key nid) r lv k id
    else if k < key then AAT.node l (setIdAt r key nid) lv k id
    else AAT.node l r lv key nid

/-- The delete-fixup sequence as the specification words it (§4.5): apply, in
this exact order, decrease-level on `N`, skew on `N`, skew on `N.right` if
present, skew on `N.right.right` if present, split on `N`, split on `N.right`
if present.  Stated as a second definition to compare with the code's
`aat_delete_fixup`. -/
def delete_fixup_spec (t : AAT) : AAT :=
  let n1 := aat_decrease_level t
  let n2 := aat_skew n1
  let n3 := if n2.right ≠ .nil then n2.setRight (aat_skew n2.right) else n2
  let n4 :=
    if n3.right.right ≠ .nil then
      n3.setRight (n3.right.setRight (aat_skew n3.right.right))
    else n3
  let n5 := aat_split n4
  if n5.right ≠ .nil then n5.setRight (aat_split n5.right) else n5

/-- The states in which the delete family invokes `aat_delete_fixup` on a
node `N = node l r lv`: both subtrees satisfy the structural invariants and
either (left case) a removal under the original left child has lowered it to
level `lv − 1` or `lv − 2` while the untouched right child still satisfies
the parent's invariants 3 and 4, or (right case) a removal under the original
right child (which sat at level `lv` or `lv − 1`) has produced a child at
level `lv`, `lv − 1` or `lv − 2`, where a right child still at level `lv`
carries no right-horizontal link (it kept the level, so by the delete
postcondition it remains "single", as invariant 4 demanded of it before). -/
def PreFix : AAT → Prop
  | .nil => False
  | .node l r lv _ _ =>
    structB l = true ∧ structB r = true ∧
    (((l.lvl + 1 = lv ∨ l.lvl + 2 = lv) ∧ r ≠ .nil ∧ (r.lvl = lv ∨ r.lvl + 1 = lv) ∧
        (r.right ≠ .nil → r.right.lvl < lv)) ∨
     (l.lvl + 1 = lv ∧ (r.lvl = lv ∨ r.lvl + 1 = lv ∨ r.lvl + 2 = lv) ∧
        (r.lvl = lv → sngl r = true)))

/-- Left-right mirror image of a tree, with negated keys: it swaps the roles
of the successor and predecessor sides, letting the `aat_prev` family be
read off from the `aat_next` family. -/
def mirror : AAT → AAT
  | .nil => .nil
  | .node l r lv k id => AAT.node (mirror r) (mirror l) lv (-k) id


/-!
## Basic lemmas about the embedding
-/

@[simp] theorem AAT.left_nil : AAT.left .nil = .nil := rfl
@[simp] theorem AAT.left_node {l r lv k id} : (AAT.node l r lv k id).left = l := rfl
@[simp] theorem AAT.right_nil : AAT.right .nil = .nil := rfl
@[simp] theorem AAT.right_node {l r lv k id} : (AAT.node l r lv k id).right = r := rfl
@[simp] theorem AAT.lvl_nil : AAT.lvl .nil = 0 := rfl
@[simp] theorem AAT.lvl_node {l r lv k id} : (AAT.node l r lv k id).lvl = lv := rfl
@[simp] theorem AAT.keyD_node {l r lv k id} : (AAT.node l r lv k id).keyD = k := rfl
@[simp] theorem AAT.rootKey_nil : AAT.rootKey .nil = none := rfl
@[simp] theorem AAT.rootKey_node {l r lv k id} :
    (AAT.node l r lv k id).rootKey = some k := rfl
@[simp] theorem AAT.rootId_nil : AAT.rootId .nil = none := rfl
@[simp] theorem AAT.rootId_node {l r lv k id} :
    (AAT.node l r lv k id).rootId = some id := rfl
@[simp] theorem AAT.isNil_nil : AAT.isNil .nil = true := rfl
@[simp] theorem AAT.isNil_node {l r lv k id} :
    (AAT.node l r lv k id).isNil = false := rfl
@[simp] theorem AAT.setRight_nil {r} : AAT.setRight .nil r = .nil := rfl
@[simp] theorem AAT.setRight_node {l r0 lv k id r} :
    (AAT.node l r0 lv k id).setRight r = AAT.node l r lv k id := rfl
@[simp] theorem AAT.setLevel_nil {lv} : AAT.setLevel .nil lv = .nil := rfl
@[simp] theorem AAT.setLevel_node {l r lv0 k id lv} :
    (AAT.node l r lv0 k id).setLevel lv = AAT.node l r lv k id := rfl
@[simp] theorem AAT.keys_nil : AAT.keys .nil = [] := rfl
@[simp] theorem AAT.keys_node {l r lv k id} :
    (AAT.node l r lv k id).keys = l.keys ++ k :: r.keys := rfl
@[simp] theorem AAT.ids_nil : AAT.ids .nil = [] := rfl
@[simp] theorem AAT.ids_node {l r lv k id} :
    (AAT.node l r lv k id).ids = l.ids ++ id :: r.ids := rfl
@[simp] theorem AAT.size_nil : AAT.size .nil = 0 := rfl
@[simp] theorem AAT.size_node {l r lv k id} :
    (AAT.node l r lv k id).size = l.size + r.size + 1 := rfl

@[simp] theorem AAT.isNil_eq_true_iff {t : AAT} : t.isNil = true ↔ t = .nil := by
  cases t <;> simp [AAT.isNil]

@[simp] theorem AAT.isNil_eq_false_iff {t : AAT} : t.isNil = false ↔ t ≠ .nil := by
  cases t <;> simp [AAT.isNil]

/-- Unfolding of the structural invariant at a node. -/
theorem structB_node {l r : AAT} {lv : Nat} {k : Int} {id : Nat} :
    structB (AAT.node l r lv k id) = true ↔
      structB l = true ∧ structB r = true ∧
      (l = .nil → r = .nil → lv = 1) ∧
      (l ≠ .nil → l.lvl + 1 = lv) ∧
      (r ≠ .nil → (r.lvl = lv ∨ r.lvl + 1 = lv)) ∧
      (r ≠ .nil → r.right ≠ .nil → r.right.lvl < lv) ∧
      (1 < lv → l ≠ .nil ∧ r ≠ .nil) := by
  simp only [structB, Bool.and_eq_true, decide_eq_true_eq, and_assoc]

/-- Every node of a structurally valid tree has level at least 1. -/
theorem structB_lvl_pos : ∀ {t : AAT}, structB t = true → t ≠ .nil → 1 ≤ t.lvl := by
  intro t
  induction t with
  | nil => intro _ h; exact absurd rfl h
  | node l r lv k id ihl ihr =>
    intro h _
    rw [structB_node] at h
    obtain ⟨hl, hr, h1, h2, h3, _, _⟩ := h
    simp only [AAT.lvl_node]
    by_cases hln : l = .nil
    · by_cases hrn : r = .nil
      · have := h1 hln hrn; omega
      · have := ihr hr hrn
        rcases h3 hrn with h | h <;> omega
    · have := ihl hl hln
      have := h2 hln
      omega

/-- In a structurally valid tree, level 0 characterises the null tree. -/
theorem structB_nil_iff {t : AAT} (h : structB t = true) : t = .nil ↔ t.lvl = 0 := by
  constructor
  · rintro rfl; rfl
  · intro hz
    by_contra hn
    have := structB_lvl_pos h hn
    omega

theorem AAT.keys_setLevel {t : AAT} {lv : Nat} : (t.setLevel lv).keys = t.keys := by
  cases t <;> rfl

/-- `aat_skew` preserves the in-order key sequence. -/
theorem keys_skew (t : AAT) : (aat_skew t).keys = t.keys := by
  unfold aat_skew
  split
  · split <;> simp
  · rfl

/-- `aat_split` preserves the in-order key sequence. -/
theorem keys_split (t : AAT) : (aat_split t).keys = t.keys := by
  unfold aat_split
  split
  · split <;> simp
  · rfl

/-- `aat_skew` preserves the root level. -/
theorem lvl_skew (t : AAT) : (aat_skew t).lvl = t.lvl := by
  unfold aat_skew
  split
  · split
    · simp_all
    · rfl
  · rfl

/-- `aat_skew` of a non-null tree is non-null. -/
theorem skew_ne_nil {t : AAT} (h : t ≠ .nil) : aat_skew t ≠ .nil := by
  unfold aat_skew
  split
  · split <;> simp
  · exact h

/-- `aat_split` of a non-null tree is non-null. -/
theorem split_ne_nil {t : AAT} (h : t ≠ .nil) : aat_split t ≠ .nil := by
  unfold aat_split
  split
  · split <;> simp
  · exact h

/-- `aat_decrease_level` preserves the in-order key sequence. -/
theorem keys_decrease_level (t : AAT) : (aat_decrease_level t).keys = t.keys := by
  cases t with
  | nil => rfl
  | node l r lv k id =>
    unfold aat_decrease_level
    simp only
    repeat' split
    all_goals simp [AAT.keys_setLevel]

/-- `aat_decrease_level` keeps a non-null root non-null. -/
theorem decrease_level_ne_nil {t : AAT} (h : t ≠ .nil) :
    aat_decrease_level t ≠ .nil := by
  cases t with
  | nil => exact absurd rfl h
  | node l r lv k id =>
    unfold aat_decrease_level
    simp only
    repeat' split
    all_goals simp

/-- `aat_delete_fixup` preserves the in-order key sequence. -/
theorem keys_fixup (t : AAT) : (aat_delete_fixup t).keys = t.keys := by
  unfold aat_delete_fixup
  have h1 : ∀ u : AAT, (u.setRight (aat_skew u.right)).keys = u.keys := by
    intro u
    cases u with
    | nil => rfl
    | node l r lv k id => simp [keys_skew]
  have h2 : ∀ u : AAT,
      (u.setRight (u.right.setRight (aat_skew u.right.right))).keys = u.keys := by
    intro u
    cases u with
    | nil => rfl
    | node l r lv k id =>
      cases r with
      | nil => simp
      | node a b c d e => simp [keys_skew]
  have h3 : ∀ u : AAT, (u.setRight (aat_split u.right)).keys = u.keys := by
    intro u
    cases u with
    | nil => rfl
    | node l r lv k id => simp [keys_split]
  simp only
  rw [h3, keys_split]
  split
  · rw [h2, h1, keys_skew, keys_decrease_level]
  · rw [h1, keys_skew, keys_decrease_level]

theorem structB_left {t : AAT} (h : structB t = true) : structB t.left = true := by
  cases t with
  | nil => rfl
  | node l r lv k id => exact (structB_node.mp h).1

theorem structB_right {t : AAT} (h : structB t = true) : structB t.right = true := by
  cases t with
  | nil => rfl
  | node l r lv k id => exact (structB_node.mp h).2.1

theorem AAT.setRight_self {t : AAT} : t.setRight t.right = t := by
  cases t <;> rfl

/-- On a subtree satisfying the structural invariants, `aat_skew` is the
identity: there is no left-horizontal link to rotate. -/
theorem skew_eq_self_of_structB {t : AAT} (h : structB t = true) :
    aat_skew t = t := by
  cases t with
  | nil => rfl
  | node l r lv k id =>
    rw [structB_node] at h
    obtain ⟨hl, hr, h1, h2, h3, h4, h5⟩ := h
    cases l with
    | nil => rfl
    | node ll lr llv lk lid =>
      have hx := h2 (by simp)
      simp only [AAT.lvl_node] at hx
      unfold aat_skew
      simp only
      rw [if_neg (by omega)]

/-- On a subtree satisfying the structural invariants, `aat_split` is the
identity: there are no two consecutive right-horizontal links. -/
theorem split_eq_self_of_structB {t : AAT} (h : structB t = true) :
    aat_split t = t := by
  cases t with
  | nil => rfl
  | node l r lv k id =>
    rw [structB_node] at h
    obtain ⟨hl, hr, h1, h2, h3, h4, h5⟩ := h
    cases r with
    | nil => rfl
    | node rl rr rlv rk rid =>
      cases rr with
      | nil => rfl
      | node a b c d e =>
        have hx := h4 (by simp) (by simp)
        simp only [AAT.right_node, AAT.lvl_node] at hx
        unfold aat_split
        simp only
        rw [if_neg (by omega)]

/-- On a node satisfying the structural invariants, `aat_decrease_level` is
the identity: the level is already at most one above the minimum child
level. -/
theorem decrease_level_eq_self_of_structB {t : AAT} (h : structB t = true) :
    aat_decrease_level t = t := by
  cases t with
  | nil => rfl
  | node l r lv k id =>
    rw [structB_node] at h
    obtain ⟨hl, hr, h1, h2, h3, h4, h5⟩ := h
    unfold aat_decrease_level
    simp only
    split
    · rfl
    · rename_i hni
      split
      · rename_i hb
        split
        · rename_i hlt
          exfalso
          simp only [Bool.and_eq_true, Bool.not_eq_true', AAT.isNil_eq_false_iff] at hb
          have := h2 hb.1
          have h3x := h3 hb.2
          have := structB_lvl_pos hr hb.2
          omega
        · rfl
      · rename_i hb
        split
        · rename_i hlt
          exfalso
          rcases h5 (by omega) with ⟨hln, hrn⟩
          apply hb
          simp only [Bool.and_eq_true, Bool.not_eq_true', AAT.isNil_eq_false_iff]
          exact ⟨hln, hrn⟩
        · rfl

/-- On a node satisfying the structural invariants, the whole delete-fixup
pipeline is the identity. -/
theorem fixup_eq_self_of_structB {t : AAT} (h : structB t = true) :
    aat_delete_fixup t = t := by
  unfold aat_delete_fixup
  simp only
  rw [decrease_level_eq_self_of_structB h, skew_eq_self_of_structB h,
    skew_eq_self_of_structB (structB_right h), AAT.setRight_self]
  split
  · rw [skew_eq_self_of_structB (structB_right (structB_right h)),
      AAT.setRight_self, AAT.setRight_self, split_eq_self_of_structB h,
      split_eq_self_of_structB (structB_right h), AAT.setRight_self]
  · rw [split_eq_self_of_structB h, split_eq_self_of_structB (structB_right h),
      AAT.setRight_self]

theorem aat_compare_lt_zero {a b : Int} : aat_compare a b < 0 ↔ a < b := by
  unfold aat_compare
  repeat' split
  all_goals omega

theorem aat_compare_pos {a b : Int} : 0 < aat_compare a b ↔ b < a := by
  unfold aat_compare
  repeat' split
  all_goals omega

@[simp] theorem structB_nil : structB .nil = true := rfl

/-- `aat_delete0` of a key that is not in a structurally valid tree returns
the tree unchanged and no node: each branch is rebuilt as it was, and
`aat_delete_fixup` is the identity on a node satisfying the invariants. -/
theorem delete0_not_found : ∀ {t : AAT} {k : Int}, structB t = true →
    k ∉ t.keys → aat_delete0 t k = (t, none) := by
  intro t
  induction t with
  | nil => intro k _ _; rfl
  | node l r lv k0 id ihl ihr =>
    intro k hs hk
    simp only [AAT.keys_node, List.mem_append, List.mem_cons, not_or] at hk
    obtain ⟨hkl, hkk, hkr⟩ := hk
    have hsl := structB_left hs
    have hsr := structB_right hs
    simp only [AAT.left_node] at hsl
    simp only [AAT.right_node] at hsr
    simp only [aat_delete0]
    rcases lt_trichotomy k k0 with hlt | heq | hgt
    · have h1 : (aat_delete0 l k).1 = l := by rw [ihl hsl hkl]
      have h2 : (aat_delete0 l k).2 = none := by rw [ihl hsl hkl]
      have hc1 := eq_true (aat_compare_lt_zero.mpr hlt)
      simp only [hc1, if_true, h1, h2, AAT.isNil_node, Bool.false_eq_true, if_false]
      rw [fixup_eq_self_of_structB hs]
    · exact absurd heq hkk
    · have h1 : (aat_delete0 r k).1 = r := by rw [ihr hsr hkr]
      have h2 : (aat_delete0 r k).2 = none := by rw [ihr hsr hkr]
      have hc1 := eq_false (show ¬ aat_compare k k0 < 0 by rw [aat_compare_lt_zero]; omega)
      have hc2 := eq_true (show aat_compare k k0 > 0 from aat_compare_pos.mpr hgt)
      simp only [hc1, hc2, if_true, if_false, h1, h2, AAT.isNil_node,
        Bool.false_eq_true]
      rw [fixup_eq_self_of_structB hs]

theorem aat_valid_structB {t : AAT} (h : aat_valid t = true) : structB t = true := by
  unfold aat_valid at h
  simp only [Bool.and_eq_true] at h
  exact h.1

theorem aat_valid_increasing {t : AAT} (h : aat_valid t = true) :
    increasing t.keys = true := by
  unfold aat_valid at h
  simp only [Bool.and_eq_true] at h
  exact h.2

theorem increasing_iff_pairwise : ∀ {xs : List Int},
    increasing xs = true ↔ List.Pairwise (fun a b => a < b) xs := by
  intro xs
  induction xs with
  | nil => simp [increasing]
  | cons a l ih =>
    cases l with
    | nil => simp [increasing]
    | cons b m =>
      simp only [increasing, Bool.and_eq_true, decide_eq_true_eq, ih]
      constructor
      · rintro ⟨hab, hbm⟩
        rw [List.pairwise_cons]
        refine ⟨?_, hbm⟩
        intro x hx
        rcases List.mem_cons.mp hx with rfl | hx
        · exact hab
        · exact lt_trans hab (List.rel_of_pairwise_cons hbm hx)
      · intro h
        rw [List.pairwise_cons] at h
        exact ⟨h.1 b (List.mem_cons_self _ _), h.2⟩

/-- Ordering facts at a node of a tree with strictly increasing in-order
keys. -/
theorem pairwise_node_facts {l r : AAT} {lv : Nat} {k : Int} {id : Nat}
    (h : List.Pairwise (fun a b => a < b) (AAT.node l r lv k id).keys) :
    List.Pairwise (fun a b => a < b) l.keys ∧
    List.Pairwise (fun a b => a < b) r.keys ∧
    (∀ x ∈ l.keys, x < k) ∧ (∀ x ∈ r.keys, k < x) := by
  simp only [AAT.keys_node, List.pairwise_append, List.pairwise_cons] at h
  obtain ⟨hl, ⟨hk, hr⟩, hcross⟩ := h
  refine ⟨hl, hr, ?_, hk⟩
  intro x hx
  exact hcross x hx k (List.mem_cons_self _ _)

/-- C10: deleting a key that is not in a tree satisfying the AA invariants
returns null and leaves the tree completely unchanged, because
`aat_decrease_level`, `aat_skew`, `aat_split` (and hence the whole
`aat_delete_fixup` applied on the failed search path) are identities on any
subtree satisfying the structural invariants. -/
theorem C10_delete_missing_key_noop (t : AAT) (k : Int)
    (hv : aat_valid t = true) (hk : k ∉ t.keys) :
    aat_delete t k = (t, none) ∧
    ∀ u : AAT, structB u = true →
      aat_decrease_level u = u ∧ aat_skew u = u ∧ aat_split u = u ∧
      aat_delete_fixup u = u := by
  constructor
  · unfold aat_delete
    rw [delete0_not_found (aat_valid_structB hv) hk]
    rfl
  · intro u hu
    exact ⟨decrease_level_eq_self_of_structB hu, skew_eq_self_of_structB hu,
      split_eq_self_of_structB hu, fixup_eq_self_of_structB hu⟩

/-- Witness for C10 at a concrete tree and key. -/
theorem C10_delete_missing_key_noop_witness :
    aat_valid (AAT.node (AAT.node .nil .nil 1 0 0) (AAT.node .nil .nil 1 20 2) 2 10 1) = true ∧
    (5 : Int) ∉ (AAT.node (AAT.node .nil .nil 1 0 0) (AAT.node .nil .nil 1 20 2) 2 10 1).keys ∧
    aat_delete (AAT.node (AAT.node .nil .nil 1 0 0) (AAT.node .nil .nil 1 20 2) 2 10 1) 5 =
      (AAT.node (AAT.node .nil .nil 1 0 0) (AAT.node .nil .nil 1 20 2) 2 10 1, none) :=
  ⟨by decide, by decide,
    (C10_delete_missing_key_noop _ 5 (by decide) (by decide)).1⟩

/-- C2 counterexample: on a childless node of level 2, `aat_decrease_level`
leaves all fields unchanged, although the claimed rule computes
`desired = 1 < 2` and would lower the node's level to 1. -/
theorem C2_decrease_level_counterexample :
    aat_decrease_level (AAT.node .nil .nil 2 0 0) = AAT.node .nil .nil 2 0 0 ∧
    min (AAT.nil : AAT).lvl (AAT.nil : AAT).lvl + 1 = 1 ∧
    aat_decrease_level (AAT.node .nil .nil 2 0 0) ≠ AAT.node .nil .nil 1 0 0 := by
  decide

/-- C2 (amended): for every node with at least one child,
`aat_decrease_level` computes `desired = min(left level, right level) + 1`
(an absent child counting as level 0) and, if `desired` is below the node's
level, stores `desired` as the node's level and clamps the right child's
level to `desired` when that child exists with a higher level; otherwise the
node is unchanged.  A node with no children is always left unchanged. -/
theorem C2_decrease_level_amended (l r : AAT) (lv : Nat) (k : Int) (id : Nat) :
    aat_decrease_level (AAT.node l r lv k id) =
      if l = .nil ∧ r = .nil then AAT.node l r lv k id
      else if min l.lvl r.lvl + 1 < lv then
        AAT.node l
          (if r ≠ .nil ∧ min l.lvl r.lvl + 1 < r.lvl then
            r.setLevel (min l.lvl r.lvl + 1) else r)
          (min l.lvl r.lvl + 1) k id
      else AAT.node l r lv k id := by
  cases l <;> cases r <;>
    simp only [aat_decrease_level, AAT.isNil_nil, AAT.isNil_node, AAT.lvl_nil,
      AAT.lvl_node, Bool.and_true, Bool.and_false, Bool.not_true, Bool.not_false,
      Bool.true_and, Bool.false_and, Bool.and_self, Nat.min_self, Nat.zero_min,
      Nat.min_zero, if_true, if_false, ne_eq, reduceCtorEq, not_false_eq_true,
      true_and, and_true, and_self, not_true_eq_false, false_and, and_false] <;>
    repeat' split
  all_goals simp_all

/-- The level of the right child never exceeds the node's level in a
structurally valid tree. -/
theorem structB_right_lvl_le {t : AAT} (h : structB t = true) :
    t.right.lvl ≤ t.lvl := by
  cases t with
  | nil => exact le_refl _
  | node l r lv k id =>
    rw [structB_node] at h
    obtain ⟨_, _, _, _, h3, _, _⟩ := h
    cases r with
    | nil => simp
    | node a b c d e =>
      have := h3 (by simp)
      simp only [AAT.right_node, AAT.lvl_node] at *
      omega

/-- Delete-fixup, case "left child one level too low, right child one below
the node": the node's level is lowered, then a split may rebuild it. -/
theorem fixup_caseA {l rl rr : AAT} {rlv lv : Nat} {rk k : Int} {rid id : Nat}
    (hl : structB l = true) (hr0 : structB (AAT.node rl rr rlv rk rid) = true)
    (ha : l.lvl + 2 = lv) (hb : rlv + 1 = lv) :
    ∃ u : AAT,
      aat_delete_fixup (AAT.node l (AAT.node rl rr rlv rk rid) lv k id) = u ∧
      structB u = true ∧ (u.lvl = lv ∨ u.lvl + 1 = lv) ∧
      (u.lvl = lv → sngl u = true) := by
  subst hb
  have hr := structB_node.mp hr0
  obtain ⟨hrl, hrr, hr1, hr2, hr3, hr4, hr5⟩ := hr
  have ha1 : l.lvl + 1 = rlv := by omega
  have h1 : aat_decrease_level (AAT.node l (AAT.node rl rr rlv rk rid) (rlv + 1) k id) =
      AAT.node l (AAT.node rl rr rlv rk rid) rlv k id := by
    unfold aat_decrease_level
    cases l with
    | nil =>
      simp only [AAT.lvl_nil] at ha1
      simp only [AAT.isNil_nil, AAT.isNil_node, AAT.lvl_node, AAT.setLevel_node,
        Bool.not_true, Bool.not_false]
      repeat' split
      all_goals simp_all [AAT.node.injEq]
      all_goals omega
    | node a b c d e =>
      simp only [AAT.lvl_node] at ha1
      simp only [AAT.isNil_nil, AAT.isNil_node, AAT.lvl_node, AAT.setLevel_node,
        Bool.not_true, Bool.not_false]
      repeat' split
      all_goals simp_all [AAT.node.injEq]
      all_goals omega
  have h2 : aat_skew (AAT.node l (AAT.node rl rr rlv rk rid) rlv k id) =
      AAT.node l (AAT.node rl rr rlv rk rid) rlv k id := by
    cases l with
    | nil => rfl
    | node a b c d e =>
      simp only [AAT.lvl_node] at ha1
      unfold aat_skew
      simp only
      rw [if_neg (by omega)]
  have h3 := skew_eq_self_of_structB hr0
  by_cases hA1 : rr.lvl = rlv
  · cases rr with
    | nil =>
      simp only [AAT.lvl_nil] at hA1
      exact absurd ha1 (by omega)
    | node w x y z i =>
      simp only [AAT.lvl_node] at hA1
      have h4 := skew_eq_self_of_structB hrr
      have h5 : aat_split
          (AAT.node l (AAT.node rl (AAT.node w x y z i) rlv rk rid) rlv k id) =
          AAT.node (AAT.node l rl rlv k id) (AAT.node w x y z i) (rlv + 1) rk rid := by
        unfold aat_split
        simp only
        rw [if_pos hA1]
      refine ⟨AAT.node (AAT.node l rl rlv k id) (AAT.node w x y z i) (rlv + 1) rk rid,
        ?_, ?_, Or.inl rfl, ?_⟩
      · unfold aat_delete_fixup
        simp only
        rw [h1, h2]
        try simp only [AAT.right_node]
        rw [h3]
        try simp only [AAT.setRight_node, AAT.isNil_node, Bool.not_false,
          Bool.and_self, AAT.right_node, if_true]
        rw [h4]
        try simp only [AAT.setRight_node]
        rw [h5]
        try simp only [AAT.right_node]
        rw [split_eq_self_of_structB hrr]
        try simp only [AAT.setRight_node]
      · rw [structB_node]
        have hwle : (AAT.node w x y z i).right.lvl ≤ y := structB_right_lvl_le hrr
        simp only [AAT.right_node] at hwle
        refine ⟨?_, hrr, ?_, ?_, ?_, ?_, ?_⟩
        · rw [structB_node]
          refine ⟨hl, hrl, ?_, ?_, ?_, ?_, ?_⟩
          · intro hln hrln
            subst hln
            simp only [AAT.lvl_nil] at ha1
            omega
          · intro _
            exact ha1
          · intro hrln
            have := hr2 hrln
            omega
          · intro hrln hrrn
            have h6 : rl.right.lvl ≤ rl.lvl := structB_right_lvl_le hrl
            have := hr2 hrln
            omega
          · intro hgt
            constructor
            · intro hln
              subst hln
              simp only [AAT.lvl_nil] at ha1
              omega
            · exact (hr5 (by omega)).1
        · intro _ h
          exact absurd h (by simp)
        · intro _
          simp
        · intro _
          simp only [AAT.lvl_node]
          omega
        · intro _ hxn
          simp only [AAT.right_node]
          omega
        · intro _
          exact ⟨by simp, by simp⟩
      · intro _
        simp only [sngl, AAT.lvl_node, decide_eq_true_eq]
        omega
  · refine ⟨AAT.node l (AAT.node rl rr rlv rk rid) rlv k id, ?_, ?_, Or.inr rfl, ?_⟩
    · have hsp : aat_split (AAT.node l (AAT.node rl rr rlv rk rid) rlv k id) =
          AAT.node l (AAT.node rl rr rlv rk rid) rlv k id := by
        cases rr with
        | nil => rfl
        | node w x y z i =>
          simp only [AAT.lvl_node] at hA1
          unfold aat_split
          simp only
          rw [if_neg hA1]
      unfold aat_delete_fixup
      simp only
      rw [h1, h2]
      try simp only [AAT.right_node]
      rw [h3]
      try simp only [AAT.setRight_node, AAT.isNil_node, Bool.not_false,
        AAT.right_node]
      cases rr with
      | nil =>
        try simp only [AAT.isNil_nil, Bool.not_true, Bool.and_false,
          Bool.false_eq_true, if_false]
        rw [hsp]
        try simp only [AAT.right_node]
        rw [split_eq_self_of_structB hr0]
        try simp only [AAT.setRight_node]
      | node w x y z i =>
        try simp only [AAT.isNil_node, Bool.not_false, Bool.and_self, if_true,
          AAT.right_node]
        rw [skew_eq_self_of_structB hrr]
        try simp only [AAT.setRight_node]
        rw [hsp]
        try simp only [AAT.right_node]
        rw [split_eq_self_of_structB hr0]
        try simp only [AAT.setRight_node]
    · rw [structB_node]
      have hrle : (AAT.node rl rr rlv rk rid).right.lvl ≤ rlv :=
        structB_right_lvl_le hr0
      simp only [AAT.right_node] at hrle
      refine ⟨hl, hr0, ?_, ?_, ?_, ?_, ?_⟩
      · intro _ h
        exact absurd h (by simp)
      · intro _
        exact ha1
      · exact fun _ => Or.inl rfl
      · intro _ hrrn
        simp only [AAT.right_node, AAT.lvl_node]
        omega
      · intro hgt
        refine ⟨?_, by simp⟩
        intro hln
        subst hln
        simp only [AAT.lvl_nil] at ha1
        omega
    · intro h
      simp only [AAT.lvl_node] at h
      omega


/-- Delete-fixup, case "left child one level too low, right child horizontal
(at the node's level) but itself single": the levels of the node and the
right child are clamped, skews roll the left-horizontal links away, and the
splits rebuild a subtree at the original level. -/
theorem fixup_caseB {l rl rr : AAT} {lv : Nat} {rk k : Int} {rid id : Nat}
    (hl : structB l = true) (hr0 : structB (AAT.node rl rr lv rk rid) = true)
    (ha : l.lvl + 2 = lv) (hB : rr ≠ .nil → rr.lvl < lv) :
    ∃ u : AAT,
      aat_delete_fixup (AAT.node l (AAT.node rl rr lv rk rid) lv k id) = u ∧
      structB u = true ∧ u.lvl = lv := by
  have hr := structB_node.mp hr0
  obtain ⟨hrl, hrr, hr1, hr2, hr3, hr4, hr5⟩ := hr
  have hlv : 1 < lv := by omega
  obtain ⟨hrln, hrrn⟩ := hr5 hlv
  have hrllvl : rl.lvl + 1 = lv := hr2 hrln
  have hrrlvl : rr.lvl + 1 = lv := by
    rcases hr3 hrrn with h | h
    · exact absurd h (by have := hB hrrn; omega)
    · exact h
  have hrrle : rr.right.lvl ≤ rr.lvl := structB_right_lvl_le hrr
  cases rl with
  | nil => exact absurd rfl hrln
  | node rla rlb rlvl rlk rlid =>
  simp only [AAT.lvl_node] at hrllvl
  obtain ⟨hrla, hrlb, hrl1, hrl2, hrl3, hrl4, hrl5⟩ := structB_node.mp hrl
  have h1 : aat_decrease_level
      (AAT.node l (AAT.node (AAT.node rla rlb rlvl rlk rlid) rr lv rk rid) lv k id) =
      AAT.node l (AAT.node (AAT.node rla rlb rlvl rlk rlid) rr rlvl rk rid) rlvl k id := by
    unfold aat_decrease_level
    cases l with
    | nil =>
      simp only [AAT.lvl_nil] at ha
      simp only [AAT.isNil_nil, AAT.isNil_node, AAT.lvl_node, AAT.setLevel_node,
        Bool.not_true, Bool.not_false]
      repeat' split
      all_goals simp_all [AAT.node.injEq]
      all_goals omega
    | node a b c d e =>
      simp only [AAT.lvl_node] at ha
      simp only [AAT.isNil_nil, AAT.isNil_node, AAT.lvl_node, AAT.setLevel_node,
        Bool.not_true, Bool.not_false]
      repeat' split
      all_goals simp_all [AAT.node.injEq]
      all_goals omega
  have h2 : aat_skew
      (AAT.node l (AAT.node (AAT.node rla rlb rlvl rlk rlid) rr rlvl rk rid) rlvl k id) =
      AAT.node l (AAT.node (AAT.node rla rlb rlvl rlk rlid) rr rlvl rk rid) rlvl k id := by
    cases l with
    | nil => rfl
    | node a b c d e =>
      simp only [AAT.lvl_node] at ha
      unfold aat_skew
      simp only
      rw [if_neg (by omega)]
  have h3 : aat_skew (AAT.node (AAT.node rla rlb rlvl rlk rlid) rr rlvl rk rid) =
      AAT.node rla (AAT.node rlb rr rlvl rk rid) rlvl rlk rlid := by
    unfold aat_skew
    simp
  have hL1 : structB (AAT.node l rla rlvl k id) = true := by
    rw [structB_node]
    refine ⟨hl, hrla, ?_, ?_, ?_, ?_, ?_⟩
    · intro hln _
      subst hln
      simp only [AAT.lvl_nil] at ha
      omega
    · intro _
      omega
    · intro hrlan
      have := hrl2 hrlan
      omega
    · intro hrlan _
      have := structB_right_lvl_le hrla
      have := hrl2 hrlan
      omega
    · intro hgt
      constructor
      · intro hln
        subst hln
        simp only [AAT.lvl_nil] at ha
        omega
      · exact (hrl5 (by omega)).1
  by_cases hH : rlb.lvl = rlvl
  · -- the clamped right child has a horizontal left link and a horizontal
    -- right link: second skew, first split and second split all fire
    cases rlb with
    | nil =>
      simp only [AAT.lvl_nil] at hH
      exfalso
      omega
    | node p q plvl pk pid =>
    simp only [AAT.lvl_node] at hH
    refine ⟨AAT.node (AAT.node l rla rlvl k id)
        (AAT.node (AAT.node p q plvl pk pid) rr (rlvl + 1) rk rid)
        (rlvl + 1) rlk rlid, ?_, ?_, by simp only [AAT.lvl_node]; omega⟩
    · unfold aat_delete_fixup
      simp only
      rw [h1, h2]
      try simp only [AAT.right_node]
      rw [h3]
      try simp only [AAT.setRight_node, AAT.isNil_node, Bool.not_false,
        Bool.and_self, AAT.right_node, if_true]
      have h4 : aat_skew (AAT.node (AAT.node p q plvl pk pid) rr rlvl rk rid) =
          AAT.node p (AAT.node q rr rlvl rk rid) plvl pk pid := by
        unfold aat_skew
        simp only
        rw [if_pos hH]
      rw [h4]
      try simp only [AAT.setRight_node]
      have h5 : aat_split
          (AAT.node l (AAT.node rla (AAT.node p (AAT.node q rr rlvl rk rid) plvl pk pid)
            rlvl rlk rlid) rlvl k id) =
          AAT.node (AAT.node l rla rlvl k id)
            (AAT.node p (AAT.node q rr rlvl rk rid) plvl pk pid) (rlvl + 1) rlk rlid := by
        unfold aat_split
        simp only
        rw [if_pos hH]
      rw [h5]
      try simp only [AAT.right_node]
      cases rr with
      | nil => exact absurd rfl hrrn
      | node rra rrb rrlvl rrk rrid =>
        simp only [AAT.lvl_node] at hrrlvl
        have h6 : aat_split
            (AAT.node p (AAT.node q (AAT.node rra rrb rrlvl rrk rrid) rlvl rk rid)
              plvl pk pid) =
            AAT.node (AAT.node p q plvl pk pid) (AAT.node rra rrb rrlvl rrk rrid)
              (rlvl + 1) rk rid := by
          unfold aat_split
          simp only
          rw [if_pos (by omega)]
        rw [h6]
        try simp only [AAT.setRight_node]
    · rw [structB_node]
      refine ⟨hL1, ?_, ?_, ?_, ?_, ?_, ?_⟩
      · rw [structB_node]
        refine ⟨hrlb, hrr, ?_, ?_, ?_, ?_, ?_⟩
        · intro h
          exact absurd h (by simp)
        · intro _
          simp only [AAT.lvl_node]
          omega
        · intro _
          omega
        · intro _ _
          omega
        · intro _
          exact ⟨by simp, hrrn⟩
      · intro h
        exact absurd h (by simp)
      · intro _
        simp only [AAT.lvl_node]
      · intro _
        exact Or.inl rfl
      · intro _ _
        simp only [AAT.right_node]
        omega
      · intro _
        exact ⟨by simp, by simp⟩
  · -- the clamped right child has no horizontal left link: only the first
    -- split fires, and possibly the second split one level down
    have h4 : aat_skew (AAT.node rlb rr rlvl rk rid) = AAT.node rlb rr rlvl rk rid := by
      cases rlb with
      | nil => rfl
      | node p q plvl pk pid =>
        simp only [AAT.lvl_node] at hH
        unfold aat_skew
        simp only
        rw [if_neg hH]
    have hrlblvl : rlb ≠ .nil → rlb.lvl + 1 = rlvl := by
      intro h
      rcases hrl3 h with h2 | h2
      · exact absurd h2 hH
      · exact h2
    cases rr with
    | nil => exact absurd rfl hrrn
    | node rra rrb rrlvl rrk rrid =>
    simp only [AAT.lvl_node] at hrrlvl
    simp only [AAT.right_node, AAT.lvl_node] at hrrle
    obtain ⟨hrra, hrrb, hq1, hq2, hq3, hq4, hq5⟩ := structB_node.mp hrr
    by_cases hNa : rrb.lvl = rlvl
    · -- the right grandchild is horizontal after the clamp: second split fires
      cases rrb with
      | nil =>
        simp only [AAT.lvl_nil] at hNa
        exfalso
        omega
      | node w2 x2 y2 z2 i2 =>
      simp only [AAT.lvl_node] at hNa
      refine ⟨AAT.node (AAT.node l rla rlvl k id)
          (AAT.node (AAT.node rlb rra rlvl rk rid) (AAT.node w2 x2 y2 z2 i2)
            (rrlvl + 1) rrk rrid)
          (rlvl + 1) rlk rlid, ?_, ?_, by simp only [AAT.lvl_node]; omega⟩
      · unfold aat_delete_fixup
        simp only
        rw [h1, h2]
        try simp only [AAT.right_node]
        rw [h3]
        try simp only [AAT.setRight_node, AAT.isNil_node, Bool.not_false,
          Bool.and_self, AAT.right_node, if_true]
        rw [h4]
        try simp only [AAT.setRight_node]
        have h5 : aat_split
            (AAT.node l (AAT.node rla
              (AAT.node rlb (AAT.node rra (AAT.node w2 x2 y2 z2 i2) rrlvl rrk rrid)
                rlvl rk rid) rlvl rlk rlid) rlvl k id) =
            AAT.node (AAT.node l rla rlvl k id)
              (AAT.node rlb (AAT.node rra (AAT.node w2 x2 y2 z2 i2) rrlvl rrk rrid)
                rlvl rk rid) (rlvl + 1) rlk rlid := by
          unfold aat_split
          simp only
          simp
        rw [h5]
        try simp only [AAT.right_node]
        have h6 : aat_split
            (AAT.node rlb (AAT.node rra (AAT.node w2 x2 y2 z2 i2) rrlvl rrk rrid)
              rlvl rk rid) =
            AAT.node (AAT.node rlb rra rlvl rk rid) (AAT.node w2 x2 y2 z2 i2)
              (rrlvl + 1) rrk rrid := by
          unfold aat_split
          simp only
          rw [if_pos (by omega)]
        rw [h6]
        try simp only [AAT.setRight_node]
      · rw [structB_node]
        have hx2le : (AAT.node w2 x2 y2 z2 i2).right.lvl ≤ y2 :=
          structB_right_lvl_le hrrb
        simp only [AAT.right_node] at hx2le
        refine ⟨hL1, ?_, ?_, ?_, ?_, ?_, ?_⟩
        · rw [structB_node]
          refine ⟨?_, hrrb, ?_, ?_, ?_, ?_, ?_⟩
          · rw [structB_node]
            refine ⟨hrlb, hrra, ?_, ?_, ?_, ?_, ?_⟩
            · intro hrlbn _
              have : ¬ (1 < rlvl) := fun hgt => (hrl5 hgt).2 hrlbn
              omega
            · intro h
              have := hrlblvl h
              omega
            · intro h
              have := hq2 h
              omega
            · intro h _
              have := structB_right_lvl_le hrra
              have := hq2 h
              omega
            · intro hgt
              exact ⟨(hrl5 (by omega)).2, (hq5 (by omega)).1⟩
          · intro h
            exact absurd h (by simp)
          · intro _
            simp only [AAT.lvl_node]
            omega
          · intro _
            simp only [AAT.lvl_node]
            omega
          · intro _ _
            simp only [AAT.right_node]
            omega
          · intro _
            exact ⟨by simp, by simp⟩
        · intro h
          exact absurd h (by simp)
        · intro _
          simp only [AAT.lvl_node]
        · intro _
          simp only [AAT.lvl_node]
          omega
        · intro _ _
          simp only [AAT.right_node, AAT.lvl_node]
          omega
        · intro _
          exact ⟨by simp, by simp⟩
    · -- the right grandchild is not horizontal: only the first split fires
      refine ⟨AAT.node (AAT.node l rla rlvl k id)
          (AAT.node rlb (AAT.node rra rrb rrlvl rrk rrid) rlvl rk rid)
          (rlvl + 1) rlk rlid, ?_, ?_, by simp only [AAT.lvl_node]; omega⟩
      · unfold aat_delete_fixup
        simp only
        rw [h1, h2]
        try simp only [AAT.right_node]
        rw [h3]
        try simp only [AAT.setRight_node, AAT.isNil_node, Bool.not_false,
          Bool.and_self, AAT.right_node, if_true]
        rw [h4]
        try simp only [AAT.setRight_node]
        have h5 : aat_split
            (AAT.node l (AAT.node rla
              (AAT.node rlb (AAT.node rra rrb rrlvl rrk rrid) rlvl rk rid)
              rlvl rlk rlid) rlvl k id) =
            AAT.node (AAT.node l rla rlvl k id)
              (AAT.node rlb (AAT.node rra rrb rrlvl rrk rrid) rlvl rk rid)
              (rlvl + 1) rlk rlid := by
          unfold aat_split
          simp only
          simp
        rw [h5]
        try simp only [AAT.right_node]
        have h6 : aat_split
            (AAT.node rlb (AAT.node rra rrb rrlvl rrk rrid) rlvl rk rid) =
            AAT.node rlb (AAT.node rra rrb rrlvl rrk rrid) rlvl rk rid := by
          cases rrb with
          | nil => rfl
          | node w2 x2 y2 z2 i2 =>
            simp only [AAT.lvl_node] at hNa
            unfold aat_split
            simp only
            rw [if_neg hNa]
        rw [h6]
        try simp only [AAT.setRight_node]
      · rw [structB_node]
        refine ⟨hL1, ?_, ?_, ?_, ?_, ?_, ?_⟩
        · rw [structB_node]
          refine ⟨hrlb, hrr, ?_, ?_, ?_, ?_, ?_⟩
          · intro _ h
            exact absurd h (by simp)
          · intro h
            exact hrlblvl h
          · intro _
            simp only [AAT.lvl_node]
            omega
          · intro _ hrrbn
            simp only [AAT.right_node]
            have : 1 ≤ rrb.lvl := structB_lvl_pos hrrb hrrbn
            omega
          · intro hgt
            exact ⟨(hrl5 hgt).2, by simp⟩
        · intro h
          exact absurd h (by simp)
        · intro _
          simp only [AAT.lvl_node]
        · intro _
          exact Or.inr rfl
        · intro _ _
          simp only [AAT.right_node, AAT.lvl_node]
          omega
        · intro _
          exact ⟨by simp, by simp⟩

/-- Delete-fixup, case "right child two levels too low": the node's level is
lowered next to the left child's, the first skew rotates the left child up,
and a split may rebuild the original level. -/
theorem fixup_caseC {l r : AAT} {lv : Nat} {k : Int} {id : Nat}
    (hl : structB l = true) (hr : structB r = true)
    (ha : l.lvl + 1 = lv) (hb : r.lvl + 2 = lv) :
    ∃ u : AAT,
      aat_delete_fixup (AAT.node l r lv k id) = u ∧
      structB u = true ∧ (u.lvl = lv ∨ u.lvl + 1 = lv) ∧
      (u.lvl = lv → sngl u = true) := by
  have hrrle : r.right.lvl ≤ r.lvl := structB_right_lvl_le hr
  have hrnn : 1 ≤ r.lvl → r ≠ .nil := by
    intro h1 h2
    subst h2
    simp only [AAT.lvl_nil] at h1
    omega
  cases l with
  | nil =>
    simp only [AAT.lvl_nil] at ha
    exact absurd ha (by omega)
  | node la lb llvl lk lid =>
  simp only [AAT.lvl_node] at ha
  obtain ⟨hla, hlb, hl1, hl2, hl3, hl4, hl5⟩ := structB_node.mp
    (show structB (AAT.node la lb llvl lk lid) = true from hl)
  have h1 : aat_decrease_level (AAT.node (AAT.node la lb llvl lk lid) r lv k id) =
      AAT.node (AAT.node la lb llvl lk lid) r llvl k id := by
    unfold aat_decrease_level
    cases r with
    | nil =>
      simp only [AAT.lvl_nil] at hb
      simp only [AAT.isNil_nil, AAT.isNil_node, AAT.lvl_node, AAT.lvl_nil,
        AAT.setLevel_nil, Bool.not_true, Bool.not_false]
      repeat' split
      all_goals simp_all [AAT.node.injEq]
      all_goals omega
    | node ra rb ralvl rak raid =>
      simp only [AAT.lvl_node] at hb
      simp only [AAT.isNil_nil, AAT.isNil_node, AAT.lvl_node, AAT.setLevel_node,
        Bool.not_true, Bool.not_false]
      repeat' split
      all_goals simp_all [AAT.node.injEq]
      all_goals omega
  have h2 : aat_skew (AAT.node (AAT.node la lb llvl lk lid) r llvl k id) =
      AAT.node la (AAT.node lb r llvl k id) llvl lk lid := by
    unfold aat_skew
    simp
  by_cases hH : lb.lvl = llvl
  · -- the left child's right link was horizontal: after the skew it is a
    -- left-horizontal link one level down, the second skew and the first
    -- split fire
    cases lb with
    | nil =>
      simp only [AAT.lvl_nil] at hH
      exfalso
      omega
    | node p q plvl pk pid =>
    simp only [AAT.lvl_node] at hH
    obtain ⟨hp, hq, hc1, hc2, hc3, hc4, hc5⟩ := structB_node.mp hlb
    have hqlt := hl4 (by simp) 
    simp only [AAT.right_node] at hqlt
    refine ⟨AAT.node (AAT.node la p llvl lk lid) (AAT.node q r llvl k id)
        (plvl + 1) pk pid, ?_, ?_, by simp only [AAT.lvl_node]; omega, ?_⟩
    · unfold aat_delete_fixup
      simp only
      rw [h1, h2]
      try simp only [AAT.right_node]
      have h3 : aat_skew (AAT.node (AAT.node p q plvl pk pid) r llvl k id) =
          AAT.node p (AAT.node q r llvl k id) plvl pk pid := by
        unfold aat_skew
        simp only
        rw [if_pos hH]
      rw [h3]
      try simp only [AAT.setRight_node, AAT.isNil_node, Bool.not_false,
        Bool.and_self, AAT.right_node, if_true]
      have h4 : aat_skew (AAT.node q r llvl k id) = AAT.node q r llvl k id := by
        cases q with
        | nil => rfl
        | node w2 x2 y2 z2 i2 =>
          have := hqlt (by simp)
          simp only [AAT.lvl_node] at this
          unfold aat_skew
          simp only
          rw [if_neg (by omega)]
      rw [h4]
      try simp only [AAT.setRight_node]
      have h5 : aat_split
          (AAT.node la (AAT.node p (AAT.node q r llvl k id) plvl pk pid) llvl lk lid) =
          AAT.node (AAT.node la p llvl lk lid) (AAT.node q r llvl k id)
            (plvl + 1) pk pid := by
        unfold aat_split
        simp only
        simp
      rw [h5]
      try simp only [AAT.right_node]
      have h6 : aat_split (AAT.node q r llvl k id) = AAT.node q r llvl k id := by
        cases r with
        | nil => rfl
        | node ra rb ralvl rak raid =>
          cases rb with
          | nil => rfl
          | node w2 x2 y2 z2 i2 =>
            simp only [AAT.lvl_node] at hb
            have : (AAT.node ra (AAT.node w2 x2 y2 z2 i2) ralvl rak raid).right.lvl ≤ ralvl :=
              structB_right_lvl_le hr
            simp only [AAT.right_node, AAT.lvl_node] at this
            unfold aat_split
            simp only
            rw [if_neg (by omega)]
      rw [h6]
      try simp only [AAT.setRight_node]
    · rw [structB_node]
      refine ⟨?_, ?_, ?_, ?_, ?_, ?_, ?_⟩
      · rw [structB_node]
        refine ⟨hla, hp, ?_, ?_, ?_, ?_, ?_⟩
        · intro hlan _
          have : ¬ (1 < llvl) := fun hgt => (hl5 hgt).1 hlan
          omega
        · intro hlan
          exact hl2 hlan
        · intro hpn
          have := hc2 hpn
          omega
        · intro hpn _
          have := structB_right_lvl_le hp
          have := hc2 hpn
          omega
        · intro hgt
          exact ⟨(hl5 (by omega)).1, (hc5 (by omega)).1⟩
      · rw [structB_node]
        refine ⟨hq, hr, ?_, ?_, ?_, ?_, ?_⟩
        · intro hqn hrn
          have : ¬ (1 < plvl) := fun hgt => (hc5 hgt).2 hqn
          omega
        · intro hqn
          have h7 := hqlt hqn
          simp only [AAT.lvl_node] at h7
          rcases hc3 hqn with h8 | h8 <;> omega
        · intro hrn
          omega
        · intro _ hrrn
          omega
        · intro hgt
          exact ⟨(hc5 (by omega)).2, hrnn (by omega)⟩
      · intro h
        exact absurd h (by simp)
      · intro _
        simp only [AAT.lvl_node]
        omega
      · intro _
        simp only [AAT.lvl_node]
        omega
      · intro _ _
        simp only [AAT.right_node, AAT.lvl_node]
        omega
      · intro _
        exact ⟨by simp, by simp⟩
    · intro _
      simp only [sngl, AAT.lvl_node, decide_eq_true_eq]
      omega
  · -- no horizontal link inside the left child: the subtree settles one
    -- level down with a horizontal right link
    have hlblvl : lb ≠ .nil → lb.lvl + 1 = llvl := by
      intro h
      rcases hl3 h with h2 | h2
      · exact absurd h2 hH
      · exact h2
    refine ⟨AAT.node la (AAT.node lb r llvl k id) llvl lk lid, ?_, ?_,
      by simp only [AAT.lvl_node]; omega, ?_⟩
    · unfold aat_delete_fixup
      simp only
      rw [h1, h2]
      try simp only [AAT.right_node]
      have h3 : aat_skew (AAT.node lb r llvl k id) = AAT.node lb r llvl k id := by
        cases lb with
        | nil => rfl
        | node p q plvl pk pid =>
          simp only [AAT.lvl_node] at hH
          unfold aat_skew
          simp only
          rw [if_neg hH]
      rw [h3]
      try simp only [AAT.setRight_node, AAT.isNil_node, Bool.not_false,
        Bool.and_self, AAT.right_node, if_true]
      have h5 : aat_split (AAT.node la (AAT.node lb r llvl k id) llvl lk lid) =
          AAT.node la (AAT.node lb r llvl k id) llvl lk lid := by
        cases r with
        | nil => rfl
        | node ra rb ralvl rak raid =>
          simp only [AAT.lvl_node] at hb
          unfold aat_split
          simp only
          rw [if_neg (by omega)]
      have h6 : aat_split (AAT.node lb r llvl k id) = AAT.node lb r llvl k id := by
        cases r with
        | nil => rfl
        | node ra rb ralvl rak raid =>
          cases rb with
          | nil => rfl
          | node w2 x2 y2 z2 i2 =>
            simp only [AAT.lvl_node] at hb
            have : (AAT.node ra (AAT.node w2 x2 y2 z2 i2) ralvl rak raid).right.lvl ≤ ralvl :=
              structB_right_lvl_le hr
            simp only [AAT.right_node, AAT.lvl_node] at this
            unfold aat_split
            simp only
            rw [if_neg (by omega)]
      cases r with
      | nil =>
        try simp only [AAT.right_nil, AAT.isNil_nil, Bool.not_true, Bool.and_false,
          Bool.false_eq_true, if_false]
        cases lb with
        | nil =>
          rw [h5]
          try simp only [AAT.right_node]
          rw [h6]
          try simp only [AAT.setRight_node]
        | node p q plvl pk pid =>
          rw [h5]
          try simp only [AAT.right_node]
          rw [h6]
          try simp only [AAT.setRight_node]
      | node ra rb ralvl rak raid =>
        try simp only [AAT.isNil_node, Bool.not_false, Bool.and_self, if_true,
          AAT.right_node]
        rw [skew_eq_self_of_structB hr]
        try simp only [AAT.setRight_node]
        rw [h5]
        try simp only [AAT.right_node]
        rw [h6]
        try simp only [AAT.setRight_node]
    · rw [structB_node]
      refine ⟨hla, ?_, ?_, ?_, ?_, ?_, ?_⟩
      · rw [structB_node]
        refine ⟨hlb, hr, ?_, ?_, ?_, ?_, ?_⟩
        · intro hlbn hrn
          have : ¬ (1 < llvl) := fun hgt => (hl5 hgt).2 hlbn
          omega
        · intro h
          exact hlblvl h
        · intro hrn
          omega
        · intro hrn hrrn
          omega
        · intro hgt
          exact ⟨(hl5 hgt).2, hrnn (by omega)⟩
      · intro _ h2
        exact absurd h2 (by simp)
      · intro hlan
        exact hl2 hlan
      · intro _
        exact Or.inl rfl
      · intro _ _
        simp only [AAT.right_node, AAT.lvl_node]
        omega
      · intro hgt
        exact ⟨(hl5 hgt).1, by simp⟩
    · intro h
      simp only [AAT.lvl_node] at h
      omega

/-- Assemble the structural invariant at a node from local level facts. -/
theorem structB_node_of_parts {l r : AAT} {lv : Nat} {k : Int} {id : Nat}
    (hl : structB l = true) (hr : structB r = true)
    (hll : l.lvl + 1 = lv)
    (hrl : r.lvl = lv ∨ r.lvl + 1 = lv)
    (h4 : r.right ≠ .nil → r.right.lvl < lv) :
    structB (AAT.node l r lv k id) = true := by
  rw [structB_node]
  refine ⟨hl, hr, ?_, fun _ => hll, fun _ => hrl, fun _ => h4, ?_⟩
  · intro hln _
    subst hln
    simp only [AAT.lvl_nil] at hll
    omega
  · intro hgt
    constructor
    · intro hln
      subst hln
      simp only [AAT.lvl_nil] at hll
      omega
    · intro hrn
      subst hrn
      simp only [AAT.lvl_nil] at hrl
      omega

/-- The core delete-fixup lemma: in every pre-fixup state reached by the
delete family, `aat_delete_fixup` restores the structural invariants, the
root level drops by at most one, and if the level is kept but the result has
a right-horizontal link then the right child was horizontal already before
the fixup. -/
theorem fixup_preFix {l r : AAT} {lv : Nat} {k : Int} {id : Nat}
    (h : PreFix (AAT.node l r lv k id)) :
    structB (aat_delete_fixup (AAT.node l r lv k id)) = true ∧
    ((aat_delete_fixup (AAT.node l r lv k id)).lvl = lv ∨
      (aat_delete_fixup (AAT.node l r lv k id)).lvl + 1 = lv) ∧
    ((aat_delete_fixup (AAT.node l r lv k id)).lvl = lv →
      sngl (aat_delete_fixup (AAT.node l r lv k id)) = false → r.lvl = lv) := by
  obtain ⟨hl, hr, hcase⟩ := h
  rcases hcase with ⟨hld, hrnn, hrlvl, hr4⟩ | ⟨hald, hrd, hsng⟩
  · rcases hld with hld | hld
    · -- no level deficit on the left: the node satisfies the invariants
      have hs : structB (AAT.node l r lv k id) = true :=
        structB_node_of_parts hl hr hld hrlvl hr4
      rw [fixup_eq_self_of_structB hs]
      refine ⟨hs, Or.inl rfl, ?_⟩
      intro _ hsn
      simp only [sngl, decide_eq_false_iff_not, AAT.lvl_node] at hsn
      omega
    · rcases hrlvl with hb | hb
      · -- right child horizontal: case B
        cases r with
        | nil => exact absurd rfl hrnn
        | node rl rr rlv2 rk rid2 =>
          simp only [AAT.lvl_node] at hb
          subst hb
          simp only [AAT.right_node] at hr4
          obtain ⟨u, hu, hsu, hlu⟩ := @fixup_caseB l rl rr rlv2 rk k rid2 id hl hr hld hr4
          rw [hu]
          exact ⟨hsu, Or.inl hlu, fun _ _ => rfl⟩
      · -- right child one below: case A
        cases r with
        | nil => exact absurd rfl hrnn
        | node rl rr rlv2 rk rid2 =>
          simp only [AAT.lvl_node] at hb
          obtain ⟨u, hu, hsu, hlu, hs3⟩ := @fixup_caseA l rl rr rlv2 lv rk k rid2 id hl hr hld hb
          rw [hu]
          refine ⟨hsu, hlu, ?_⟩
          intro h1 h2
          rw [hs3 h1] at h2
          exact absurd h2 (by simp)
  · rcases hrd with hb | hb | hb
    · -- right child kept the level and is single: invariants hold
      have hrn : r ≠ .nil := by
        intro h2
        subst h2
        simp only [AAT.lvl_nil] at hb
        omega
      have h4 : r.right ≠ .nil → r.right.lvl < lv := by
        intro _
        have := hsng hb
        cases r with
        | nil => exact absurd rfl hrn
        | node r1 r2 rlv2 rk2 rid2 =>
          simp only [sngl, decide_eq_true_eq] at this
          simp only [AAT.right_node]
          simp only [AAT.lvl_node] at hb
          omega
      have hs : structB (AAT.node l r lv k id) = true :=
        structB_node_of_parts hl hr hald (Or.inl hb) h4
      rw [fixup_eq_self_of_structB hs]
      exact ⟨hs, Or.inl rfl, fun _ _ => hb⟩
    · -- right child one below: invariants hold
      have h4 : r.right ≠ .nil → r.right.lvl < lv := by
        intro _
        have := structB_right_lvl_le hr
        omega
      have hs : structB (AAT.node l r lv k id) = true :=
        structB_node_of_parts hl hr hald (Or.inr hb) h4
      rw [fixup_eq_self_of_structB hs]
      refine ⟨hs, Or.inl rfl, ?_⟩
      intro _ hsn
      simp only [sngl, decide_eq_false_iff_not, AAT.lvl_node] at hsn
      omega
    · -- right child two below: case C
      obtain ⟨u, hu, hsu, hlu, hs3⟩ := @fixup_caseC l r lv k id hl hr hald hb
      rw [hu]
      refine ⟨hsu, hlu, ?_⟩
      intro h1 h2
      rw [hs3 h1] at h2
      exact absurd h2 (by simp)

/-- `aat_delete_first0` preserves the structural invariants, lowers the
subtree level by at most one, and keeps a "single" root single when the
level is kept. -/
theorem delete_first0_ok : ∀ {t : AAT}, structB t = true →
    structB (aat_delete_first0 t).1 = true ∧
    ((aat_delete_first0 t).1.lvl = t.lvl ∨ (aat_delete_first0 t).1.lvl + 1 = t.lvl) ∧
    (sngl t = true → (aat_delete_first0 t).1.lvl = t.lvl →
      sngl (aat_delete_first0 t).1 = true) := by
  intro t
  induction t with
  | nil =>
    intro _
    refine ⟨rfl, Or.inl rfl, ?_⟩
    intro h
    simp [sngl] at h
  | node l r lv k id ihl ihr =>
    intro hs
    have hlvpos : 1 ≤ lv := structB_lvl_pos hs (by simp)
    obtain ⟨hl, hr, h1, h2, h3, h4, h5⟩ := structB_node.mp hs
    cases l with
    | nil =>
      have hlv : lv = 1 := by
        by_cases hrn : r = .nil
        · exact h1 rfl hrn
        · by_contra hne
          exact (h5 (by omega)).1 rfl
      refine ⟨hr, ?_, ?_⟩
      · by_cases hrn : r = .nil
        · subst hrn
          simp only [aat_delete_first0, AAT.lvl_nil, AAT.lvl_node]
          omega
        · have hrp : 1 ≤ r.lvl := structB_lvl_pos hr hrn
          rcases h3 hrn with hx | hx
          · simp only [aat_delete_first0, AAT.lvl_node]
            omega
          · simp only [aat_delete_first0, AAT.lvl_node]
            omega
      · intro hst hkept
        simp only [sngl, decide_eq_true_eq, AAT.lvl_node] at hst
        simp only [aat_delete_first0, AAT.lvl_node] at hkept
        omega
    | node a b c d e =>
      have hln : (AAT.node a b c d e) ≠ AAT.nil := by simp
      have hll : (AAT.node a b c d e).lvl + 1 = lv := h2 hln
      have hlp : 1 ≤ (AAT.node a b c d e).lvl := structB_lvl_pos hl hln
      have hrn : r ≠ .nil := (h5 (by omega)).2
      obtain ⟨ihs, ihd, ihsngl⟩ := ihl hl
      have hpre : PreFix (AAT.node (aat_delete_first0 (AAT.node a b c d e)).1 r lv k id) := by
        refine ⟨ihs, hr, Or.inl ⟨?_, hrn, h3 hrn, h4 hrn⟩⟩
        omega
      obtain ⟨hsf, hdf, hc3⟩ := fixup_preFix hpre
      have heq : aat_delete_first0 (AAT.node (AAT.node a b c d e) r lv k id) =
          (aat_delete_fixup
            (AAT.node (aat_delete_first0 (AAT.node a b c d e)).1 r lv k id),
           (aat_delete_first0 (AAT.node a b c d e)).2) := rfl
      rw [heq]
      refine ⟨hsf, ?_, ?_⟩
      · simpa using hdf
      · intro hst hkept
        simp only [sngl, decide_eq_true_eq, AAT.lvl_node] at hst
        simp only [AAT.lvl_node] at hkept
        rcases Bool.eq_false_or_eq_true
            (sngl (aat_delete_fixup
              (AAT.node (aat_delete_first0 (AAT.node a b c d e)).1 r lv k id))) with hb | hb
        · exact hb
        · exact absurd (hc3 (by simpa using hkept) hb) (by omega)

/-- `aat_delete_last0` preserves the structural invariants, lowers the
subtree level by at most one, and keeps a "single" root single when the
level is kept. -/
theorem delete_last0_ok : ∀ {t : AAT}, structB t = true →
    structB (aat_delete_last0 t).1 = true ∧
    ((aat_delete_last0 t).1.lvl = t.lvl ∨ (aat_delete_last0 t).1.lvl + 1 = t.lvl) ∧
    (sngl t = true → (aat_delete_last0 t).1.lvl = t.lvl →
      sngl (aat_delete_last0 t).1 = true) := by
  intro t
  induction t with
  | nil =>
    intro _
    refine ⟨rfl, Or.inl rfl, ?_⟩
    intro h
    simp [sngl] at h
  | node l r lv k id ihl ihr =>
    intro hs
    have hlvpos : 1 ≤ lv := structB_lvl_pos hs (by simp)
    obtain ⟨hl, hr, h1, h2, h3, h4, h5⟩ := structB_node.mp hs
    cases r with
    | nil =>
      cases l with
      | nil =>
        have hlv : lv = 1 := h1 rfl rfl
        refine ⟨rfl, ?_, ?_⟩
        · simp only [aat_delete_last0, AAT.lvl_nil, AAT.lvl_node]
          omega
        · intro _ hkept
          simp only [aat_delete_last0, AAT.lvl_nil, AAT.lvl_node] at hkept
          omega
      | node a b c d e =>
        exfalso
        have hll := h2 (by simp)
        have hlp : 1 ≤ (AAT.node a b c d e).lvl := structB_lvl_pos hl (by simp)
        exact (h5 (by omega)).2 rfl
    | node a b c d e =>
      have hrn : (AAT.node a b c d e) ≠ AAT.nil := by simp
      have hrl := h3 hrn
      have hrp : 1 ≤ (AAT.node a b c d e).lvl := structB_lvl_pos hr hrn
      have hal : l.lvl + 1 = lv := by
        by_cases hln : l = .nil
        · subst hln
          have : ¬ (1 < lv) := fun hgt => (h5 hgt).1 rfl
          simp only [AAT.lvl_nil]
          omega
        · exact h2 hln
      obtain ⟨ihs, ihd, ihsngl⟩ := ihr hr
      have hsngr : (aat_delete_last0 (AAT.node a b c d e)).1.lvl = lv →
          sngl (aat_delete_last0 (AAT.node a b c d e)).1 = true := by
        intro hkept
        have hreq : (AAT.node a b c d e).lvl = lv := by omega
        apply ihsngl _ (by omega)
        cases b with
        | nil =>
          simp only [sngl, AAT.right_nil, AAT.lvl_nil, AAT.lvl_node, decide_eq_true_eq]
          simp only [AAT.lvl_node] at hreq
          omega
        | node w x y z i =>
          have := h4 hrn (by simp)
          simp only [AAT.right_node] at this
          simp only [sngl, AAT.right_node, AAT.lvl_node, decide_eq_true_eq]
          simp only [AAT.lvl_node] at hreq
          simp only [AAT.lvl_node] at this
          omega
      have hpre : PreFix (AAT.node l (aat_delete_last0 (AAT.node a b c d e)).1 lv k id) := by
        refine ⟨hl, ihs, Or.inr ⟨hal, by omega, hsngr⟩⟩
      obtain ⟨hsf, hdf, hc3⟩ := fixup_preFix hpre
      have heq : aat_delete_last0 (AAT.node l (AAT.node a b c d e) lv k id) =
          (aat_delete_fixup
            (AAT.node l (aat_delete_last0 (AAT.node a b c d e)).1 lv k id),
           (aat_delete_last0 (AAT.node a b c d e)).2) := rfl
      rw [heq]
      refine ⟨hsf, ?_, ?_⟩
      · simpa using hdf
      · intro hst hkept
        simp only [sngl, decide_eq_true_eq, AAT.lvl_node] at hst
        simp only [AAT.lvl_node] at hkept
        rcases Bool.eq_false_or_eq_true
            (sngl (aat_delete_fixup
              (AAT.node l (aat_delete_last0 (AAT.node a b c d e)).1 lv k id))) with hb | hb
        · exact hb
        · have := hc3 (by simpa using hkept) hb
          simp only [AAT.lvl_node] at ihd
          omega

/-- `aat_delete0` preserves the structural invariants, lowers the subtree
level by at most one, and keeps a "single" root single when the level is
kept. -/
theorem delete0_ok : ∀ {t : AAT} (key : Int), structB t = true →
    structB (aat_delete0 t key).1 = true ∧
    ((aat_delete0 t key).1.lvl = t.lvl ∨ (aat_delete0 t key).1.lvl + 1 = t.lvl) ∧
    (sngl t = true → (aat_delete0 t key).1.lvl = t.lvl →
      sngl (aat_delete0 t key).1 = true) := by
  intro t
  induction t with
  | nil =>
    intro key _
    refine ⟨rfl, Or.inl rfl, ?_⟩
    intro h
    simp [sngl] at h
  | node l r lv k0 id ihl ihr =>
    intro key hs
    have hlvpos : 1 ≤ lv := structB_lvl_pos hs (by simp)
    obtain ⟨hl, hr, h1, h2, h3, h4, h5⟩ := structB_node.mp hs
    rcases lt_trichotomy key k0 with hlt | heq0 | hgt
    · -- descend left
      have hc := eq_true (aat_compare_lt_zero.mpr hlt)
      by_cases hln : l = .nil
      · subst hln
        have heq : aat_delete0 (AAT.node AAT.nil r lv k0 id) key =
            (aat_delete_fixup (AAT.node AAT.nil r lv k0 id),
             (none : Option AatNode)) := by
          simp only [aat_delete0, hc, if_true, AAT.isNil_node, Bool.false_eq_true,
            if_false]
        rw [heq, fixup_eq_self_of_structB hs]
        refine ⟨hs, Or.inl rfl, fun h _ => h⟩
      · cases l with
        | nil => exact absurd rfl hln
        | node a b c d e =>
        have hll := h2 (by simp)
        have hlp : 1 ≤ (AAT.node a b c d e).lvl := structB_lvl_pos hl (by simp)
        have hrn : r ≠ .nil := by
          refine (h5 ?_).2
          simp only [AAT.lvl_node] at hll hlp
          omega
        obtain ⟨ihs, ihd, ihsngl⟩ := ihl key hl
        have heq : aat_delete0 (AAT.node (AAT.node a b c d e) r lv k0 id) key =
            (aat_delete_fixup
              (AAT.node (aat_delete0 (AAT.node a b c d e) key).1 r lv k0 id),
             (aat_delete0 (AAT.node a b c d e) key).2) := by
          simp only [aat_delete0, hc, if_true, AAT.isNil_node, Bool.false_eq_true,
            if_false]
        rw [heq]
        have hpre : PreFix
            (AAT.node (aat_delete0 (AAT.node a b c d e) key).1 r lv k0 id) := by
          refine ⟨ihs, hr, Or.inl ⟨?_, hrn, h3 hrn, h4 hrn⟩⟩
          simp only [AAT.lvl_node] at hll hlp ihd ⊢
          omega
        obtain ⟨hsf, hdf, hc3⟩ := fixup_preFix hpre
        refine ⟨hsf, by simpa using hdf, ?_⟩
        intro hst hkept
        simp only [sngl, decide_eq_true_eq, AAT.lvl_node] at hst
        simp only [AAT.lvl_node] at hkept
        rcases Bool.eq_false_or_eq_true
            (sngl (aat_delete_fixup
              (AAT.node (aat_delete0 (AAT.node a b c d e) key).1 r lv k0 id)))
            with hb | hb
        · exact hb
        · exact absurd (hc3 (by simpa using hkept) hb) (by omega)
    · -- found the key
      subst heq0
      have hc1 := eq_false (show ¬ aat_compare key key < 0 by
        rw [aat_compare_lt_zero]; omega)
      have hc2 := eq_false (show ¬ aat_compare key key > 0 by
        rw [gt_iff_lt, aat_compare_pos]; omega)
      by_cases hln : l = .nil
      · by_cases hrn : r = .nil
        · subst hln
          subst hrn
          have hlv : lv = 1 := h1 rfl rfl
          have heq : aat_delete0 (AAT.node AAT.nil AAT.nil lv key id) key =
              (AAT.nil, some ⟨none, none, lv, key, id⟩) := by
            simp only [aat_delete0, hc1, hc2, if_true, if_false, AAT.isNil_nil,
              Bool.and_self, if_true, AAT.isNil_nil]
          rw [heq]
          refine ⟨rfl, by simp only [AAT.lvl_nil, AAT.lvl_node]; omega, ?_⟩
          intro _ hkept
          simp only [AAT.lvl_nil, AAT.lvl_node] at hkept
          omega
        · subst hln
          have hlv : lv = 1 := by
            by_contra hne
            exact (h5 (by omega)).1 rfl
          have hrp : 1 ≤ r.lvl := structB_lvl_pos hr hrn
          have hrl1 : r.lvl = 1 := by
            rcases h3 hrn with hx | hx <;> omega
          have hsngr : sngl r = true := by
            cases r with
            | nil => exact absurd rfl hrn
            | node w x y z i =>
              by_cases hxn : x = .nil
              · subst hxn
                simp only [sngl, AAT.right_nil, AAT.lvl_nil, AAT.lvl_node,
                  decide_eq_true_eq]
                simp only [AAT.lvl_node] at hrl1
                omega
              · have := h4 hrn (by simpa using hxn)
                simp only [sngl, AAT.right_node, decide_eq_true_eq, AAT.lvl_node]
                simp only [AAT.right_node] at this
                simp only [AAT.lvl_node] at hrl1
                omega
          obtain ⟨qs, qd, qsngl⟩ := delete_first0_ok hr
          have heq : aat_delete0 (AAT.node AAT.nil r lv key id) key =
              (aat_delete_fixup (AAT.node AAT.nil (aat_delete_first0 r).1 lv
                ((aat_delete_first0 r).2.getD ⟨none, none, 0, 0, 0⟩).key
                ((aat_delete_first0 r).2.getD ⟨none, none, 0, 0, 0⟩).id),
               some ⟨none, (aat_delete_first0 r).1.rootId, lv, key, id⟩) := by
            have hrnn := eq_false (show ¬ r.isNil = true by simpa using hrn)
            simp only [aat_delete0, hc1, hc2, if_true, if_false, AAT.isNil_nil,
              Bool.true_and, hrnn, Bool.false_eq_true, if_false, if_true,
              AAT.rootId_nil, AAT.isNil_node]
          rw [heq]
          have hpre : PreFix (AAT.node AAT.nil (aat_delete_first0 r).1 lv
              ((aat_delete_first0 r).2.getD ⟨none, none, 0, 0, 0⟩).key
              ((aat_delete_first0 r).2.getD ⟨none, none, 0, 0, 0⟩).id) := by
            refine ⟨rfl, qs, Or.inr ⟨by simp only [AAT.lvl_nil]; omega, by omega, ?_⟩⟩
            intro hkept
            exact qsngl hsngr (by omega)
          obtain ⟨hsf, hdf, hc3⟩ := fixup_preFix hpre
          refine ⟨hsf, by simpa using hdf, ?_⟩
          intro hst hkept
          simp only [sngl, decide_eq_true_eq, AAT.lvl_node] at hst
          omega
      · cases l with
        | nil => exact absurd rfl hln
        | node a b c d e =>
        have hll := h2 (by simp)
        have hlp : 1 ≤ (AAT.node a b c d e).lvl := structB_lvl_pos hl (by simp)
        have hrn : r ≠ .nil := by
          refine (h5 ?_).2
          simp only [AAT.lvl_node] at hll hlp
          omega
        obtain ⟨qs, qd, qsngl⟩ := delete_last0_ok hl
        have heq : aat_delete0 (AAT.node (AAT.node a b c d e) r lv key id) key =
            (aat_delete_fixup (AAT.node (aat_delete_last0 (AAT.node a b c d e)).1 r lv
              ((aat_delete_last0 (AAT.node a b c d e)).2.getD ⟨none, none, 0, 0, 0⟩).key
              ((aat_delete_last0 (AAT.node a b c d e)).2.getD ⟨none, none, 0, 0, 0⟩).id),
             some ⟨(aat_delete_last0 (AAT.node a b c d e)).1.rootId, r.rootId, lv,
               key, id⟩) := by
          have hrnn := eq_false (show ¬ r.isNil = true by simpa using hrn)
          simp only [aat_delete0, hc1, hc2, if_true, if_false, AAT.isNil_node,
            Bool.false_and, Bool.false_eq_true, AAT.isNil_node]
        rw [heq]
        have hpre : PreFix (AAT.node (aat_delete_last0 (AAT.node a b c d e)).1 r lv
            ((aat_delete_last0 (AAT.node a b c d e)).2.getD ⟨none, none, 0, 0, 0⟩).key
            ((aat_delete_last0 (AAT.node a b c d e)).2.getD ⟨none, none, 0, 0, 0⟩).id) := by
          refine ⟨qs, hr, Or.inl ⟨?_, hrn, h3 hrn, h4 hrn⟩⟩
          simp only [AAT.lvl_node] at hll hlp qd ⊢
          omega
        obtain ⟨hsf, hdf, hc3⟩ := fixup_preFix hpre
        refine ⟨hsf, by simpa using hdf, ?_⟩
        intro hst hkept
        simp only [sngl, decide_eq_true_eq, AAT.lvl_node] at hst
        simp only [AAT.lvl_node] at hkept
        rcases Bool.eq_false_or_eq_true
            (sngl (aat_delete_fixup
              (AAT.node (aat_delete_last0 (AAT.node a b c d e)).1 r lv
                ((aat_delete_last0 (AAT.node a b c d e)).2.getD ⟨none, none, 0, 0, 0⟩).key
                ((aat_delete_last0 (AAT.node a b c d e)).2.getD ⟨none, none, 0, 0, 0⟩).id)))
            with hb | hb
        · exact hb
        · exact absurd (hc3 (by simpa using hkept) hb) (by omega)
    · -- descend right
      have hc1 := eq_false (show ¬ aat_compare key k0 < 0 by
        rw [aat_compare_lt_zero]; omega)
      have hc2 := eq_true (show aat_compare key k0 > 0 from aat_compare_pos.mpr hgt)
      have hal : l.lvl + 1 = lv := by
        by_cases hln : l = .nil
        · subst hln
          have : ¬ (1 < lv) := fun hgt2 => (h5 hgt2).1 rfl
          simp only [AAT.lvl_nil]
          omega
        · exact h2 hln
      by_cases hrn : r = .nil
      · subst hrn
        have heq : aat_delete0 (AAT.node l AAT.nil lv k0 id) key =
            (aat_delete_fixup (AAT.node l AAT.nil lv k0 id),
             (none : Option AatNode)) := by
          simp only [aat_delete0, hc1, hc2, if_true, if_false, AAT.isNil_node,
            Bool.false_eq_true]
        rw [heq, fixup_eq_self_of_structB hs]
        refine ⟨hs, Or.inl rfl, fun h _ => h⟩
      · obtain ⟨ihs, ihd, ihsngl⟩ := ihr key hr
        have hrp : 1 ≤ r.lvl := structB_lvl_pos hr hrn
        have hrl := h3 hrn
        have hsngr : (aat_delete0 r key).1.lvl = lv →
            sngl (aat_delete0 r key).1 = true := by
          intro hkept
          apply ihsngl _ (by omega)
          cases r with
          | nil => exact absurd rfl hrn
          | node w x y z i =>
            by_cases hxn : x = .nil
            · subst hxn
              simp only [sngl, AAT.right_nil, AAT.lvl_nil, AAT.lvl_node,
                decide_eq_true_eq]
              simp only [AAT.lvl_node] at hrp
              omega
            · have := h4 hrn (by simpa using hxn)
              simp only [sngl, AAT.right_node, decide_eq_true_eq, AAT.lvl_node]
              simp only [AAT.right_node] at this
              simp only [AAT.lvl_node] at hkept ihd hrl
              omega
        have heq : aat_delete0 (AAT.node l r lv k0 id) key =
            (aat_delete_fixup (AAT.node l (aat_delete0 r key).1 lv k0 id),
             (aat_delete0 r key).2) := by
          simp only [aat_delete0, hc1, hc2, if_true, if_false, AAT.isNil_node,
            Bool.false_eq_true]
        rw [heq]
        have hpre : PreFix (AAT.node l (aat_delete0 r key).1 lv k0 id) := by
          refine ⟨hl, ihs, Or.inr ⟨hal, by omega, hsngr⟩⟩
        obtain ⟨hsf, hdf, hc3⟩ := fixup_preFix hpre
        refine ⟨hsf, by simpa using hdf, ?_⟩
        intro hst hkept
        simp only [sngl, decide_eq_true_eq, AAT.lvl_node] at hst
        simp only [AAT.lvl_node] at hkept
        rcases Bool.eq_false_or_eq_true
            (sngl (aat_delete_fixup (AAT.node l (aat_delete0 r key).1 lv k0 id)))
            with hb | hb
        · exact hb
        · have := hc3 (by simpa using hkept) hb
          omega

/-- `aat_skew` does nothing when the left child is not horizontal. -/
theorem skew_eq_self_of_ne {t : AAT} (h : t.left.lvl ≠ t.lvl) : aat_skew t = t := by
  cases t with
  | nil => rfl
  | node l r lv k id =>
    cases l with
    | nil => rfl
    | node a b c d e =>
      simp only [AAT.left_node, AAT.lvl_node] at h
      unfold aat_skew
      simp only
      rw [if_neg h]

/-- `aat_split` does nothing when the right grandchild is not at the node's
level. -/
theorem split_eq_self_of_ne {t : AAT} (h : t.right.right.lvl ≠ t.lvl) :
    aat_split t = t := by
  cases t with
  | nil => rfl
  | node l r lv k id =>
    cases r with
    | nil => rfl
    | node rl rr rlv rk rid =>
      cases rr with
      | nil => rfl
      | node a b c d e =>
        simp only [AAT.right_node, AAT.lvl_node] at h
        unfold aat_split
        simp only
        rw [if_neg h]

/-- `aat_insert0` never returns an empty tree. -/
theorem insert0_ne_nil {t : AAT} {item : AatNode} :
    (aat_insert0 t item).1 ≠ .nil := by
  cases t with
  | nil => simp [aat_insert0, aat_skew, aat_split]
  | node l r lv k id =>
    simp only [aat_insert0]
    split
    · exact split_ne_nil (skew_ne_nil (by simp))
    · split
      · exact split_ne_nil (skew_ne_nil (by simp))
      · exact split_ne_nil (skew_ne_nil (by simp))

/-- `aat_insert0` preserves the structural invariants; the subtree level
stays or grows by one, the latter only with a non-horizontal right link at
the new root, and never when the root had a non-horizontal right link
(was "single") before. -/
theorem insert0_ok : ∀ {t : AAT} (item : AatNode), structB t = true →
    structB (aat_insert0 t item).1 = true ∧
    ((aat_insert0 t item).1.lvl = t.lvl ∨
      ((aat_insert0 t item).1.lvl = t.lvl + 1 ∧
        sngl (aat_insert0 t item).1 = true)) ∧
    (sngl t = true → (aat_insert0 t item).1.lvl = t.lvl) := by
  intro t
  induction t with
  | nil =>
    intro item _
    have heq : aat_insert0 AAT.nil item =
        (AAT.node AAT.nil AAT.nil 1 item.key item.id, none) := rfl
    rw [heq]
    refine ⟨by simp [structB], Or.inr ⟨rfl, rfl⟩, ?_⟩
    intro h
    simp [sngl] at h
  | node l r lv k0 id ihl ihr =>
    intro item hs
    have hlvpos : 1 ≤ lv := structB_lvl_pos hs (by simp)
    obtain ⟨hl, hr, h1, h2, h3, h4, h5⟩ := structB_node.mp hs
    have hrnil1 : r = .nil → lv = 1 := by
      intro hrn
      by_cases hln : l = .nil
      · exact h1 hln hrn
      · have := h2 hln
        have := structB_lvl_pos hl hln
        by_contra hne
        exact (h5 (by omega)).2 hrn
    have hlnil1 : l = .nil → lv = 1 := by
      intro hln
      by_cases hrn : r = .nil
      · exact h1 hln hrn
      · by_contra hne
        exact (h5 (by omega)).1 hln
    have hsngl4 : r ≠ .nil → r.lvl = lv → sngl r = true := by
      intro hrn hrl
      cases r with
      | nil => exact absurd rfl hrn
      | node w x y z i =>
        by_cases hxn : x = .nil
        · subst hxn
          simp only [sngl, AAT.right_nil, AAT.lvl_nil, AAT.lvl_node, decide_eq_true_eq]
          simp only [AAT.lvl_node] at hrl
          omega
        · have := h4 hrn (by simpa using hxn)
          simp only [sngl, AAT.right_node, decide_eq_true_eq, AAT.lvl_node]
          simp only [AAT.right_node] at this
          simp only [AAT.lvl_node] at hrl
          omega
    rcases lt_trichotomy item.key k0 with hlt | heq0 | hgt
    · -- insert into the left subtree
      have hc := eq_true (aat_compare_lt_zero.mpr hlt)
      obtain ⟨ihs, ihd, ihsngl⟩ := ihl item hl
      have heq : aat_insert0 (AAT.node l r lv k0 id) item =
          (aat_split (aat_skew (AAT.node (aat_insert0 l item).1 r lv k0 id)),
           (aat_insert0 l item).2) := by
        simp only [aat_insert0, hc, if_true]
      rw [heq]
      rcases ihd with hcase | hcase
      · -- the left subtree kept its level: no rotation
        have hln : l ≠ .nil := by
          intro h
          subst h
          have : (aat_insert0 AAT.nil item).1 = AAT.node AAT.nil AAT.nil 1 item.key item.id := rfl
          rw [this] at hcase
          simp only [AAT.lvl_node, AAT.lvl_nil] at hcase
          omega
        have hll := h2 hln
        have hlp := structB_lvl_pos hl hln
        have hsk : aat_skew (AAT.node (aat_insert0 l item).1 r lv k0 id) =
            AAT.node (aat_insert0 l item).1 r lv k0 id := by
          apply skew_eq_self_of_ne
          simp only [AAT.left_node, AAT.lvl_node]
          omega
        rw [hsk]
        have hsp : aat_split (AAT.node (aat_insert0 l item).1 r lv k0 id) =
            AAT.node (aat_insert0 l item).1 r lv k0 id := by
          apply split_eq_self_of_ne
          simp only [AAT.right_node, AAT.lvl_node]
          by_cases hrrn : r.right = .nil
          · rw [hrrn]
            simp only [AAT.lvl_nil]
            omega
          · by_cases hrn : r = .nil
            · subst hrn
              simp at hrrn
            · have := h4 hrn hrrn
              omega
        rw [hsp]
        refine ⟨?_, Or.inl (by simp only [AAT.lvl_node]), fun _ => by simp only [AAT.lvl_node]⟩
        rw [structB_node]
        refine ⟨ihs, hr, ?_, ?_, h3, h4, ?_⟩
        · intro h
          exact absurd h insert0_ne_nil
        · intro _
          omega
        · intro hgt2
          exact ⟨insert0_ne_nil, (h5 hgt2).2⟩
      · -- the left subtree grew: it is now horizontal, the skew fires
        obtain ⟨hgrow, hsngl'⟩ := hcase
        have hlv' : (aat_insert0 l item).1.lvl = lv := by
          by_cases hln : l = .nil
          · subst hln
            have h0 := hlnil1 rfl
            simp only [AAT.lvl_nil] at hgrow
            omega
          · have := h2 hln
            omega
        cases hL : (aat_insert0 l item).1 with
        | nil => exact absurd hL insert0_ne_nil
        | node la2 lb2 lv2 lk2 lid2 =>
        rw [hL] at ihs hsngl' hlv'
        simp only [AAT.lvl_node] at hlv'
        subst lv2
        obtain ⟨ha2, hb2, hx1, hx2, hx3, hx4, hx5⟩ := structB_node.mp ihs
        simp only [sngl, AAT.right_node, AAT.lvl_node, decide_eq_true_eq] at hsngl'
        have hsk : aat_skew (AAT.node (AAT.node la2 lb2 lv lk2 lid2) r lv k0 id) =
            AAT.node la2 (AAT.node lb2 r lv k0 id) lv lk2 lid2 := by
          unfold aat_skew
          simp
        rw [hsk]
        by_cases hrl : r.lvl = lv
        · -- the right child is horizontal too: the split fires and promotes
          have hrn : r ≠ .nil := by
            intro h
            subst h
            simp only [AAT.lvl_nil] at hrl
            omega
          cases r with
          | nil => exact absurd rfl hrn
          | node ra2 rb2 rlv2 rk2 rid2 =>
          simp only [AAT.lvl_node] at hrl
          subst rlv2
          have hsp : aat_split (AAT.node la2
              (AAT.node lb2 (AAT.node ra2 rb2 lv rk2 rid2) lv k0 id) lv lk2 lid2) =
              AAT.node (AAT.node la2 lb2 lv lk2 lid2) (AAT.node ra2 rb2 lv rk2 rid2)
                (lv + 1) k0 id := by
            unfold aat_split
            simp
          rw [hsp]
          have hrrle2 : (AAT.node ra2 rb2 lv rk2 rid2).right.lvl ≤ lv :=
            structB_right_lvl_le hr
          simp only [AAT.right_node] at hrrle2
          refine ⟨?_, Or.inr ⟨by simp only [AAT.lvl_node], ?_⟩, ?_⟩
          · rw [structB_node]
            refine ⟨ihs, hr, ?_, ?_, ?_, ?_, ?_⟩
            · intro h
              exact absurd h (by simp)
            · intro _
              simp only [AAT.lvl_node]
            · intro _
              exact Or.inr (by simp only [AAT.lvl_node])
            · intro _ _
              simp only [AAT.right_node]
              omega
            · intro _
              exact ⟨by simp, by simp⟩
          · simp only [sngl, AAT.right_node, AAT.lvl_node, decide_eq_true_eq]
            omega
          · intro hst
            simp only [sngl, AAT.lvl_node, decide_eq_true_eq] at hst
            omega
        · -- the right child is lower: the subtree settles at the same level
          have hsp : aat_split (AAT.node la2
              (AAT.node lb2 r lv k0 id) lv lk2 lid2) =
              AAT.node la2 (AAT.node lb2 r lv k0 id) lv lk2 lid2 := by
            apply split_eq_self_of_ne
            simp only [AAT.right_node, AAT.lvl_node]
            omega
          rw [hsp]
          have hrlvle : r ≠ .nil → r.lvl + 1 = lv := by
            intro hrn
            rcases h3 hrn with hx | hx
            · exact absurd hx hrl
            · exact hx
          have hlb2n : lb2 = .nil → lv = 1 := by
            intro h
            subst h
            simp only [AAT.lvl_nil] at hsngl'
            by_contra hne
            have := (hx5 (by omega)).2
            simp at this
          have hlb2l : lb2 ≠ .nil → lb2.lvl + 1 = lv := by
            intro h
            rcases hx3 h with hx | hx
            · omega
            · exact hx
          refine ⟨?_, Or.inl (by simp only [AAT.lvl_node]), fun _ => by simp only [AAT.lvl_node]⟩
          rw [structB_node]
          refine ⟨ha2, ?_, ?_, hx2, ?_, ?_, ?_⟩
          · rw [structB_node]
            refine ⟨hb2, hr, ?_, hlb2l, h3, h4, ?_⟩
            · intro hb2n hrn
              exact hlb2n hb2n
            · intro hgt2
              constructor
              · intro hb2n
                have := hlb2n hb2n
                omega
              · intro hrn
                have := hrnil1 hrn
                omega
          · intro _ h
            exact absurd h (by simp)
          · intro _
            exact Or.inl rfl
          · intro _ _
            simp only [AAT.right_node, AAT.lvl_node]
            by_cases hrn : r = .nil
            · subst hrn
              simp only [AAT.lvl_nil]
              omega
            · have := hrlvle hrn
              omega
          · intro hgt2
            refine ⟨?_, by simp⟩
            intro hla2
            subst hla2
            rcases hx2 with _
            have hlb2 : lb2 ≠ .nil := by
              intro h
              have := hlb2n h
              omega
            have := hlb2l hlb2
            have := hx1
            by_contra _
            have hx2' : ¬ (1 < lv) := by
              intro hgt3
              exact (hx5 hgt3).1 rfl
            omega
    · -- equal keys: replace in place, levels unchanged
      have hc1 := eq_false (show ¬ aat_compare item.key k0 < 0 by
        rw [aat_compare_lt_zero]; omega)
      have hc2 := eq_false (show ¬ aat_compare item.key k0 > 0 by
        rw [gt_iff_lt, aat_compare_pos]; omega)
      have hs' : structB (AAT.node l r lv item.key item.id) = true := by
        rw [structB_node]
        exact ⟨hl, hr, h1, h2, h3, h4, h5⟩
      have heq : aat_insert0 (AAT.node l r lv k0 id) item =
          (aat_split (aat_skew (AAT.node l r lv item.key item.id)),
           some ⟨l.rootId, r.rootId, lv, k0, id⟩) := by
        simp only [aat_insert0, hc1, hc2, if_false]
      rw [heq, skew_eq_self_of_structB hs', split_eq_self_of_structB hs']
      exact ⟨hs', Or.inl (by simp only [AAT.lvl_node]), fun _ => by simp only [AAT.lvl_node]⟩
    · -- insert into the right subtree
      have hc1 := eq_false (show ¬ aat_compare item.key k0 < 0 by
        rw [aat_compare_lt_zero]; omega)
      have hc2 := eq_true (show aat_compare item.key k0 > 0 from aat_compare_pos.mpr hgt)
      obtain ⟨ihs, ihd, ihsngl⟩ := ihr item hr
      have heq : aat_insert0 (AAT.node l r lv k0 id) item =
          (aat_split (aat_skew (AAT.node l (aat_insert0 r item).1 lv k0 id)),
           (aat_insert0 r item).2) := by
        simp only [aat_insert0, hc1, hc2, if_true, if_false]
      rw [heq]
      have hsk : aat_skew (AAT.node l (aat_insert0 r item).1 lv k0 id) =
          AAT.node l (aat_insert0 r item).1 lv k0 id := by
        apply skew_eq_self_of_ne
        simp only [AAT.left_node, AAT.lvl_node]
        by_cases hln : l = .nil
        · subst hln
          simp only [AAT.lvl_nil]
          omega
        · have := h2 hln
          have := structB_lvl_pos hl hln
          omega
      rw [hsk]
      have hrp' : 1 ≤ (aat_insert0 r item).1.lvl :=
        structB_lvl_pos ihs insert0_ne_nil
      rcases ihd with hcase | hcase
      · -- the right subtree kept its level
        have hrn : r ≠ .nil := by
          intro h
          subst h
          simp only [AAT.lvl_nil] at hcase
          omega
        have hrl3 := h3 hrn
        by_cases hfire : (aat_insert0 r item).1.right.lvl = lv
        · -- two right-horizontal links: the split fires and promotes
          have hrrval : (aat_insert0 r item).1.right.lvl ≤ (aat_insert0 r item).1.lvl :=
            structB_right_lvl_le ihs
          cases hR : (aat_insert0 r item).1 with
          | nil => exact absurd hR insert0_ne_nil
          | node ra2 rb2 rlv2 rk2 rid2 =>
          rw [hR] at ihs hcase hfire hrrval
          simp only [AAT.right_node, AAT.lvl_node] at hfire hrrval hcase
          obtain ⟨hra2, hrb2, hy1, hy2, hy3, hy4, hy5⟩ := structB_node.mp ihs
          cases rb2 with
          | nil =>
            simp only [AAT.lvl_nil] at hfire
            omega
          | node w x y z i =>
          simp only [AAT.lvl_node] at hfire hrrval
          subst y
          have hrlvl : r.lvl = lv := by omega
          have hrlv2 : rlv2 = lv := by omega
          clear hcase
          subst rlv2
          have hsp : aat_split (AAT.node l
              (AAT.node ra2 (AAT.node w x lv z i) lv rk2 rid2) lv k0 id) =
              AAT.node (AAT.node l ra2 lv k0 id) (AAT.node w x lv z i)
                (lv + 1) rk2 rid2 := by
            unfold aat_split
            simp
          rw [hsp]
          have hxle : (AAT.node w x lv z i).right.lvl ≤ lv :=
            structB_right_lvl_le hrb2
          simp only [AAT.right_node] at hxle
          refine ⟨?_, Or.inr ⟨by simp only [AAT.lvl_node], ?_⟩, ?_⟩
          · rw [structB_node]
            refine ⟨?_, hrb2, ?_, ?_, ?_, ?_, ?_⟩
            · rw [structB_node]
              refine ⟨hl, hra2, ?_, h2, ?_, ?_, ?_⟩
              · intro hln _
                exact hlnil1 hln
              · intro hra2n
                have := hy2 hra2n
                omega
              · intro hra2n _
                have := structB_right_lvl_le hra2
                have := hy2 hra2n
                omega
              · intro hgt2
                constructor
                · intro hln
                  have := hlnil1 hln
                  omega
                · exact (hy5 (by omega)).1
            · intro h
              exact absurd h (by simp)
            · intro _
              simp only [AAT.lvl_node]
            · intro _
              exact Or.inr (by simp only [AAT.lvl_node])
            · intro _ _
              simp only [AAT.right_node]
              omega
            · intro _
              exact ⟨by simp, by simp⟩
          · simp only [sngl, AAT.right_node, AAT.lvl_node, decide_eq_true_eq]
            omega
          · intro hst
            simp only [sngl, AAT.lvl_node, decide_eq_true_eq] at hst
            omega
        · -- no promotion
          have hsp : aat_split (AAT.node l (aat_insert0 r item).1 lv k0 id) =
              AAT.node l (aat_insert0 r item).1 lv k0 id := by
            apply split_eq_self_of_ne
            simp only [AAT.right_node, AAT.lvl_node]
            omega
          rw [hsp]
          have hrrle2 : (aat_insert0 r item).1.right.lvl ≤ (aat_insert0 r item).1.lvl :=
            structB_right_lvl_le ihs
          refine ⟨?_, Or.inl (by simp only [AAT.lvl_node]), fun _ => by simp only [AAT.lvl_node]⟩
          rw [structB_node]
          refine ⟨hl, ihs, ?_, h2, ?_, ?_, ?_⟩
          · intro _ h
            exact absurd h insert0_ne_nil
          · intro _
            omega
          · intro _ _
            omega
          · intro hgt2
            refine ⟨?_, insert0_ne_nil⟩
            intro hln
            have := hlnil1 hln
            omega
      · -- the right subtree grew
        obtain ⟨hgrow, hsngl'⟩ := hcase
        have hrlow : r.lvl + 1 = lv := by
          by_cases hrn : r = .nil
          · have := hrnil1 hrn
            subst hrn
            simp only [AAT.lvl_nil]
            omega
          · rcases h3 hrn with hx | hx
            · exfalso
              have := ihsngl (hsngl4 hrn hx)
              omega
            · exact hx
        have hrl' : (aat_insert0 r item).1.lvl = lv := by omega
        have hsp : aat_split (AAT.node l (aat_insert0 r item).1 lv k0 id) =
            AAT.node l (aat_insert0 r item).1 lv k0 id := by
          apply split_eq_self_of_ne
          simp only [AAT.right_node, AAT.lvl_node]
          cases hR : (aat_insert0 r item).1 with
          | nil => simp only [AAT.right_nil, AAT.lvl_nil]; omega
          | node ra2 rb2 rlv2 rk2 rid2 =>
            rw [hR] at hsngl' hrl'
            simp only [sngl, AAT.right_node, AAT.lvl_node, decide_eq_true_eq] at hsngl'
            simp only [AAT.lvl_node] at hrl'
            simp only [AAT.right_node]
            omega
        rw [hsp]
        refine ⟨?_, Or.inl (by simp only [AAT.lvl_node]), fun _ => by simp only [AAT.lvl_node]⟩
        rw [structB_node]
        refine ⟨hl, ihs, ?_, h2, ?_, ?_, ?_⟩
        · intro _ h
          exact absurd h insert0_ne_nil
        · intro _
          omega
        · intro _ hrr2n
          cases hR : (aat_insert0 r item).1 with
          | nil => exact absurd hR insert0_ne_nil
          | node ra2 rb2 rlv2 rk2 rid2 =>
            rw [hR] at hsngl' hrl' hrr2n
            simp only [sngl, AAT.right_node, AAT.lvl_node, decide_eq_true_eq] at hsngl'
            simp only [AAT.lvl_node] at hrl'
            simp only [AAT.right_node]
            omega
        · intro hgt2
          refine ⟨?_, insert0_ne_nil⟩
          intro hln
          have := hlnil1 hln
          omega

/-!
## Key-list lemmas
-/

/-- Every member of `linsert x xs` is `x` or a member of `xs`. -/
theorem mem_linsert {x y : Int} : ∀ {xs : List Int},
    y ∈ linsert x xs → y = x ∨ y ∈ xs := by
  intro xs
  induction xs with
  | nil => intro h; simpa [linsert] using h
  | cons a l ih =>
    intro h
    simp only [linsert] at h
    by_cases h1 : x < a
    · rw [if_pos h1] at h
      simp only [List.mem_cons] at h
      rcases h with h | h
      · exact Or.inl h
      · exact Or.inr (by simpa using h)
    · rw [if_neg h1] at h
      by_cases h2 : a < x
      · rw [if_pos h2] at h
        simp only [List.mem_cons] at h
        rcases h with h | h
        · exact Or.inr (by simp [h])
        · rcases ih h with h | h
          · exact Or.inl h
          · exact Or.inr (by simp [h])
      · rw [if_neg h2] at h
        simp only [List.mem_cons] at h
        rcases h with h | h
        · exact Or.inl h
        · exact Or.inr (by simp [h])

/-- `linsert` preserves strict sortedness. -/
theorem pairwise_linsert {x : Int} : ∀ {xs : List Int},
    List.Pairwise (fun a b => a < b) xs →
    List.Pairwise (fun a b => a < b) (linsert x xs) := by
  intro xs
  induction xs with
  | nil => intro _; simp [linsert]
  | cons a l ih =>
    intro h
    rw [List.pairwise_cons] at h
    obtain ⟨ha, hl⟩ := h
    simp only [linsert]
    by_cases h1 : x < a
    · rw [if_pos h1]
      rw [List.pairwise_cons]
      refine ⟨?_, List.pairwise_cons.mpr ⟨ha, hl⟩⟩
      intro b hb
      rcases List.mem_cons.mp hb with rfl | hb
      · exact h1
      · exact lt_trans h1 (ha b hb)
    · rw [if_neg h1]
      by_cases h2 : a < x
      · rw [if_pos h2]
        rw [List.pairwise_cons]
        refine ⟨?_, ih hl⟩
        intro b hb
        rcases mem_linsert hb with rfl | hb
        · exact h2
        · exact ha b hb
      · rw [if_neg h2]
        have hax : x = a := by omega
        subst hax
        exact List.pairwise_cons.mpr ⟨ha, hl⟩

/-- Inserting a key smaller than the pivot stays in the left part. -/
theorem linsert_append_left {x k : Int} (hxk : x < k) : ∀ (A B : List Int),
    linsert x (A ++ k :: B) = linsert x A ++ k :: B := by
  intro A
  induction A with
  | nil => intro B; simp [linsert, hxk]
  | cons a A ih =>
    intro B
    simp only [List.cons_append, linsert, List.append_eq]
    by_cases h1 : x < a
    · rw [if_pos h1, if_pos h1]
      simp
    · rw [if_neg h1, if_neg h1]
      by_cases h2 : a < x
      · rw [if_pos h2, if_pos h2, ih]
        simp
      · rw [if_neg h2, if_neg h2]
        simp

/-- Inserting a key larger than the pivot and than the whole left part goes
into the right part. -/
theorem linsert_append_right {x k : Int} (hkx : k < x) : ∀ (A B : List Int),
    (∀ a ∈ A, a < x) → linsert x (A ++ k :: B) = A ++ k :: linsert x B := by
  intro A
  induction A with
  | nil =>
    intro B _
    simp only [List.nil_append, linsert]
    rw [if_neg (by omega), if_pos hkx]
  | cons a A ih =>
    intro B hA
    have hax : a < x := hA a (List.mem_cons_self _ _)
    simp only [List.cons_append, linsert, List.append_eq]
    rw [if_neg (by omega), if_pos hax, ih B (fun b hb => hA b (List.mem_cons_of_mem _ hb))]

/-- Inserting the pivot key itself replaces it in place. -/
theorem linsert_append_eq {x : Int} : ∀ (A B : List Int),
    (∀ a ∈ A, a < x) → linsert x (A ++ x :: B) = A ++ x :: B := by
  intro A
  induction A with
  | nil =>
    intro B _
    simp only [List.nil_append, linsert]
    rw [if_neg (by omega), if_neg (by omega)]
  | cons a A ih =>
    intro B hA
    have hax : a < x := hA a (List.mem_cons_self _ _)
    simp only [List.cons_append, linsert, List.append_eq]
    rw [if_neg (by omega), if_pos hax, ih B (fun b hb => hA b (List.mem_cons_of_mem _ hb))]

/-- Filtering away a key that a list does not contain changes nothing. -/
theorem filter_ne_of_not_mem {x : Int} : ∀ {l : List Int}, x ∉ l →
    l.filter (fun a => decide (a ≠ x)) = l := by
  intro l
  induction l with
  | nil => intro _; rfl
  | cons a l ih =>
    intro h
    simp only [List.mem_cons, not_or] at h
    simp only [List.filter_cons]
    rw [if_pos (by simpa using Ne.symm h.1), ih h.2]

/-- Filtering a fresh key back out of a `linsert` restores the list. -/
theorem filter_linsert_fresh {x : Int} : ∀ {xs : List Int}, x ∉ xs →
    (linsert x xs).filter (fun a => decide (a ≠ x)) = xs := by
  intro xs
  induction xs with
  | nil => intro _; simp [linsert]
  | cons a l ih =>
    intro hx
    simp only [List.mem_cons, not_or] at hx
    obtain ⟨hax, hxl⟩ := hx
    simp only [linsert]
    by_cases h1 : x < a
    · rw [if_pos h1]
      simp only [List.filter_cons]
      rw [if_neg (by simp), if_pos (by simpa using Ne.symm hax),
        filter_ne_of_not_mem hxl]
    · rw [if_neg h1]
      by_cases h2 : a < x
      · rw [if_pos h2]
        simp only [List.filter_cons]
        rw [if_pos (by simpa using Ne.symm hax), ih hxl]
      · have : x = a := by omega
        exact absurd this hax

/-- A non-empty tree has a non-empty key list. -/
theorem keys_ne_nil {t : AAT} (h : t ≠ .nil) : t.keys ≠ [] := by
  cases t with
  | nil => exact absurd rfl h
  | node l r lv k id => simp

/-- Head of an append with a non-empty left part. -/
theorem head?_append_ne {α : Type} {u w : List α} (h : u ≠ []) :
    (u ++ w).head? = u.head? := by
  cases u with
  | nil => exact absurd rfl h
  | cons a u => rfl

/-- Tail of an append with a non-empty left part. -/
theorem tail_append_ne {α : Type} {u w : List α} (h : u ≠ []) :
    (u ++ w).tail = u.tail ++ w := by
  cases u with
  | nil => exact absurd rfl h
  | cons a u => rfl

/-- Dropping the last element of an append with a non-empty right part. -/
theorem dropLast_append_ne {α : Type} {u w : List α} (h : w ≠ []) :
    (u ++ w).dropLast = u ++ w.dropLast := by
  induction u with
  | nil => rfl
  | cons a u ih =>
    rw [List.cons_append, List.dropLast_cons_of_ne_nil (by simp [h]), ih, List.cons_append]

/-- Last element of an append with a non-empty right part. -/
theorem getLast?_append_ne {α : Type} {u w : List α} (h : w ≠ []) :
    (u ++ w).getLast? = w.getLast? := by
  induction u with
  | nil => rfl
  | cons a u ih =>
    rw [List.cons_append, List.getLast?_cons, ih]
    cases w with
    | nil => exact absurd rfl h
    | cons b w => simp [List.getLast?_cons]

/-- In a sorted list the part strictly above a member `m` is the suffix after
`m`. -/
theorem filter_gt_sorted {m : Int} (u v : List Int)
    (h : List.Pairwise (fun a b => a < b) (u ++ m :: v)) :
    (u ++ m :: v).filter (fun a => decide (m < a)) = v := by
  rw [List.filter_append]
  rw [List.pairwise_append] at h
  obtain ⟨hu, hmv, hcross⟩ := h
  rw [List.pairwise_cons] at hmv
  have e1 : u.filter (fun a => decide (m < a)) = [] := by
    rw [List.filter_eq_nil_iff]
    intro a ha
    have := hcross a ha m (List.mem_cons_self _ _)
    simp only [decide_eq_true_eq]
    omega
  have e2 : v.filter (fun a => decide (m < a)) = v := by
    rw [List.filter_eq_self]
    intro a ha
    simp only [decide_eq_true_eq]
    exact hmv.1 a ha
  simp only [List.filter_cons]
  rw [e1, if_neg (by simp), e2, List.nil_append]

/-- In a sorted list the part strictly below a member `m` is the prefix
before `m`. -/
theorem filter_lt_sorted {m : Int} (u v : List Int)
    (h : List.Pairwise (fun a b => a < b) (u ++ m :: v)) :
    (u ++ m :: v).filter (fun a => decide (a < m)) = u := by
  rw [List.filter_append]
  rw [List.pairwise_append] at h
  obtain ⟨hu, hmv, hcross⟩ := h
  rw [List.pairwise_cons] at hmv
  have e1 : u.filter (fun a => decide (a < m)) = u := by
    rw [List.filter_eq_self]
    intro a ha
    have := hcross a ha m (List.mem_cons_self _ _)
    simp only [decide_eq_true_eq]
    omega
  have e2 : v.filter (fun a => decide (a < m)) = [] := by
    rw [List.filter_eq_nil_iff]
    intro a ha
    have := hmv.1 a ha
    simp only [decide_eq_true_eq]
    omega
  simp only [List.filter_cons]
  rw [e1, if_neg (by simp), e2, List.append_nil]

/-- The least member of a sorted list that is `≥ p` is `p` itself when `p`
is a member. -/
theorem head_filter_ge_of_mem {p : Int} : ∀ {xs : List Int},
    List.Pairwise (fun a b => a < b) xs → p ∈ xs →
    (xs.filter (fun a => decide (p ≤ a))).head? = some p := by
  intro xs
  induction xs with
  | nil => intro _ h; simp at h
  | cons a l ih =>
    intro hp hm
    rw [List.pairwise_cons] at hp
    rcases List.mem_cons.mp hm with rfl | hm
    · simp only [List.filter_cons]
      rw [if_pos (by simp)]
      rfl
    · have hap : a < p := hp.1 p hm
      simp only [List.filter_cons]
      rw [if_neg (by simp only [decide_eq_true_eq]; omega)]
      exact ih hp.2 hm

/-- In-order keys after `aat_insert0`: sorted insertion of the new key. -/
theorem keys_insert0 : ∀ {t : AAT} (item : AatNode),
    List.Pairwise (fun a b => a < b) t.keys →
    (aat_insert0 t item).1.keys = linsert item.key t.keys := by
  intro t
  induction t with
  | nil => intro item _; rfl
  | node l r lv k0 id ihl ihr =>
    intro item hp
    obtain ⟨hpl, hpr, hlk, hkr⟩ := @pairwise_node_facts l r lv k0 id hp
    simp only [AAT.keys_node]
    rcases lt_trichotomy item.key k0 with hlt | heq0 | hgt
    · have hc := eq_true (aat_compare_lt_zero.mpr hlt)
      have heq : (aat_insert0 (AAT.node l r lv k0 id) item).1 =
          aat_split (aat_skew (AAT.node (aat_insert0 l item).1 r lv k0 id)) := by
        simp only [aat_insert0, hc, if_true]
      rw [heq, keys_split, keys_skew]
      simp only [AAT.keys_node]
      rw [ihl item hpl, linsert_append_left hlt]
    · have hc1 := eq_false (show ¬ aat_compare item.key k0 < 0 by
        rw [aat_compare_lt_zero]; omega)
      have hc2 := eq_false (show ¬ aat_compare item.key k0 > 0 by
        rw [gt_iff_lt, aat_compare_pos]; omega)
      have heq : (aat_insert0 (AAT.node l r lv k0 id) item).1 =
          aat_split (aat_skew (AAT.node l r lv item.key item.id)) := by
        simp only [aat_insert0, hc1, hc2, if_false]
      rw [heq, keys_split, keys_skew]
      simp only [AAT.keys_node]
      rw [← heq0] at hlk
      rw [← heq0, linsert_append_eq _ _ hlk]
    · have hc1 := eq_false (show ¬ aat_compare item.key k0 < 0 by
        rw [aat_compare_lt_zero]; omega)
      have hc2 := eq_true (show aat_compare item.key k0 > 0 from aat_compare_pos.mpr hgt)
      have heq : (aat_insert0 (AAT.node l r lv k0 id) item).1 =
          aat_split (aat_skew (AAT.node l (aat_insert0 r item).1 lv k0 id)) := by
        simp only [aat_insert0, hc1, hc2, if_true, if_false]
      rw [heq, keys_split, keys_skew]
      simp only [AAT.keys_node]
      rw [ihr item hpr, linsert_append_right hgt _ _ (fun a ha => lt_trans (hlk a ha) hgt)]

/-- The replaced-node result of `aat_insert0` is exactly the comparator
descent record of the inserted key. -/
theorem insert0_snd : ∀ (t : AAT) (item : AatNode),
    (aat_insert0 t item).2 = nodeAtKey t item.key := by
  intro t
  induction t with
  | nil => intro item; rfl
  | node l r lv k0 id ihl ihr =>
    intro item
    rcases lt_trichotomy item.key k0 with hlt | heq0 | hgt
    · have hc := eq_true (aat_compare_lt_zero.mpr hlt)
      have heq : (aat_insert0 (AAT.node l r lv k0 id) item).2 =
          (aat_insert0 l item).2 := by
        simp only [aat_insert0, hc, if_true]
      rw [heq, ihl item, nodeAtKey, if_pos hlt]
    · have hc1 := eq_false (show ¬ aat_compare item.key k0 < 0 by
        rw [aat_compare_lt_zero]; omega)
      have hc2 := eq_false (show ¬ aat_compare item.key k0 > 0 by
        rw [gt_iff_lt, aat_compare_pos]; omega)
      have heq : (aat_insert0 (AAT.node l r lv k0 id) item).2 =
          some ⟨l.rootId, r.rootId, lv, k0, id⟩ := by
        simp only [aat_insert0, hc1, hc2, if_false]
      rw [heq, nodeAtKey, if_neg (by omega), if_neg (by omega)]
    · have hc1 := eq_false (show ¬ aat_compare item.key k0 < 0 by
        rw [aat_compare_lt_zero]; omega)
      have hc2 := eq_true (show aat_compare item.key k0 > 0 from aat_compare_pos.mpr hgt)
      have heq : (aat_insert0 (AAT.node l r lv k0 id) item).2 =
          (aat_insert0 r item).2 := by
        simp only [aat_insert0, hc1, hc2, if_true, if_false]
      rw [heq, ihr item, nodeAtKey, if_neg (by omega), if_pos hgt]

/-- The tree returned by public `aat_insert` is the one built by
`aat_insert0`. -/
theorem insert_fst (t : AAT) (item : AatNode) :
    (aat_insert t item).1 = (aat_insert0 t item).1 := by
  unfold aat_insert
  cases h : (aat_insert0 t item).2 with
  | none => simp [h]
  | some old =>
    simp only [h]
    by_cases hid : old.id = item.id
    · rw [if_pos hid]
    · rw [if_neg hid]


/-- Replacing the last element of a list, as a concatenation. -/
theorem dropLast_getLast?_append {α : Type} {w : List α} {m : α} : ∀ {u : List α},
    u.getLast? = some m → u.dropLast ++ m :: w = u ++ w := by
  intro u
  induction u with
  | nil => intro h; simp at h
  | cons a u ih =>
    intro h
    cases u with
    | nil =>
      simp only [List.getLast?_singleton, Option.some.injEq] at h
      subst h
      rfl
    | cons b u2 =>
      rw [List.getLast?_cons_cons] at h
      rw [List.dropLast_cons_of_ne_nil (by simp), List.cons_append, ih h]
      simp

/-- `aat_delete_first0` removes exactly the head of the in-order key list. -/
theorem delete_first0_keys : ∀ (t : AAT), (aat_delete_first0 t).1.keys = t.keys.tail := by
  intro t
  induction t with
  | nil => rfl
  | node l r lv k id ihl ihr =>
    cases l with
    | nil => simp [aat_delete_first0]
    | node a b c d e =>
      have heq : aat_delete_first0 (AAT.node (AAT.node a b c d e) r lv k id) =
          (aat_delete_fixup (AAT.node (aat_delete_first0 (AAT.node a b c d e)).1 r lv k id),
           (aat_delete_first0 (AAT.node a b c d e)).2) := rfl
      have h2 : (AAT.node (AAT.node a b c d e) r lv k id).keys =
          (AAT.node a b c d e).keys ++ k :: r.keys := AAT.keys_node
      rw [heq]
      show (aat_delete_fixup (AAT.node (aat_delete_first0 (AAT.node a b c d e)).1 r lv k id)).keys = _
      rw [keys_fixup, h2, AAT.keys_node, ihl, tail_append_ne (keys_ne_nil (by simp))]

/-- The node detached by `aat_delete_first0` carries the minimum key. -/
theorem delete_first0_key : ∀ (t : AAT),
    ((aat_delete_first0 t).2.map fun n => n.key) = t.keys.head? := by
  intro t
  induction t with
  | nil => rfl
  | node l r lv k id ihl ihr =>
    cases l with
    | nil => simp [aat_delete_first0]
    | node a b c d e =>
      have heq : (aat_delete_first0 (AAT.node (AAT.node a b c d e) r lv k id)).2 =
          (aat_delete_first0 (AAT.node a b c d e)).2 := rfl
      have h2 : (AAT.node (AAT.node a b c d e) r lv k id).keys =
          (AAT.node a b c d e).keys ++ k :: r.keys := AAT.keys_node
      rw [heq, ihl, h2, head?_append_ne (keys_ne_nil (by simp))]

/-- The node detached by `aat_delete_first0` is the leftmost node. -/
theorem delete_first0_id : ∀ (t : AAT),
    ((aat_delete_first0 t).2.map fun n => n.id) = t.ids.head? := by
  intro t
  induction t with
  | nil => rfl
  | node l r lv k id ihl ihr =>
    cases l with
    | nil => simp [aat_delete_first0]
    | node a b c d e =>
      have heq : (aat_delete_first0 (AAT.node (AAT.node a b c d e) r lv k id)).2 =
          (aat_delete_first0 (AAT.node a b c d e)).2 := rfl
      have h2 : (AAT.node (AAT.node a b c d e) r lv k id).ids =
          (AAT.node a b c d e).ids ++ id :: r.ids := AAT.ids_node
      have h3 : (AAT.node a b c d e).ids ≠ [] := by simp
      rw [heq, ihl, h2, head?_append_ne h3]

/-- `aat_delete_first0` detaches a node exactly on non-empty trees. -/
theorem delete_first0_none_iff (t : AAT) :
    (aat_delete_first0 t).2 = none ↔ t = .nil := by
  constructor
  · intro h
    have hk := delete_first0_key t
    rw [h] at hk
    cases t with
    | nil => rfl
    | node l r lv k id =>
      exfalso
      simp only [AAT.keys_node, Option.map_none'] at hk
      cases hl : l.keys with
      | nil => rw [hl] at hk; simp at hk
      | cons x xs => rw [hl] at hk; simp at hk
  · intro h; subst h; rfl

/-- `aat_delete_last0` removes exactly the last of the in-order key list. -/
theorem delete_last0_keys : ∀ (t : AAT), (aat_delete_last0 t).1.keys = t.keys.dropLast := by
  intro t
  induction t with
  | nil => rfl
  | node l r lv k id ihl ihr =>
    cases r with
    | nil =>
      show l.keys = _
      simp only [AAT.keys_node, AAT.keys_nil]
      rw [dropLast_append_ne (by simp)]
      simp
    | node a b c d e =>
      have heq : aat_delete_last0 (AAT.node l (AAT.node a b c d e) lv k id) =
          (aat_delete_fixup (AAT.node l (aat_delete_last0 (AAT.node a b c d e)).1 lv k id),
           (aat_delete_last0 (AAT.node a b c d e)).2) := rfl
      have h2 : (AAT.node l (AAT.node a b c d e) lv k id).keys =
          l.keys ++ k :: (AAT.node a b c d e).keys := AAT.keys_node
      rw [heq]
      show (aat_delete_fixup (AAT.node l (aat_delete_last0 (AAT.node a b c d e)).1 lv k id)).keys = _
      rw [keys_fixup, AAT.keys_node, ihr, h2, dropLast_append_ne (by simp),
        List.dropLast_cons_of_ne_nil (keys_ne_nil (by simp))]

/-- The node detached by `aat_delete_last0` carries the maximum key. -/
theorem delete_last0_key : ∀ (t : AAT),
    ((aat_delete_last0 t).2.map fun n => n.key) = t.keys.getLast? := by
  intro t
  induction t with
  | nil => rfl
  | node l r lv k id ihl ihr =>
    cases r with
    | nil =>
      show some k = _
      simp only [AAT.keys_node, AAT.keys_nil]
      rw [getLast?_append_ne (by simp)]
      rfl
    | node a b c d e =>
      have heq : (aat_delete_last0 (AAT.node l (AAT.node a b c d e) lv k id)).2 =
          (aat_delete_last0 (AAT.node a b c d e)).2 := rfl
      have h2 : (AAT.node l (AAT.node a b c d e) lv k id).keys =
          l.keys ++ k :: (AAT.node a b c d e).keys := AAT.keys_node
      have h3 : k :: (AAT.node a b c d e).keys ≠ [] := by simp
      rw [heq, ihr, h2, getLast?_append_ne h3, List.getLast?_cons]
      cases hx : (AAT.node a b c d e).keys with
      | nil => exact absurd hx (keys_ne_nil (by simp))
      | cons y ys => simp [List.getLast?_cons]

/-- The node detached by `aat_delete_last0` is the rightmost node. -/
theorem delete_last0_id : ∀ (t : AAT),
    ((aat_delete_last0 t).2.map fun n => n.id) = t.ids.getLast? := by
  intro t
  induction t with
  | nil => rfl
  | node l r lv k id ihl ihr =>
    cases r with
    | nil =>
      show some id = _
      simp only [AAT.ids_node, AAT.ids_nil]
      rw [getLast?_append_ne (by simp)]
      rfl
    | node a b c d e =>
      have heq : (aat_delete_last0 (AAT.node l (AAT.node a b c d e) lv k id)).2 =
          (aat_delete_last0 (AAT.node a b c d e)).2 := rfl
      have h2 : (AAT.node l (AAT.node a b c d e) lv k id).ids =
          l.ids ++ id :: (AAT.node a b c d e).ids := AAT.ids_node
      have h3 : id :: (AAT.node a b c d e).ids ≠ [] := by simp
      have h4 : (AAT.node a b c d e).ids ≠ [] := by simp
      rw [heq, ihr, h2, getLast?_append_ne h3, List.getLast?_cons]
      cases hx : (AAT.node a b c d e).ids with
      | nil => exact absurd hx h4
      | cons y ys => simp [List.getLast?_cons]

/-- `aat_delete_last0` detaches a node exactly on non-empty trees. -/
theorem delete_last0_none_iff (t : AAT) :
    (aat_delete_last0 t).2 = none ↔ t = .nil := by
  constructor
  · intro h
    have hk := delete_last0_key t
    rw [h] at hk
    cases t with
    | nil => rfl
    | node l r lv k id =>
      exfalso
      have h2 : (AAT.node l r lv k id).keys = l.keys ++ k :: r.keys := AAT.keys_node
      rw [h2, getLast?_append_ne (by simp), List.getLast?_cons] at hk
      simp only [Option.map_none'] at hk
      cases hx : r.keys with
      | nil => rw [hx] at hk; simp at hk
      | cons y ys => rw [hx] at hk; simp at hk
  · intro h; subst h; rfl

/-- The record found by comparator descent carries the probed key. -/
theorem nodeAtKey_key : ∀ {t : AAT} {key : Int} {n : AatNode},
    nodeAtKey t key = some n → n.key = key := by
  intro t
  induction t with
  | nil => intro key n h; simp [nodeAtKey] at h
  | node l r lv k0 id ihl ihr =>
    intro key n h
    rw [nodeAtKey] at h
    by_cases h1 : key < k0
    · rw [if_pos h1] at h
      exact ihl h
    · rw [if_neg h1] at h
      by_cases h2 : k0 < key
      · rw [if_pos h2] at h
        exact ihr h
      · rw [if_neg h2] at h
        simp only [Option.some.injEq] at h
        subst h
        show k0 = key
        omega

/-- Comparator descent fails exactly on absent keys (in a sorted tree). -/
theorem nodeAtKey_none_iff : ∀ {t : AAT} {key : Int},
    List.Pairwise (fun a b => a < b) t.keys →
    (nodeAtKey t key = none ↔ key ∉ t.keys) := by
  intro t
  induction t with
  | nil => intro key _; simp [nodeAtKey]
  | node l r lv k0 id ihl ihr =>
    intro key hp
    obtain ⟨hpl, hpr, hlk, hkr⟩ := @pairwise_node_facts l r lv k0 id hp
    rw [nodeAtKey]
    simp only [AAT.keys_node, List.mem_append, List.mem_cons, not_or]
    by_cases h1 : key < k0
    · rw [if_pos h1, ihl hpl]
      constructor
      · intro h
        refine ⟨h, by omega, ?_⟩
        intro hr
        have := hkr key hr
        omega
      · intro h
        exact h.1
    · rw [if_neg h1]
      by_cases h2 : k0 < key
      · rw [if_pos h2, ihr hpr]
        constructor
        · intro h
          refine ⟨?_, by omega, h⟩
          intro hl
          have := hlk key hl
          omega
        · intro h
          exact h.2.2
      · rw [if_neg h2]
        constructor
        · intro h
          simp at h
        · intro h
          exact absurd (by omega) h.2.1

/-- In-order keys after `aat_delete0`: the probed key is filtered out of a
sorted key list (no change when it is absent). -/
theorem keys_delete0 : ∀ {t : AAT} (key : Int),
    List.Pairwise (fun a b => a < b) t.keys →
    (aat_delete0 t key).1.keys = t.keys.filter (fun a => decide (a ≠ key)) := by
  intro t
  induction t with
  | nil => intro key _; rfl
  | node l r lv k0 id ihl ihr =>
    intro key hp
    obtain ⟨hpl, hpr, hlk, hkr⟩ := @pairwise_node_facts l r lv k0 id hp
    rcases lt_trichotomy key k0 with hlt | heq0 | hgt
    · have hc := eq_true (aat_compare_lt_zero.mpr hlt)
      have heq : (aat_delete0 (AAT.node l r lv k0 id) key).1 =
          aat_delete_fixup (AAT.node (aat_delete0 l key).1 r lv k0 id) := by
        simp only [aat_delete0, hc, if_true, AAT.isNil_node, Bool.false_eq_true, if_false]
      have hid : r.keys.filter (fun a => decide (a ≠ key)) = r.keys := by
        rw [List.filter_eq_self]
        intro a ha
        have := hkr a ha
        simp only [decide_eq_true_eq]
        omega
      rw [heq, keys_fixup, AAT.keys_node, ihl key hpl, AAT.keys_node, List.filter_append]
      simp only [List.filter_cons]
      rw [if_pos (by simp only [decide_eq_true_eq]; omega), hid]
    · subst heq0
      have hc1 := eq_false (show ¬ aat_compare key key < 0 by
        rw [aat_compare_lt_zero]; omega)
      have hc2 := eq_false (show ¬ aat_compare key key > 0 by
        rw [gt_iff_lt, aat_compare_pos]; omega)
      have hfl : l.keys.filter (fun a => decide (a ≠ key)) = l.keys := by
        rw [List.filter_eq_self]
        intro a ha
        have := hlk a ha
        simp only [decide_eq_true_eq]
        omega
      have hfr : r.keys.filter (fun a => decide (a ≠ key)) = r.keys := by
        rw [List.filter_eq_self]
        intro a ha
        have := hkr a ha
        simp only [decide_eq_true_eq]
        omega
      have hrhs : (AAT.node l r lv key id).keys.filter (fun a => decide (a ≠ key)) =
          l.keys ++ r.keys := by
        rw [AAT.keys_node, List.filter_append]
        simp only [List.filter_cons]
        rw [if_neg (by simp), hfl, hfr]
      rw [hrhs]
      by_cases hln : l = .nil
      · subst hln
        by_cases hrn : r = .nil
        · subst hrn
          have heq : (aat_delete0 (AAT.node AAT.nil AAT.nil lv key id) key).1 = AAT.nil := by
            simp only [aat_delete0, hc1, hc2, if_false, AAT.isNil_nil, Bool.and_self,
              if_true, AAT.isNil_nil]
          rw [heq]
          rfl
        · have hr1 : r.isNil = false := by simpa using hrn
          obtain ⟨n, hn⟩ : ∃ n, (aat_delete_first0 r).2 = some n := by
            cases hq : (aat_delete_first0 r).2 with
            | none => exact absurd ((delete_first0_none_iff r).mp hq) hrn
            | some n => exact ⟨n, rfl⟩
          have heq : (aat_delete0 (AAT.node AAT.nil r lv key id) key).1 =
              aat_delete_fixup (AAT.node AAT.nil (aat_delete_first0 r).1 lv n.key n.id) := by
            simp only [aat_delete0, hc1, hc2, if_false, AAT.isNil_nil, Bool.true_and, hr1,
              Bool.false_eq_true, if_false, if_true, hn, Option.getD_some, AAT.isNil_node]
          have hkey := delete_first0_key r
          rw [hn] at hkey
          cases hrk : r.keys with
          | nil => exact absurd hrk (keys_ne_nil hrn)
          | cons h0 tl =>
            rw [hrk] at hkey
            simp only [Option.map_some', Option.some.injEq, List.head?_cons] at hkey
            rw [heq, keys_fixup, AAT.keys_node, delete_first0_keys, hrk, AAT.keys_nil,
              List.nil_append, List.nil_append, hkey]
            rfl
      · have hl1 : l.isNil = false := by simpa using hln
        obtain ⟨n, hn⟩ : ∃ n, (aat_delete_last0 l).2 = some n := by
          cases hq : (aat_delete_last0 l).2 with
          | none => exact absurd ((delete_last0_none_iff l).mp hq) hln
          | some n => exact ⟨n, rfl⟩
        have heq : (aat_delete0 (AAT.node l r lv key id) key).1 =
            aat_delete_fixup (AAT.node (aat_delete_last0 l).1 r lv n.key n.id) := by
          simp only [aat_delete0, hc1, hc2, if_false, hl1, Bool.false_and,
            Bool.false_eq_true, if_false, hn, Option.getD_some, AAT.isNil_node]
        have hkey := delete_last0_key l
        rw [hn] at hkey
        simp only [Option.map_some'] at hkey
        rw [heq, keys_fixup, AAT.keys_node, delete_last0_keys,
          dropLast_getLast?_append hkey.symm]
    · have hc1 := eq_false (show ¬ aat_compare key k0 < 0 by
        rw [aat_compare_lt_zero]; omega)
      have hc2 := eq_true (show aat_compare key k0 > 0 from aat_compare_pos.mpr hgt)
      have heq : (aat_delete0 (AAT.node l r lv k0 id) key).1 =
          aat_delete_fixup (AAT.node l (aat_delete0 r key).1 lv k0 id) := by
        simp only [aat_delete0, hc1, hc2, if_true, if_false, AAT.isNil_node,
          Bool.false_eq_true]
      have hid : l.keys.filter (fun a => decide (a ≠ key)) = l.keys := by
        rw [List.filter_eq_self]
        intro a ha
        have := hlk a ha
        simp only [decide_eq_true_eq]
        omega
      rw [heq, keys_fixup, AAT.keys_node, ihr key hpr, AAT.keys_node, List.filter_append]
      simp only [List.filter_cons]
      rw [if_pos (by simp only [decide_eq_true_eq]; omega), hid]

/-- The node detached by `aat_delete0` is exactly the one the comparator
descent finds: same key and same identity. -/
theorem delete0_deleted : ∀ (t : AAT) (key : Int),
    ((aat_delete0 t key).2.map fun n => (n.key, n.id)) =
      ((nodeAtKey t key).map fun n => (n.key, n.id)) := by
  intro t
  induction t with
  | nil => intro key; rfl
  | node l r lv k0 id ihl ihr =>
    intro key
    rcases lt_trichotomy key k0 with hlt | heq0 | hgt
    · have hc := eq_true (aat_compare_lt_zero.mpr hlt)
      have heq : (aat_delete0 (AAT.node l r lv k0 id) key).2 = (aat_delete0 l key).2 := by
        simp only [aat_delete0, hc, if_true]
        split <;> rfl
      rw [heq, nodeAtKey, if_pos hlt]
      exact ihl key
    · subst heq0
      have hc1 := eq_false (show ¬ aat_compare key key < 0 by
        rw [aat_compare_lt_zero]; omega)
      have hc2 := eq_false (show ¬ aat_compare key key > 0 by
        rw [gt_iff_lt, aat_compare_pos]; omega)
      have hrhs : nodeAtKey (AAT.node l r lv key id) key =
          some ⟨l.rootId, r.rootId, lv, key, id⟩ := by
        rw [nodeAtKey, if_neg (by omega), if_neg (by omega)]
      rw [hrhs]
      by_cases hln : l = .nil
      · subst hln
        by_cases hrn : r = .nil
        · subst hrn
          have heq : (aat_delete0 (AAT.node AAT.nil AAT.nil lv key id) key).2 =
              some ⟨none, none, lv, key, id⟩ := by
            simp only [aat_delete0, hc1, hc2, if_false, AAT.isNil_nil, Bool.and_self,
              if_true]
          rw [heq]
          rfl
        · have hr1 : r.isNil = false := by simpa using hrn
          have heq : (aat_delete0 (AAT.node AAT.nil r lv key id) key).2 =
              some ⟨AAT.nil.rootId, (aat_delete_first0 r).1.rootId, lv, key, id⟩ := by
            simp only [aat_delete0, hc1, hc2, if_false, AAT.isNil_nil, Bool.true_and, hr1,
              Bool.false_eq_true, if_false, if_true, AAT.isNil_node]
          rw [heq]
          rfl
      · have hl1 : l.isNil = false := by simpa using hln
        have heq : (aat_delete0 (AAT.node l r lv key id) key).2 =
            some ⟨(aat_delete_last0 l).1.rootId, r.rootId, lv, key, id⟩ := by
          simp only [aat_delete0, hc1, hc2, if_false, hl1, Bool.false_and,
            Bool.false_eq_true, if_false, AAT.isNil_node]
        rw [heq]
        rfl
    · have hc1 := eq_false (show ¬ aat_compare key k0 < 0 by
        rw [aat_compare_lt_zero]; omega)
      have hc2 := eq_true (show aat_compare key k0 > 0 from aat_compare_pos.mpr hgt)
      have heq : (aat_delete0 (AAT.node l r lv k0 id) key).2 = (aat_delete0 r key).2 := by
        simp only [aat_delete0, hc1, hc2, if_true, if_false]
        split <;> rfl
      rw [heq, nodeAtKey, if_neg (by omega), if_pos hgt]
      exact ihr key

/-- C1: on a tree satisfying the six AA invariants, each mutating
operation — `aat_insert`, `aat_delete`, `aat_delete_first`,
`aat_delete_last` — returns a tree that satisfies all six invariants
again. -/
theorem C1_operations_preserve_invariants (t : AAT) (item : AatNode) (key : Int)
    (hv : aat_valid t = true) :
    aat_valid (aat_insert t item).1 = true ∧
    aat_valid (aat_delete t key).1 = true ∧
    aat_valid (aat_delete_first t).1 = true ∧
    aat_valid (aat_delete_last t).1 = true := by
  have hs := aat_valid_structB hv
  have hp : List.Pairwise (fun a b => a < b) t.keys :=
    increasing_iff_pairwise.mp (aat_valid_increasing hv)
  refine ⟨?_, ?_, ?_, ?_⟩
  · rw [insert_fst]
    unfold aat_valid
    rw [Bool.and_eq_true]
    refine ⟨(insert0_ok item hs).1, ?_⟩
    rw [increasing_iff_pairwise, keys_insert0 item hp]
    exact pairwise_linsert hp
  · show aat_valid (aat_delete0 t key).1 = true
    unfold aat_valid
    rw [Bool.and_eq_true]
    refine ⟨(delete0_ok key hs).1, ?_⟩
    rw [increasing_iff_pairwise, keys_delete0 key hp]
    exact List.Pairwise.sublist (List.filter_sublist _) hp
  · show aat_valid (aat_delete_first0 t).1 = true
    unfold aat_valid
    rw [Bool.and_eq_true]
    refine ⟨(delete_first0_ok hs).1, ?_⟩
    rw [increasing_iff_pairwise, delete_first0_keys]
    exact List.Pairwise.sublist (List.tail_sublist _) hp
  · show aat_valid (aat_delete_last0 t).1 = true
    unfold aat_valid
    rw [Bool.and_eq_true]
    refine ⟨(delete_last0_ok hs).1, ?_⟩
    rw [increasing_iff_pairwise, delete_last0_keys]
    exact List.Pairwise.sublist (List.dropLast_sublist _) hp

/-- Witness for C1 on a concrete valid tree, inserted item and deleted key. -/
theorem C1_operations_preserve_invariants_witness :
    aat_valid (AAT.node (AAT.node .nil .nil 1 0 0) (AAT.node .nil .nil 1 20 2) 2 10 1)
      = true ∧
    (aat_valid (aat_insert (AAT.node (AAT.node .nil .nil 1 0 0)
        (AAT.node .nil .nil 1 20 2) 2 10 1) ⟨none, none, 0, 5, 7⟩).1 = true ∧
     aat_valid (aat_delete (AAT.node (AAT.node .nil .nil 1 0 0)
        (AAT.node .nil .nil 1 20 2) 2 10 1) 20).1 = true ∧
     aat_valid (aat_delete_first (AAT.node (AAT.node .nil .nil 1 0 0)
        (AAT.node .nil .nil 1 20 2) 2 10 1)).1 = true ∧
     aat_valid (aat_delete_last (AAT.node (AAT.node .nil .nil 1 0 0)
        (AAT.node .nil .nil 1 20 2) 2 10 1)).1 = true) :=
  ⟨by decide, C1_operations_preserve_invariants
    (AAT.node (AAT.node .nil .nil 1 0 0) (AAT.node .nil .nil 1 20 2) 2 10 1)
    ⟨none, none, 0, 5, 7⟩ 20 (by decide)⟩

/-- Dropping a skew of an absent right child is a no-op. -/
theorem fixup_stage_skew (u : AAT) :
    u.setRight (aat_skew u.right) =
      if u.right ≠ .nil then u.setRight (aat_skew u.right) else u := by
  by_cases h : u.right = .nil
  · rw [if_neg (by simp [h]), h]
    have h2 : aat_skew AAT.nil = AAT.nil := rfl
    rw [h2, ← h, AAT.setRight_self]
  · rw [if_pos h]

/-- Dropping a split of an absent right child is a no-op. -/
theorem fixup_stage_split (u : AAT) :
    u.setRight (aat_split u.right) =
      if u.right ≠ .nil then u.setRight (aat_split u.right) else u := by
  by_cases h : u.right = .nil
  · rw [if_neg (by simp [h]), h]
    have h2 : aat_split AAT.nil = AAT.nil := rfl
    rw [h2, ← h, AAT.setRight_self]
  · rw [if_pos h]

/-- The two guards of the right-grandchild skew agree. -/
theorem fixup_stage_guard (u : AAT) :
    (if !u.right.isNil && !u.right.right.isNil
     then u.setRight (u.right.setRight (aat_skew u.right.right)) else u) =
    (if u.right.right ≠ .nil
     then u.setRight (u.right.setRight (aat_skew u.right.right)) else u) := by
  by_cases h : u.right.right = .nil
  · rw [if_neg (by simp [h])]
    by_cases h1 : u.right = .nil
    · rw [if_neg (by simp [h1])]
    · rw [if_neg (by simp [h1, h])]
  · have h1 : u.right ≠ .nil := by
      intro h1
      rw [h1] at h
      exact h rfl
    rw [if_pos (by simp [h1, h]), if_pos h]

/-- The code's fixup is stage-for-stage the specification's six-step
sequence. -/
theorem fixup_eq_spec (t : AAT) : aat_delete_fixup t = delete_fixup_spec t := by
  simp only [aat_delete_fixup, delete_fixup_spec]
  rw [← fixup_stage_skew, ← fixup_stage_guard, ← fixup_stage_split]

/-- C3: `aat_delete_fixup` performs exactly the specification's six-step
sequence — decrease-level on `N`, skew on `N`, skew on `N.right` if present,
skew on `N.right.right` if present, split on `N`, split on `N.right` if
present, in this order — and, run at a node in any of the states arising
from a single removal beneath it (`PreFix`), it restores all AA invariants
of that subtree. -/
theorem C3_fixup_order_and_restores :
    (∀ t : AAT, aat_delete_fixup t = delete_fixup_spec t) ∧
    (∀ (l r : AAT) (lv : Nat) (k : Int) (id : Nat),
      PreFix (AAT.node l r lv k id) →
      increasing (AAT.node l r lv k id).keys = true →
      aat_valid (aat_delete_fixup (AAT.node l r lv k id)) = true) := by
  refine ⟨fixup_eq_spec, ?_⟩
  intro l r lv k id hpre hinc
  unfold aat_valid
  rw [Bool.and_eq_true]
  refine ⟨(fixup_preFix hpre).1, ?_⟩
  rw [keys_fixup]
  exact hinc

/-- Witness for C3 at a concrete post-removal state. -/
theorem C3_fixup_order_and_restores_witness :
    PreFix (AAT.node .nil (AAT.node .nil .nil 1 5 5) 2 3 3) ∧
    increasing (AAT.node .nil (AAT.node .nil .nil 1 5 5) 2 3 3).keys = true ∧
    aat_delete_fixup (AAT.node .nil (AAT.node .nil .nil 1 5 5) 2 3 3) =
      delete_fixup_spec (AAT.node .nil (AAT.node .nil .nil 1 5 5) 2 3 3) ∧
    aat_valid (aat_delete_fixup (AAT.node .nil (AAT.node .nil .nil 1 5 5) 2 3 3)) = true :=
  have hpre : PreFix (AAT.node .nil (AAT.node .nil .nil 1 5 5) 2 3 3) :=
    ⟨rfl, by decide, Or.inl ⟨Or.inr rfl, by simp, Or.inr rfl, fun h => absurd rfl h⟩⟩
  ⟨hpre, by decide,
   C3_fixup_order_and_restores.1 _,
   C3_fixup_order_and_restores.2 _ _ _ _ _ hpre (by decide)⟩

/-- `setIdAt` keeps the root level. -/
theorem lvl_setIdAt (t : AAT) (key : Int) (nid : Nat) :
    (setIdAt t key nid).lvl = t.lvl := by
  cases t with
  | nil => rfl
  | node l r lv k id =>
    rw [setIdAt]
    by_cases h1 : key < k
    · rw [if_pos h1]
      rfl
    · rw [if_neg h1]
      by_cases h2 : k < key
      · rw [if_pos h2]
        rfl
      · rw [if_neg h2]
        rfl

/-- `setIdAt` keeps nil-ness. -/
theorem setIdAt_eq_nil_iff {t : AAT} {key : Int} {nid : Nat} :
    setIdAt t key nid = .nil ↔ t = .nil := by
  cases t with
  | nil => simp [setIdAt]
  | node l r lv k id =>
    rw [setIdAt]
    by_cases h1 : key < k
    · rw [if_pos h1]
      simp
    · rw [if_neg h1]
      by_cases h2 : k < key
      · rw [if_pos h2]
        simp
      · rw [if_neg h2]
        simp

/-- `setIdAt` keeps the level of the right child. -/
theorem right_lvl_setIdAt (t : AAT) (key : Int) (nid : Nat) :
    (setIdAt t key nid).right.lvl = t.right.lvl := by
  cases t with
  | nil => rfl
  | node l r lv k id =>
    rw [setIdAt]
    by_cases h1 : key < k
    · rw [if_pos h1]
      rfl
    · rw [if_neg h1]
      by_cases h2 : k < key
      · rw [if_pos h2]
        simp [lvl_setIdAt]
      · rw [if_neg h2]
        rfl

/-- `setIdAt` keeps nil-ness of the right child. -/
theorem right_nil_setIdAt {t : AAT} (key : Int) (nid : Nat) :
    (setIdAt t key nid).right = .nil ↔ t.right = .nil := by
  cases t with
  | nil => simp [setIdAt]
  | node l r lv k id =>
    rw [setIdAt]
    by_cases h1 : key < k
    · rw [if_pos h1]
      rfl
    · rw [if_neg h1]
      by_cases h2 : k < key
      · rw [if_pos h2]
        simp [setIdAt_eq_nil_iff]
      · rw [if_neg h2]
        rfl

/-- `setIdAt` keeps the in-order key list. -/
theorem keys_setIdAt : ∀ (t : AAT) (key : Int) (nid : Nat),
    (setIdAt t key nid).keys = t.keys := by
  intro t
  induction t with
  | nil => intro key nid; rfl
  | node l r lv k id ihl ihr =>
    intro key nid
    rw [setIdAt]
    by_cases h1 : key < k
    · rw [if_pos h1]
      simp only [AAT.keys_node, ihl]
    · rw [if_neg h1]
      by_cases h2 : k < key
      · rw [if_pos h2]
        simp only [AAT.keys_node, ihr]
      · rw [if_neg h2]
        have h3 : key = k := by omega
        simp only [AAT.keys_node, h3]

/-- `setIdAt` keeps the number of nodes. -/
theorem size_setIdAt : ∀ (t : AAT) (key : Int) (nid : Nat),
    (setIdAt t key nid).size = t.size := by
  intro t
  induction t with
  | nil => intro key nid; rfl
  | node l r lv k id ihl ihr =>
    intro key nid
    rw [setIdAt]
    by_cases h1 : key < k
    · rw [if_pos h1]
      simp only [AAT.size_node, ihl]
    · rw [if_neg h1]
      by_cases h2 : k < key
      · rw [if_pos h2]
        simp only [AAT.size_node, ihr]
      · rw [if_neg h2]
        rfl

/-- `setIdAt` preserves the structural invariants. -/
theorem structB_setIdAt : ∀ {t : AAT} (key : Int) (nid : Nat),
    structB t = true → structB (setIdAt t key nid) = true := by
  intro t
  induction t with
  | nil => intro key nid _; rfl
  | node l r lv k id ihl ihr =>
    intro key nid hs
    obtain ⟨hl, hr, h1, h2, h3, h4, h5⟩ := structB_node.mp hs
    rw [setIdAt]
    by_cases hc1 : key < k
    · rw [if_pos hc1, structB_node]
      refine ⟨ihl key nid hl, hr, ?_, ?_, h3, h4, ?_⟩
      · intro ha hb
        exact h1 (setIdAt_eq_nil_iff.mp ha) hb
      · intro ha
        rw [lvl_setIdAt]
        exact h2 (fun hb => ha (by rw [hb]; rfl))
      · intro ha
        refine ⟨?_, (h5 ha).2⟩
        intro hb
        exact (h5 ha).1 (setIdAt_eq_nil_iff.mp hb)
    · rw [if_neg hc1]
      by_cases hc2 : k < key
      · rw [if_pos hc2, structB_node]
        refine ⟨hl, ihr key nid hr, ?_, h2, ?_, ?_, ?_⟩
        · intro ha hb
          exact h1 ha (setIdAt_eq_nil_iff.mp hb)
        · intro ha
          rw [lvl_setIdAt]
          exact h3 (fun hb => ha (by rw [hb]; rfl))
        · intro ha hb
          rw [right_lvl_setIdAt]
          refine h4 (fun hc => ha (by rw [hc]; rfl)) ?_
          intro hc
          exact hb ((right_nil_setIdAt key nid).mpr hc)
        · intro ha
          refine ⟨(h5 ha).1, ?_⟩
          intro hb
          exact (h5 ha).2 (setIdAt_eq_nil_iff.mp hb)
      · rw [if_neg hc2, structB_node]
        exact ⟨hl, hr, h1, h2, h3, h4, h5⟩

/-- `nodeAtKey` after `setIdAt` at the same key: only the identity field
changes. -/
theorem nodeAtKey_setIdAt : ∀ (t : AAT) (key : Int) (nid : Nat),
    nodeAtKey (setIdAt t key nid) key =
      (nodeAtKey t key).map fun n => ⟨n.left, n.right, n.level, n.key, nid⟩ := by
  intro t
  induction t with
  | nil => intro key nid; rfl
  | node l r lv k id ihl ihr =>
    intro key nid
    rw [setIdAt]
    by_cases h1 : key < k
    · rw [if_pos h1, nodeAtKey, if_pos h1, nodeAtKey, if_pos h1]
      exact ihl key nid
    · rw [if_neg h1]
      by_cases h2 : k < key
      · rw [if_pos h2, nodeAtKey, if_neg h1, if_pos h2, nodeAtKey, if_neg h1, if_pos h2]
        exact ihr key nid
      · rw [if_neg h2, nodeAtKey, if_neg (by omega), if_neg (by omega),
          nodeAtKey, if_neg h1, if_neg h2]
        have h3 : key = k := by omega
        simp [h3]

/-- A replacing insert rebuilds the very same tree with only the identity at
the probed key changed: every skew and split on the search path is a no-op. -/
theorem insert0_replace : ∀ {t : AAT} {item : AatNode},
    structB t = true → nodeAtKey t item.key ≠ none →
    (aat_insert0 t item).1 = setIdAt t item.key item.id := by
  intro t
  induction t with
  | nil =>
    intro item _ hfound
    exact absurd rfl hfound
  | node l r lv k0 id ihl ihr =>
    intro item hs hfound
    obtain ⟨hl, hr, h1, h2, h3, h4, h5⟩ := structB_node.mp hs
    rcases lt_trichotomy item.key k0 with hlt | heq0 | hgt
    · have hc := eq_true (aat_compare_lt_zero.mpr hlt)
      rw [nodeAtKey, if_pos hlt] at hfound
      have hihl := ihl hl hfound
      have heq : (aat_insert0 (AAT.node l r lv k0 id) item).1 =
          aat_split (aat_skew (AAT.node (aat_insert0 l item).1 r lv k0 id)) := by
        simp only [aat_insert0, hc, if_true]
      have hln : l ≠ .nil := by
        intro h
        rw [h] at hfound
        exact hfound rfl
      have hs2 : structB (AAT.node (setIdAt l item.key item.id) r lv k0 id) = true := by
        rw [structB_node]
        refine ⟨structB_setIdAt _ _ hl, hr, ?_, ?_, h3, h4, ?_⟩
        · intro ha hb
          exact h1 (setIdAt_eq_nil_iff.mp ha) hb
        · intro _
          rw [lvl_setIdAt]
          exact h2 hln
        · intro ha
          refine ⟨?_, (h5 ha).2⟩
          intro hb
          exact (h5 ha).1 (setIdAt_eq_nil_iff.mp hb)
      rw [heq, hihl, skew_eq_self_of_structB hs2, split_eq_self_of_structB hs2,
        setIdAt, if_pos hlt]
    · have hc1 := eq_false (show ¬ aat_compare item.key k0 < 0 by
        rw [aat_compare_lt_zero]; omega)
      have hc2 := eq_false (show ¬ aat_compare item.key k0 > 0 by
        rw [gt_iff_lt, aat_compare_pos]; omega)
      have heq : (aat_insert0 (AAT.node l r lv k0 id) item).1 =
          aat_split (aat_skew (AAT.node l r lv item.key item.id)) := by
        simp only [aat_insert0, hc1, hc2, if_false]
      have hs2 : structB (AAT.node l r lv item.key item.id) = true := by
        rw [structB_node]
        exact ⟨hl, hr, h1, h2, h3, h4, h5⟩
      rw [heq, skew_eq_self_of_structB hs2, split_eq_self_of_structB hs2,
        setIdAt, if_neg (by omega), if_neg (by omega)]
    · have hc1 := eq_false (show ¬ aat_compare item.key k0 < 0 by
        rw [aat_compare_lt_zero]; omega)
      have hc2 := eq_true (show aat_compare item.key k0 > 0 from aat_compare_pos.mpr hgt)
      rw [nodeAtKey, if_neg (by omega), if_pos hgt] at hfound
      have hihr := ihr hr hfound
      have heq : (aat_insert0 (AAT.node l r lv k0 id) item).1 =
          aat_split (aat_skew (AAT.node l (aat_insert0 r item).1 lv k0 id)) := by
        simp only [aat_insert0, hc1, hc2, if_true, if_false]
      have hrn : r ≠ .nil := by
        intro h
        rw [h] at hfound
        exact hfound rfl
      have hs2 : structB (AAT.node l (setIdAt r item.key item.id) lv k0 id) = true := by
        rw [structB_node]
        refine ⟨hl, structB_setIdAt _ _ hr, ?_, h2, ?_, ?_, ?_⟩
        · intro ha hb
          exact h1 ha (setIdAt_eq_nil_iff.mp hb)
        · intro _
          rw [lvl_setIdAt]
          exact h3 hrn
        · intro _ hb
          rw [right_lvl_setIdAt]
          exact h4 hrn ((right_nil_setIdAt item.key item.id).not.mp hb)
        · intro ha
          refine ⟨(h5 ha).1, ?_⟩
          intro hb
          exact (h5 ha).2 (setIdAt_eq_nil_iff.mp hb)
      rw [heq, hihr, skew_eq_self_of_structB hs2, split_eq_self_of_structB hs2,
        setIdAt, if_neg (by omega), if_pos hgt]

/-- C4: a replacing insert installs the item in the found node's slot —
inheriting its children and level, so shape, levels, keys and size are
unchanged and only the identity at that key changes — and returns the
replaced node with its container fields zeroed. -/
theorem C4_insert_replace (t : AAT) (item old : AatNode)
    (hv : aat_valid t = true) (hfound : nodeAtKey t item.key = some old)
    (hne : old.id ≠ item.id) :
    aat_insert t item = (setIdAt t item.key item.id, some (aat_clear old)) ∧
    (setIdAt t item.key item.id).keys = t.keys ∧
    (setIdAt t item.key item.id).size = t.size ∧
    nodeAtKey (setIdAt t item.key item.id) item.key =
      some ⟨old.left, old.right, old.level, old.key, item.id⟩ ∧
    aat_clear old = ⟨none, none, 0, old.key, old.id⟩ := by
  have hs := aat_valid_structB hv
  have h1 : (aat_insert0 t item).1 = setIdAt t item.key item.id :=
    insert0_replace hs (by rw [hfound]; simp)
  have h2 : (aat_insert0 t item).2 = some old := by
    rw [insert0_snd, hfound]
  refine ⟨?_, keys_setIdAt t _ _, size_setIdAt t _ _, ?_, rfl⟩
  · unfold aat_insert
    simp only [h2, if_neg hne, h1]
  · rw [nodeAtKey_setIdAt, hfound]
    rfl

/-- Witness for C4 on a concrete tree and replacing item. -/
theorem C4_insert_replace_witness :
    aat_valid (AAT.node (AAT.node .nil .nil 1 0 0) (AAT.node .nil .nil 1 20 2) 2 10 1)
      = true ∧
    nodeAtKey (AAT.node (AAT.node .nil .nil 1 0 0) (AAT.node .nil .nil 1 20 2) 2 10 1)
      (10 : Int) = some ⟨some 0, some 2, 2, 10, 1⟩ ∧
    (1 : Nat) ≠ 9 ∧
    (aat_insert (AAT.node (AAT.node .nil .nil 1 0 0) (AAT.node .nil .nil 1 20 2) 2 10 1)
        ⟨none, none, 0, 10, 9⟩ =
      (setIdAt (AAT.node (AAT.node .nil .nil 1 0 0) (AAT.node .nil .nil 1 20 2) 2 10 1)
        10 9, some (aat_clear ⟨some 0, some 2, 2, 10, 1⟩)) ∧
     (setIdAt (AAT.node (AAT.node .nil .nil 1 0 0) (AAT.node .nil .nil 1 20 2) 2 10 1)
        10 9).keys =
      (AAT.node (AAT.node .nil .nil 1 0 0) (AAT.node .nil .nil 1 20 2) 2 10 1).keys ∧
     (setIdAt (AAT.node (AAT.node .nil .nil 1 0 0) (AAT.node .nil .nil 1 20 2) 2 10 1)
        10 9).size =
      (AAT.node (AAT.node .nil .nil 1 0 0) (AAT.node .nil .nil 1 20 2) 2 10 1).size ∧
     nodeAtKey (setIdAt (AAT.node (AAT.node .nil .nil 1 0 0)
        (AAT.node .nil .nil 1 20 2) 2 10 1) 10 9) 10 =
      some ⟨some 0, some 2, 2, 10, 9⟩ ∧
     aat_clear ⟨some 0, some 2, 2, 10, 1⟩ = ⟨none, none, 0, 10, 1⟩) :=
  ⟨by decide, by decide, by decide,
   C4_insert_replace (AAT.node (AAT.node .nil .nil 1 0 0) (AAT.node .nil .nil 1 20 2) 2 10 1)
     ⟨none, none, 0, 10, 9⟩ ⟨some 0, some 2, 2, 10, 1⟩ (by decide) (by decide) (by decide)⟩

/-- Options agreeing on key and identity are equal after clearing. -/
theorem map_clear_eq_of_kid {o1 o2 : Option AatNode}
    (h : (o1.map fun n => (n.key, n.id)) = (o2.map fun n => (n.key, n.id))) :
    o1.map aat_clear = o2.map aat_clear := by
  cases o1 with
  | none =>
    cases o2 with
    | none => rfl
    | some b => simp at h
  | some a =>
    cases o2 with
    | none => simp at h
    | some b =>
      simp only [Option.map_some', Option.some.injEq, Prod.mk.injEq] at h ⊢
      unfold aat_clear
      rw [h.1, h.2]

/-- C5: delete returns null exactly when the probed key is absent, otherwise
the found node with container fields zeroed; the in-order keys lose exactly
the probed key; and at a matching node with a child, the neighbour extracted
by delete-last of the left child (or delete-first of the right child when
there is no left child) is installed in the node's position, inheriting its
children and level. -/
theorem C5_delete_semantics (t : AAT) (key : Int) (hv : aat_valid t = true) :
    (aat_delete t key).2 = (nodeAtKey t key).map aat_clear ∧
    (aat_delete t key).1.keys = t.keys.filter (fun a => decide (a ≠ key)) ∧
    (∀ (l r : AAT) (lv : Nat) (k : Int) (id : Nat),
      t = AAT.node l r lv k id → key = k →
      (l = .nil → r = .nil → aat_delete0 t key = (.nil, some ⟨none, none, lv, k, id⟩)) ∧
      (l ≠ .nil → ∃ q x, aat_delete_last0 l = (q, some x) ∧
        l.keys.getLast? = some x.key ∧
        aat_delete0 t key =
          (aat_delete_fixup (AAT.node q r lv x.key x.id),
           some ⟨q.rootId, r.rootId, lv, k, id⟩)) ∧
      (l = .nil → r ≠ .nil → ∃ q x, aat_delete_first0 r = (q, some x) ∧
        r.keys.head? = some x.key ∧
        aat_delete0 t key =
          (aat_delete_fixup (AAT.node .nil q lv x.key x.id),
           some ⟨none, q.rootId, lv, k, id⟩))) := by
  have hp : List.Pairwise (fun a b => a < b) t.keys :=
    increasing_iff_pairwise.mp (aat_valid_increasing hv)
  refine ⟨?_, ?_, ?_⟩
  · show ((aat_delete0 t key).2.map aat_clear) = _
    exact map_clear_eq_of_kid (delete0_deleted t key)
  · exact keys_delete0 key hp
  · intro l r lv k id ht hk
    subst ht
    subst hk
    have hc1 := eq_false (show ¬ aat_compare key key < 0 by
      rw [aat_compare_lt_zero]; omega)
    have hc2 := eq_false (show ¬ aat_compare key key > 0 by
      rw [gt_iff_lt, aat_compare_pos]; omega)
    refine ⟨?_, ?_, ?_⟩
    · intro hln hrn
      subst hln
      subst hrn
      simp only [aat_delete0, hc1, hc2, if_false, AAT.isNil_nil, Bool.and_self, if_true]
    · intro hln
      have hl1 : l.isNil = false := by simpa using hln
      obtain ⟨n, hn⟩ : ∃ n, (aat_delete_last0 l).2 = some n := by
        cases hq : (aat_delete_last0 l).2 with
        | none => exact absurd ((delete_last0_none_iff l).mp hq) hln
        | some n => exact ⟨n, rfl⟩
      have hkey := delete_last0_key l
      rw [hn] at hkey
      simp only [Option.map_some'] at hkey
      refine ⟨(aat_delete_last0 l).1, n, ?_, hkey.symm, ?_⟩
      · rw [← hn]
      · simp only [aat_delete0, hc1, hc2, if_false, hl1, Bool.false_and,
          Bool.false_eq_true, if_false, hn, Option.getD_some, AAT.isNil_node]
    · intro hln hrn
      subst hln
      have hr1 : r.isNil = false := by simpa using hrn
      obtain ⟨n, hn⟩ : ∃ n, (aat_delete_first0 r).2 = some n := by
        cases hq : (aat_delete_first0 r).2 with
        | none => exact absurd ((delete_first0_none_iff r).mp hq) hrn
        | some n => exact ⟨n, rfl⟩
      have hkey := delete_first0_key r
      rw [hn] at hkey
      simp only [Option.map_some'] at hkey
      refine ⟨(aat_delete_first0 r).1, n, ?_, hkey.symm, ?_⟩
      · rw [← hn]
      · simp only [aat_delete0, hc1, hc2, if_false, AAT.isNil_nil, Bool.true_and, hr1,
          Bool.false_eq_true, if_false, if_true, hn, Option.getD_some, AAT.isNil_node,
          AAT.rootId_nil]

/-- Witness for C5 on a concrete tree, deleting the two-child root key. -/
theorem C5_delete_semantics_witness :
    aat_valid (AAT.node (AAT.node .nil .nil 1 0 0) (AAT.node .nil .nil 1 20 2) 2 10 1)
      = true ∧
    ((aat_delete (AAT.node (AAT.node .nil .nil 1 0 0) (AAT.node .nil .nil 1 20 2) 2 10 1)
        10).2 =
      (nodeAtKey (AAT.node (AAT.node .nil .nil 1 0 0)
        (AAT.node .nil .nil 1 20 2) 2 10 1) 10).map aat_clear ∧
     (aat_delete (AAT.node (AAT.node .nil .nil 1 0 0) (AAT.node .nil .nil 1 20 2) 2 10 1)
        10).1.keys =
      (AAT.node (AAT.node .nil .nil 1 0 0)
        (AAT.node .nil .nil 1 20 2) 2 10 1).keys.filter (fun a => decide (a ≠ 10)) ∧
     (∀ (l r : AAT) (lv : Nat) (k : Int) (id : Nat),
      (AAT.node (AAT.node .nil .nil 1 0 0) (AAT.node .nil .nil 1 20 2) 2 10 1 : AAT)
        = AAT.node l r lv k id → (10 : Int) = k →
      (l = .nil → r = .nil →
        aat_delete0 (AAT.node (AAT.node .nil .nil 1 0 0)
          (AAT.node .nil .nil 1 20 2) 2 10 1) 10 = (.nil, some ⟨none, none, lv, k, id⟩)) ∧
      (l ≠ .nil → ∃ q x, aat_delete_last0 l = (q, some x) ∧
        l.keys.getLast? = some x.key ∧
        aat_delete0 (AAT.node (AAT.node .nil .nil 1 0 0)
          (AAT.node .nil .nil 1 20 2) 2 10 1) 10 =
          (aat_delete_fixup (AAT.node q r lv x.key x.id),
           some ⟨q.rootId, r.rootId, lv, k, id⟩)) ∧
      (l = .nil → r ≠ .nil → ∃ q x, aat_delete_first0 r = (q, some x) ∧
        r.keys.head? = some x.key ∧
        aat_delete0 (AAT.node (AAT.node .nil .nil 1 0 0)
          (AAT.node .nil .nil 1 20 2) 2 10 1) 10 =
          (aat_delete_fixup (AAT.node .nil q lv x.key x.id),
           some ⟨none, q.rootId, lv, k, id⟩)))) :=
  ⟨by decide,
   C5_delete_semantics
     (AAT.node (AAT.node .nil .nil 1 0 0) (AAT.node .nil .nil 1 20 2) 2 10 1) 10
     (by decide)⟩

/-- C7: `aat_delete_first` removes and returns the minimum-key (leftmost)
node and `aat_delete_last` the maximum-key (rightmost) node, each returned
with its container fields zeroed; each returns null exactly on the empty
tree, which is left unchanged. -/
theorem C7_delete_first_last (t : AAT) (hv : aat_valid t = true) :
    (aat_delete_first t).1.keys = t.keys.tail ∧
    ((aat_delete_first t).2.map fun n => n.key) = t.keys.head? ∧
    ((aat_delete_first t).2.map fun n => n.id) = t.ids.head? ∧
    ((aat_delete_first t).2 = none ↔ t = .nil) ∧
    (t = .nil → aat_delete_first t = (.nil, none)) ∧
    (∀ n, (aat_delete_first t).2 = some n →
      n.left = none ∧ n.right = none ∧ n.level = 0) ∧
    (aat_delete_last t).1.keys = t.keys.dropLast ∧
    ((aat_delete_last t).2.map fun n => n.key) = t.keys.getLast? ∧
    ((aat_delete_last t).2.map fun n => n.id) = t.ids.getLast? ∧
    ((aat_delete_last t).2 = none ↔ t = .nil) ∧
    (t = .nil → aat_delete_last t = (.nil, none)) ∧
    (∀ n, (aat_delete_last t).2 = some n →
      n.left = none ∧ n.right = none ∧ n.level = 0) := by
  have e1 : (aat_delete_first t).2 = ((aat_delete_first0 t).2).map aat_clear := rfl
  have e2 : (aat_delete_last t).2 = ((aat_delete_last0 t).2).map aat_clear := rfl
  have ck : ((fun n : AatNode => n.key) ∘ aat_clear) = fun n : AatNode => n.key := rfl
  have ci : ((fun n : AatNode => n.id) ∘ aat_clear) = fun n : AatNode => n.id := rfl
  refine ⟨delete_first0_keys t, ?_, ?_, ?_, ?_, ?_,
    delete_last0_keys t, ?_, ?_, ?_, ?_, ?_⟩
  · rw [e1, Option.map_map, ck]
    exact delete_first0_key t
  · rw [e1, Option.map_map, ci]
    exact delete_first0_id t
  · rw [e1, Option.map_eq_none']
    exact delete_first0_none_iff t
  · intro h
    subst h
    rfl
  · intro n hn
    rw [e1] at hn
    cases hq : (aat_delete_first0 t).2 with
    | none => rw [hq] at hn; simp at hn
    | some m =>
      rw [hq] at hn
      simp only [Option.map_some', Option.some.injEq] at hn
      subst hn
      exact ⟨rfl, rfl, rfl⟩
  · rw [e2, Option.map_map, ck]
    exact delete_last0_key t
  · rw [e2, Option.map_map, ci]
    exact delete_last0_id t
  · rw [e2, Option.map_eq_none']
    exact delete_last0_none_iff t
  · intro h
    subst h
    rfl
  · intro n hn
    rw [e2] at hn
    cases hq : (aat_delete_last0 t).2 with
    | none => rw [hq] at hn; simp at hn
    | some m =>
      rw [hq] at hn
      simp only [Option.map_some', Option.some.injEq] at hn
      subst hn
      exact ⟨rfl, rfl, rfl⟩

/-- Witness for C7 on a concrete valid tree. -/
theorem C7_delete_first_last_witness :
    aat_valid (AAT.node (AAT.node .nil .nil 1 0 0) (AAT.node .nil .nil 1 20 2) 2 10 1)
      = true ∧
    ((aat_delete_first (AAT.node (AAT.node .nil .nil 1 0 0)
        (AAT.node .nil .nil 1 20 2) 2 10 1)).1.keys =
      (AAT.node (AAT.node .nil .nil 1 0 0) (AAT.node .nil .nil 1 20 2) 2 10 1).keys.tail ∧
     ((aat_delete_first (AAT.node (AAT.node .nil .nil 1 0 0)
        (AAT.node .nil .nil 1 20 2) 2 10 1)).2.map fun n => n.key) =
      (AAT.node (AAT.node .nil .nil 1 0 0) (AAT.node .nil .nil 1 20 2) 2 10 1).keys.head? ∧
     ((aat_delete_first (AAT.node (AAT.node .nil .nil 1 0 0)
        (AAT.node .nil .nil 1 20 2) 2 10 1)).2.map fun n => n.id) =
      (AAT.node (AAT.node .nil .nil 1 0 0) (AAT.node .nil .nil 1 20 2) 2 10 1).ids.head? ∧
     ((aat_delete_first (AAT.node (AAT.node .nil .nil 1 0 0)
        (AAT.node .nil .nil 1 20 2) 2 10 1)).2 = none ↔
      (AAT.node (AAT.node .nil .nil 1 0 0) (AAT.node .nil .nil 1 20 2) 2 10 1 : AAT)
        = .nil) ∧
     ((AAT.node (AAT.node .nil .nil 1 0 0) (AAT.node .nil .nil 1 20 2) 2 10 1 : AAT)
        = .nil →
      aat_delete_first (AAT.node (AAT.node .nil .nil 1 0 0)
        (AAT.node .nil .nil 1 20 2) 2 10 1) = (.nil, none)) ∧
     (∀ n, (aat_delete_first (AAT.node (AAT.node .nil .nil 1 0 0)
        (AAT.node .nil .nil 1 20 2) 2 10 1)).2 = some n →
      n.left = none ∧ n.right = none ∧ n.level = 0) ∧
     (aat_delete_last (AAT.node (AAT.node .nil .nil 1 0 0)
        (AAT.node .nil .nil 1 20 2) 2 10 1)).1.keys =
      (AAT.node (AAT.node .nil .nil 1 0 0)
        (AAT.node .nil .nil 1 20 2) 2 10 1).keys.dropLast ∧
     ((aat_delete_last (AAT.node (AAT.node .nil .nil 1 0 0)
        (AAT.node .nil .nil 1 20 2) 2 10 1)).2.map fun n => n.key) =
      (AAT.node (AAT.node .nil .nil 1 0 0)
        (AAT.node .nil .nil 1 20 2) 2 10 1).keys.getLast? ∧
     ((aat_delete_last (AAT.node (AAT.node .nil .nil 1 0 0)
        (AAT.node .nil .nil 1 20 2) 2 10 1)).2.map fun n => n.id) =
      (AAT.node (AAT.node .nil .nil 1 0 0)
        (AAT.node .nil .nil 1 20 2) 2 10 1).ids.getLast? ∧
     ((aat_delete_last (AAT.node (AAT.node .nil .nil 1 0 0)
        (AAT.node .nil .nil 1 20 2) 2 10 1)).2 = none ↔
      (AAT.node (AAT.node .nil .nil 1 0 0) (AAT.node .nil .nil 1 20 2) 2 10 1 : AAT)
        = .nil) ∧
     ((AAT.node (AAT.node .nil .nil 1 0 0) (AAT.node .nil .nil 1 20 2) 2 10 1 : AAT)
        = .nil →
      aat_delete_last (AAT.node (AAT.node .nil .nil 1 0 0)
        (AAT.node .nil .nil 1 20 2) 2 10 1) = (.nil, none)) ∧
     (∀ n, (aat_delete_last (AAT.node (AAT.node .nil .nil 1 0 0)
        (AAT.node .nil .nil 1 20 2) 2 10 1)).2 = some n →
      n.left = none ∧ n.right = none ∧ n.level = 0)) :=
  ⟨by decide,
   C7_delete_first_last
     (AAT.node (AAT.node .nil .nil 1 0 0) (AAT.node .nil .nil 1 20 2) 2 10 1)
     (by decide)⟩

/-- Searching a member key of a sorted tree lands on a node carrying that
key. -/
theorem search_rootKey : ∀ {t : AAT},
    List.Pairwise (fun a b => a < b) t.keys →
    ∀ {b : Int}, b ∈ t.keys → (aat_search t b).rootKey = some b := by
  intro t
  induction t with
  | nil =>
    intro _ b hb
    simp at hb
  | node l r lv k0 id ihl ihr =>
    intro hp b hb
    obtain ⟨hpl, hpr, hlk, hkr⟩ := @pairwise_node_facts l r lv k0 id hp
    rcases lt_trichotomy b k0 with hlt | heq0 | hgt
    · have hbl : b ∈ l.keys := by
        rw [AAT.keys_node] at hb
        rcases List.mem_append.mp hb with h | h
        · exact h
        · rcases List.mem_cons.mp h with h | h
          · omega
          · have := hkr b h
            omega
      have heq : aat_search (AAT.node l r lv k0 id) b = aat_search l b := by
        simp only [aat_search, eq_true (aat_compare_lt_zero.mpr hlt), if_true]
      rw [heq]
      exact ihl hpl hbl
    · subst heq0
      have hc1 := eq_false (show ¬ aat_compare b b < 0 by rw [aat_compare_lt_zero]; omega)
      have hc2 := eq_false (show ¬ aat_compare b b > 0 by
        rw [gt_iff_lt, aat_compare_pos]; omega)
      have heq : aat_search (AAT.node l r lv b id) b = AAT.node l r lv b id := by
        simp only [aat_search, hc1, hc2, if_false]
      rw [heq]
      rfl
    · have hbr : b ∈ r.keys := by
        rw [AAT.keys_node] at hb
        rcases List.mem_append.mp hb with h | h
        · have := hlk b h
          omega
        · rcases List.mem_cons.mp h with h | h
          · omega
          · exact h
      have hc1 := eq_false (show ¬ aat_compare b k0 < 0 by rw [aat_compare_lt_zero]; omega)
      have hc2 := eq_true (show aat_compare b k0 > 0 from aat_compare_pos.mpr hgt)
      have heq : aat_search (AAT.node l r lv k0 id) b = aat_search r b := by
        simp only [aat_search, hc1, hc2, if_true, if_false]
      rw [heq]
      exact ihr hpr hbr

/-- The `aat_iter` descent loop: on a sorted subtree it returns the
candidate when every key is below the probe, and otherwise lands on the
same node as a search for the least key at or above the probe. -/
theorem iter0_spec : ∀ {t : AAT},
    List.Pairwise (fun a b => a < b) t.keys → ∀ (p : Int) (found : AAT),
    (t.keys.filter (fun a => decide (p ≤ a)) = [] → aat_iter0 t p found = found) ∧
    (∀ b, (t.keys.filter (fun a => decide (p ≤ a))).head? = some b →
      aat_iter0 t p found = aat_search t b) := by
  intro t
  induction t with
  | nil =>
    intro _ p found
    refine ⟨fun _ => rfl, fun b hb => ?_⟩
    simp at hb
  | node l r lv k0 id ihl ihr =>
    intro hp p found
    obtain ⟨hpl, hpr, hlk, hkr⟩ := @pairwise_node_facts l r lv k0 id hp
    have hfilter : (AAT.node l r lv k0 id).keys.filter (fun a => decide (p ≤ a)) =
        l.keys.filter (fun a => decide (p ≤ a)) ++
          (k0 :: r.keys).filter (fun a => decide (p ≤ a)) := by
      rw [AAT.keys_node, List.filter_append]
    rcases lt_trichotomy p k0 with hlt | heq0 | hgt
    · have hc := eq_true (aat_compare_lt_zero.mpr hlt)
      have heq : aat_iter0 (AAT.node l r lv k0 id) p found =
          aat_iter0 l p (AAT.node l r lv k0 id) := by
        simp only [aat_iter0, hc, if_true]
      have hk0 : decide (p ≤ k0) = true := by
        simp only [decide_eq_true_eq]
        omega
      constructor
      · intro hnil
        rw [hfilter] at hnil
        simp only [List.filter_cons, hk0, if_true] at hnil
        exact absurd hnil (by simp)
      · intro b hb
        rw [hfilter] at hb
        simp only [List.filter_cons, hk0, if_true] at hb
        by_cases hfl : l.keys.filter (fun a => decide (p ≤ a)) = []
        · rw [hfl, List.nil_append, List.head?_cons, Option.some.injEq] at hb
          subst hb
          have hd1 := eq_false (show ¬ aat_compare k0 k0 < 0 by
            rw [aat_compare_lt_zero]; omega)
          have hd2 := eq_false (show ¬ aat_compare k0 k0 > 0 by
            rw [gt_iff_lt, aat_compare_pos]; omega)
          have hsrch : aat_search (AAT.node l r lv k0 id) k0 = AAT.node l r lv k0 id := by
            simp only [aat_search, hd1, hd2, if_false]
          rw [heq, (ihl hpl p _).1 hfl, hsrch]
        · rw [head?_append_ne hfl] at hb
          have hbmem : b ∈ l.keys :=
            (List.mem_filter.mp (List.mem_of_mem_head? (Option.mem_def.mpr hb))).1
          have hbk : b < k0 := hlk b hbmem
          have hsrch : aat_search (AAT.node l r lv k0 id) b = aat_search l b := by
            simp only [aat_search, eq_true (aat_compare_lt_zero.mpr hbk), if_true]
          rw [heq, (ihl hpl p _).2 b hb, hsrch]
    · subst heq0
      have hc1 := eq_false (show ¬ aat_compare p p < 0 by rw [aat_compare_lt_zero]; omega)
      have hc2 := eq_false (show ¬ aat_compare p p > 0 by
        rw [gt_iff_lt, aat_compare_pos]; omega)
      have heq : aat_iter0 (AAT.node l r lv p id) p found = AAT.node l r lv p id := by
        simp only [aat_iter0, hc1, hc2, if_false]
      have hfl : l.keys.filter (fun a => decide (p ≤ a)) = [] := by
        rw [List.filter_eq_nil_iff]
        intro a ha
        have := hlk a ha
        simp only [decide_eq_true_eq]
        omega
      have hk0 : decide (p ≤ p) = true := by simp
      constructor
      · intro hnil
        rw [hfilter, hfl, List.nil_append] at hnil
        simp only [List.filter_cons, hk0, if_true] at hnil
        exact absurd hnil (by simp)
      · intro b hb
        rw [hfilter, hfl, List.nil_append] at hb
        simp only [List.filter_cons, hk0, if_true, List.head?_cons,
          Option.some.injEq] at hb
        subst hb
        have hsrch : aat_search (AAT.node l r lv p id) p = AAT.node l r lv p id := by
          simp only [aat_search, hc1, hc2, if_false]
        rw [heq, hsrch]
    · have hc1 := eq_false (show ¬ aat_compare p k0 < 0 by rw [aat_compare_lt_zero]; omega)
      have hc2 := eq_true (show aat_compare p k0 > 0 from aat_compare_pos.mpr hgt)
      have heq : aat_iter0 (AAT.node l r lv k0 id) p found = aat_iter0 r p found := by
        simp only [aat_iter0, hc1, hc2, if_true, if_false]
      have hfl : l.keys.filter (fun a => decide (p ≤ a)) = [] := by
        rw [List.filter_eq_nil_iff]
        intro a ha
        have := hlk a ha
        simp only [decide_eq_true_eq]
        omega
      have hk0 : decide (p ≤ k0) = false := by
        simp only [decide_eq_false_iff_not]
        omega
      have hflt : (AAT.node l r lv k0 id).keys.filter (fun a => decide (p ≤ a)) =
          r.keys.filter (fun a => decide (p ≤ a)) := by
        rw [hfilter, hfl, List.nil_append]
        simp only [List.filter_cons, hk0]
        rw [if_neg (by simp)]
      constructor
      · intro hnil
        rw [hflt] at hnil
        rw [heq]
        exact (ihr hpr p found).1 hnil
      · intro b hb
        rw [hflt] at hb
        have hbmem : b ∈ r.keys :=
          (List.mem_filter.mp (List.mem_of_mem_head? (Option.mem_def.mpr hb))).1
        have hbk : k0 < b := hkr b hbmem
        have hd1 := eq_false (show ¬ aat_compare b k0 < 0 by
          rw [aat_compare_lt_zero]; omega)
        have hd2 := eq_true (show aat_compare b k0 > 0 from aat_compare_pos.mpr hbk)
        have hsrch : aat_search (AAT.node l r lv k0 id) b = aat_search r b := by
          simp only [aat_search, hd1, hd2, if_true, if_false]
        rw [heq, (ihr hpr p found).2 b hb, hsrch]

/-- C6: `aat_iter` positions on the in-tree node with the least key at or
above the probe, and returns nil when every key is below the probe; an
exact match lands on the node with that key. -/
theorem C6_iter_lower_bound (t : AAT) (p : Int) (hv : aat_valid t = true) :
    (t.keys.filter (fun a => decide (p ≤ a)) = [] → aat_iter t p = .nil) ∧
    (∀ b, (t.keys.filter (fun a => decide (p ≤ a))).head? = some b →
      aat_iter t p = aat_search t b ∧ (aat_iter t p).rootKey = some b ∧
      b ∈ t.keys ∧ p ≤ b) ∧
    (p ∈ t.keys → (aat_iter t p).rootKey = some p) := by
  have hp : List.Pairwise (fun a b => a < b) t.keys :=
    increasing_iff_pairwise.mp (aat_valid_increasing hv)
  have hiter : aat_iter t p = aat_iter0 t p .nil := rfl
  refine ⟨?_, ?_, ?_⟩
  · intro hnil
    rw [hiter]
    exact (iter0_spec hp p .nil).1 hnil
  · intro b hb
    have hmem := List.mem_filter.mp (List.mem_of_mem_head? (Option.mem_def.mpr hb))
    have h1 : aat_iter t p = aat_search t b := by
      rw [hiter]
      exact (iter0_spec hp p .nil).2 b hb
    refine ⟨h1, ?_, hmem.1, by simpa using hmem.2⟩
    rw [h1]
    exact search_rootKey hp hmem.1
  · intro hmem
    have hb := head_filter_ge_of_mem hp hmem
    have h1 : aat_iter t p = aat_search t p := by
      rw [hiter]
      exact (iter0_spec hp p .nil).2 p hb
    rw [h1]
    exact search_rootKey hp hmem

/-- Witness for C6 on a concrete valid tree and probe. -/
theorem C6_iter_lower_bound_witness :
    aat_valid (AAT.node (AAT.node .nil .nil 1 0 0) (AAT.node .nil .nil 1 20 2) 2 10 1)
      = true ∧
    (((AAT.node (AAT.node .nil .nil 1 0 0)
        (AAT.node .nil .nil 1 20 2) 2 10 1).keys.filter (fun a => decide ((5 : Int) ≤ a))
        = [] →
      aat_iter (AAT.node (AAT.node .nil .nil 1 0 0)
        (AAT.node .nil .nil 1 20 2) 2 10 1) 5 = .nil) ∧
     (∀ b, ((AAT.node (AAT.node .nil .nil 1 0 0)
        (AAT.node .nil .nil 1 20 2) 2 10 1).keys.filter
          (fun a => decide ((5 : Int) ≤ a))).head? = some b →
      aat_iter (AAT.node (AAT.node .nil .nil 1 0 0)
        (AAT.node .nil .nil 1 20 2) 2 10 1) 5 =
        aat_search (AAT.node (AAT.node .nil .nil 1 0 0)
          (AAT.node .nil .nil 1 20 2) 2 10 1) b ∧
      (aat_iter (AAT.node (AAT.node .nil .nil 1 0 0)
        (AAT.node .nil .nil 1 20 2) 2 10 1) 5).rootKey = some b ∧
      b ∈ (AAT.node (AAT.node .nil .nil 1 0 0)
        (AAT.node .nil .nil 1 20 2) 2 10 1).keys ∧ (5 : Int) ≤ b) ∧
     ((5 : Int) ∈ (AAT.node (AAT.node .nil .nil 1 0 0)
        (AAT.node .nil .nil 1 20 2) 2 10 1).keys →
      (aat_iter (AAT.node (AAT.node .nil .nil 1 0 0)
        (AAT.node .nil .nil 1 20 2) 2 10 1) 5).rootKey = some 5)) :=
  ⟨by decide,
   C6_iter_lower_bound
     (AAT.node (AAT.node .nil .nil 1 0 0) (AAT.node .nil .nil 1 20 2) 2 10 1) 5
     (by decide)⟩

/-- A skew moves pointers but keeps every (key, identity) association found
by descent (in a sorted subtree). -/
theorem kid_skew : ∀ {t : AAT},
    List.Pairwise (fun a b => a < b) t.keys → ∀ (key : Int),
    ((nodeAtKey (aat_skew t) key).map fun n => (n.key, n.id)) =
      ((nodeAtKey t key).map fun n => (n.key, n.id)) := by
  intro t hp key
  cases t with
  | nil => rfl
  | node L r lv k id =>
    cases L with
    | nil => rfl
    | node ll lr llv lk lid =>
      by_cases hlv : llv = lv
      · have hsk : aat_skew (AAT.node (AAT.node ll lr llv lk lid) r lv k id) =
            AAT.node ll (AAT.node lr r lv k id) llv lk lid := by
          simp only [aat_skew]
          rw [if_pos hlv]
        rw [hsk]
        have hlk : lk < k := by
          obtain ⟨hpl, hpr, hlkf, hkrf⟩ :=
            @pairwise_node_facts (AAT.node ll lr llv lk lid) r lv k id hp
          exact hlkf lk (by simp)
        rcases lt_trichotomy key lk with h1 | h1 | h1
        · have h2 : key < k := by omega
          have eA : nodeAtKey (AAT.node ll (AAT.node lr r lv k id) llv lk lid) key =
              nodeAtKey ll key := by
            rw [nodeAtKey, if_pos h1]
          have eB : nodeAtKey (AAT.node (AAT.node ll lr llv lk lid) r lv k id) key =
              nodeAtKey ll key := by
            rw [nodeAtKey, if_pos h2, nodeAtKey, if_pos h1]
          rw [eA, eB]
        · subst h1
          have eA : nodeAtKey (AAT.node ll (AAT.node lr r lv k id) llv key lid) key =
              some ⟨ll.rootId, (AAT.node lr r lv k id).rootId, llv, key, lid⟩ := by
            rw [nodeAtKey, if_neg (by omega), if_neg (by omega)]
          have eB : nodeAtKey (AAT.node (AAT.node ll lr llv key lid) r lv k id) key =
              some ⟨ll.rootId, lr.rootId, llv, key, lid⟩ := by
            rw [nodeAtKey, if_pos (by omega), nodeAtKey, if_neg (by omega),
              if_neg (by omega)]
          rw [eA, eB]
          rfl
        · rcases lt_trichotomy key k with h2 | h2 | h2
          · have eA : nodeAtKey (AAT.node ll (AAT.node lr r lv k id) llv lk lid) key =
                nodeAtKey lr key := by
              rw [nodeAtKey, if_neg (by omega), if_pos h1, nodeAtKey, if_pos h2]
            have eB : nodeAtKey (AAT.node (AAT.node ll lr llv lk lid) r lv k id) key =
                nodeAtKey lr key := by
              rw [nodeAtKey, if_pos h2, nodeAtKey, if_neg (by omega), if_pos h1]
            rw [eA, eB]
          · subst h2
            have eA : nodeAtKey (AAT.node ll (AAT.node lr r lv key id) llv lk lid) key =
                some ⟨lr.rootId, r.rootId, lv, key, id⟩ := by
              rw [nodeAtKey, if_neg (by omega), if_pos h1, nodeAtKey,
                if_neg (by omega), if_neg (by omega)]
            have eB : nodeAtKey (AAT.node (AAT.node ll lr llv lk lid) r lv key id) key =
                some ⟨(AAT.node ll lr llv lk lid).rootId, r.rootId, lv, key, id⟩ := by
              rw [nodeAtKey, if_neg (by omega), if_neg (by omega)]
            rw [eA, eB]
            rfl
          · have eA : nodeAtKey (AAT.node ll (AAT.node lr r lv k id) llv lk lid) key =
                nodeAtKey r key := by
              rw [nodeAtKey, if_neg (by omega), if_pos (by omega), nodeAtKey,
                if_neg (by omega), if_pos h2]
            have eB : nodeAtKey (AAT.node (AAT.node ll lr llv lk lid) r lv k id) key =
                nodeAtKey r key := by
              rw [nodeAtKey, if_neg (by omega), if_pos h2]
            rw [eA, eB]
      · have hsk : aat_skew (AAT.node (AAT.node ll lr llv lk lid) r lv k id) =
            AAT.node (AAT.node ll lr llv lk lid) r lv k id := by
          simp only [aat_skew]
          rw [if_neg hlv]
        rw [hsk]

/-- A split moves pointers and promotes a level but keeps every
(key, identity) association found by descent (in a sorted subtree). -/
theorem kid_split : ∀ {t : AAT},
    List.Pairwise (fun a b => a < b) t.keys → ∀ (key : Int),
    ((nodeAtKey (aat_split t) key).map fun n => (n.key, n.id)) =
      ((nodeAtKey t key).map fun n => (n.key, n.id)) := by
  intro t hp key
  cases t with
  | nil => rfl
  | node l R lv k id =>
    cases R with
    | nil => rfl
    | node rl RR rlv rk rid =>
      cases RR with
      | nil => rfl
      | node rrl rrr rrlv rrk rrid =>
        by_cases hlv : rrlv = lv
        · have hsp : aat_split (AAT.node l (AAT.node rl
              (AAT.node rrl rrr rrlv rrk rrid) rlv rk rid) lv k id) =
              AAT.node (AAT.node l rl lv k id) (AAT.node rrl rrr rrlv rrk rrid)
                (rlv + 1) rk rid := by
            simp only [aat_split]
            rw [if_pos hlv]
          rw [hsp]
          obtain ⟨hp1, hp2, hlkf, hkrf⟩ := @pairwise_node_facts l
            (AAT.node rl (AAT.node rrl rrr rrlv rrk rrid) rlv rk rid) lv k id hp
          obtain ⟨hp3, hp4, hrlf, hrrf⟩ := @pairwise_node_facts rl
            (AAT.node rrl rrr rrlv rrk rrid) rlv rk rid hp2
          have hkrk : k < rk := hkrf rk (by simp)
          have hrkrrk : rk < rrk := hrrf rrk (by simp)
          rcases lt_trichotomy key k with h1 | h1 | h1
          · have eA : nodeAtKey (AAT.node (AAT.node l rl lv k id)
                (AAT.node rrl rrr rrlv rrk rrid) (rlv + 1) rk rid) key =
                nodeAtKey l key := by
              rw [nodeAtKey, if_pos (by omega), nodeAtKey, if_pos h1]
            have eB : nodeAtKey (AAT.node l (AAT.node rl
                (AAT.node rrl rrr rrlv rrk rrid) rlv rk rid) lv k id) key =
                nodeAtKey l key := by
              rw [nodeAtKey, if_pos h1]
            rw [eA, eB]
          · subst h1
            have eA : nodeAtKey (AAT.node (AAT.node l rl lv key id)
                (AAT.node rrl rrr rrlv rrk rrid) (rlv + 1) rk rid) key =
                some ⟨l.rootId, rl.rootId, lv, key, id⟩ := by
              rw [nodeAtKey, if_pos (by omega), nodeAtKey, if_neg (by omega),
                if_neg (by omega)]
            have eB : nodeAtKey (AAT.node l (AAT.node rl
                (AAT.node rrl rrr rrlv rrk rrid) rlv rk rid) lv key id) key =
                some ⟨l.rootId, (AAT.node rl
                  (AAT.node rrl rrr rrlv rrk rrid) rlv rk rid).rootId, lv, key, id⟩ := by
              rw [nodeAtKey, if_neg (by omega), if_neg (by omega)]
            rw [eA, eB]
            rfl
          · rcases lt_trichotomy key rk with h2 | h2 | h2
            · have eA : nodeAtKey (AAT.node (AAT.node l rl lv k id)
                  (AAT.node rrl rrr rrlv rrk rrid) (rlv + 1) rk rid) key =
                  nodeAtKey rl key := by
                rw [nodeAtKey, if_pos h2, nodeAtKey, if_neg (by omega), if_pos h1]
              have eB : nodeAtKey (AAT.node l (AAT.node rl
                  (AAT.node rrl rrr rrlv rrk rrid) rlv rk rid) lv k id) key =
                  nodeAtKey rl key := by
                rw [nodeAtKey, if_neg (by omega), if_pos h1, nodeAtKey, if_pos h2]
              rw [eA, eB]
            · subst h2
              have eA : nodeAtKey (AAT.node (AAT.node l rl lv k id)
                  (AAT.node rrl rrr rrlv rrk rrid) (rlv + 1) key rid) key =
                  some ⟨(AAT.node l rl lv k id).rootId,
                    (AAT.node rrl rrr rrlv rrk rrid).rootId, rlv + 1, key, rid⟩ := by
                rw [nodeAtKey, if_neg (by omega), if_neg (by omega)]
              have eB : nodeAtKey (AAT.node l (AAT.node rl
                  (AAT.node rrl rrr rrlv rrk rrid) rlv key rid) lv k id) key =
                  some ⟨rl.rootId, (AAT.node rrl rrr rrlv rrk rrid).rootId,
                    rlv, key, rid⟩ := by
                rw [nodeAtKey, if_neg (by omega), if_pos (by omega), nodeAtKey,
                  if_neg (by omega), if_neg (by omega)]
              rw [eA, eB]
              rfl
            · rcases lt_trichotomy key rrk with h3 | h3 | h3
              · have eA : nodeAtKey (AAT.node (AAT.node l rl lv k id)
                    (AAT.node rrl rrr rrlv rrk rrid) (rlv + 1) rk rid) key =
                    nodeAtKey rrl key := by
                  rw [nodeAtKey, if_neg (by omega), if_pos h2, nodeAtKey, if_pos h3]
                have eB : nodeAtKey (AAT.node l (AAT.node rl
                    (AAT.node rrl rrr rrlv rrk rrid) rlv rk rid) lv k id) key =
                    nodeAtKey rrl key := by
                  rw [nodeAtKey, if_neg (by omega), if_pos h1, nodeAtKey,
                    if_neg (by omega), if_pos h2, nodeAtKey, if_pos h3]
                rw [eA, eB]
              · subst h3
                have eA : nodeAtKey (AAT.node (AAT.node l rl lv k id)
                    (AAT.node rrl rrr rrlv key rrid) (rlv + 1) rk rid) key =
                    some ⟨rrl.rootId, rrr.rootId, rrlv, key, rrid⟩ := by
                  rw [nodeAtKey, if_neg (by omega), if_pos h2, nodeAtKey,
                    if_neg (by omega), if_neg (by omega)]
                have eB : nodeAtKey (AAT.node l (AAT.node rl
                    (AAT.node rrl rrr rrlv key rrid) rlv rk rid) lv k id) key =
                    some ⟨rrl.rootId, rrr.rootId, rrlv, key, rrid⟩ := by
                  rw [nodeAtKey, if_neg (by omega), if_pos h1, nodeAtKey,
                    if_neg (by omega), if_pos h2, nodeAtKey, if_neg (by omega),
                    if_neg (by omega)]
                rw [eA, eB]
              · have eA : nodeAtKey (AAT.node (AAT.node l rl lv k id)
                    (AAT.node rrl rrr rrlv rrk rrid) (rlv + 1) rk rid) key =
                    nodeAtKey rrr key := by
                  rw [nodeAtKey, if_neg (by omega), if_pos h2, nodeAtKey,
                    if_neg (by omega), if_pos h3]
                have eB : nodeAtKey (AAT.node l (AAT.node rl
                    (AAT.node rrl rrr rrlv rrk rrid) rlv rk rid) lv k id) key =
                    nodeAtKey rrr key := by
                  rw [nodeAtKey, if_neg (by omega), if_pos h1, nodeAtKey,
                    if_neg (by omega), if_pos h2, nodeAtKey, if_neg (by omega),
                    if_pos h3]
                rw [eA, eB]
        · have hsp : aat_split (AAT.node l (AAT.node rl
              (AAT.node rrl rrr rrlv rrk rrid) rlv rk rid) lv k id) =
              AAT.node l (AAT.node rl (AAT.node rrl rrr rrlv rrk rrid) rlv rk rid)
                lv k id := by
            simp only [aat_split]
            rw [if_neg hlv]
          rw [hsp]

/-- After a fresh insert, descent at the inserted key finds a node carrying
the item's key and identity. -/
theorem insert0_kid : ∀ {t : AAT} {item : AatNode},
    List.Pairwise (fun a b => a < b) t.keys →
    nodeAtKey t item.key = none →
    ((nodeAtKey (aat_insert0 t item).1 item.key).map fun n => (n.key, n.id)) =
      some (item.key, item.id) := by
  intro t
  induction t with
  | nil =>
    intro item _ _
    have heq : (aat_insert0 AAT.nil item).1 =
        AAT.node .nil .nil 1 item.key item.id := rfl
    rw [heq, nodeAtKey, if_neg (by omega), if_neg (by omega)]
    rfl
  | node l r lv k0 id ihl ihr =>
    intro item hp hfresh
    obtain ⟨hpl, hpr, hlk, hkr⟩ := @pairwise_node_facts l r lv k0 id hp
    rcases lt_trichotomy item.key k0 with hlt | heq0 | hgt
    · have hc := eq_true (aat_compare_lt_zero.mpr hlt)
      rw [nodeAtKey, if_pos hlt] at hfresh
      have heq : (aat_insert0 (AAT.node l r lv k0 id) item).1 =
          aat_split (aat_skew (AAT.node (aat_insert0 l item).1 r lv k0 id)) := by
        simp only [aat_insert0, hc, if_true]
      have hpk : List.Pairwise (fun a b => a < b)
          (AAT.node (aat_insert0 l item).1 r lv k0 id).keys := by
        rw [AAT.keys_node, keys_insert0 item hpl, List.pairwise_append]
        refine ⟨pairwise_linsert hpl, ?_, ?_⟩
        · rw [AAT.keys_node, List.pairwise_append] at hp
          exact hp.2.1
        · intro a ha b hb
          rcases mem_linsert ha with rfl | ha
          · rcases List.mem_cons.mp hb with rfl | hb
            · exact hlt
            · exact lt_trans hlt (hkr b hb)
          · rcases List.mem_cons.mp hb with rfl | hb
            · exact hlk a ha
            · exact lt_trans (hlk a ha) (hkr b hb)
      have hps : List.Pairwise (fun a b => a < b)
          (aat_skew (AAT.node (aat_insert0 l item).1 r lv k0 id)).keys := by
        rw [keys_skew]
        exact hpk
      have e1 : nodeAtKey (AAT.node (aat_insert0 l item).1 r lv k0 id) item.key =
          nodeAtKey (aat_insert0 l item).1 item.key := by
        rw [nodeAtKey, if_pos hlt]
      rw [heq, kid_split hps item.key, kid_skew hpk item.key, e1]
      exact ihl hpl hfresh
    · rw [nodeAtKey, if_neg (by omega), if_neg (by omega)] at hfresh
      simp at hfresh
    · have hc1 := eq_false (show ¬ aat_compare item.key k0 < 0 by
        rw [aat_compare_lt_zero]; omega)
      have hc2 := eq_true (show aat_compare item.key k0 > 0 from aat_compare_pos.mpr hgt)
      rw [nodeAtKey, if_neg (by omega), if_pos hgt] at hfresh
      have heq : (aat_insert0 (AAT.node l r lv k0 id) item).1 =
          aat_split (aat_skew (AAT.node l (aat_insert0 r item).1 lv k0 id)) := by
        simp only [aat_insert0, hc1, hc2, if_true, if_false]
      have hpk : List.Pairwise (fun a b => a < b)
          (AAT.node l (aat_insert0 r item).1 lv k0 id).keys := by
        rw [AAT.keys_node, keys_insert0 item hpr, List.pairwise_append]
        refine ⟨?_, ?_, ?_⟩
        · rw [AAT.keys_node, List.pairwise_append] at hp
          exact hp.1
        · rw [List.pairwise_cons]
          refine ⟨?_, pairwise_linsert hpr⟩
          intro b hb
          rcases mem_linsert hb with rfl | hb
          · exact hgt
          · exact hkr b hb
        · intro a ha b hb
          rcases List.mem_cons.mp hb with rfl | hb
          · exact hlk a ha
          · rcases mem_linsert hb with rfl | hb
            · exact lt_trans (hlk a ha) hgt
            · exact lt_trans (hlk a ha) (hkr b hb)
      have hps : List.Pairwise (fun a b => a < b)
          (aat_skew (AAT.node l (aat_insert0 r item).1 lv k0 id)).keys := by
        rw [keys_skew]
        exact hpk
      have e1 : nodeAtKey (AAT.node l (aat_insert0 r item).1 lv k0 id) item.key =
          nodeAtKey (aat_insert0 r item).1 item.key := by
        rw [nodeAtKey, if_neg (by omega), if_pos hgt]
      rw [heq, kid_split hps item.key, kid_skew hpk item.key, e1]
      exact ihr hpr hfresh

/-- C9, counterexample to "leaves the tree in the pre-insert state": on this
valid four-node tree, inserting key −5 and then deleting it returns a tree
with a different shape than the original (the keys are the same but the
rebalancing on the way out does not undo the rebalancing on the way in). -/
theorem C9_counterexample :
    aat_valid (AAT.node (AAT.node .nil (AAT.node .nil .nil 1 10 10) 1 0 0)
      (AAT.node .nil .nil 1 30 30) 2 20 20) = true ∧
    nodeAtKey (AAT.node (AAT.node .nil (AAT.node .nil .nil 1 10 10) 1 0 0)
      (AAT.node .nil .nil 1 30 30) 2 20 20) (-5) = none ∧
    ¬ ((aat_delete (aat_insert (AAT.node (AAT.node .nil (AAT.node .nil .nil 1 10 10) 1 0 0)
        (AAT.node .nil .nil 1 30 30) 2 20 20) ⟨none, none, 0, -5, 777⟩).1 (-5)).1 =
      AAT.node (AAT.node .nil (AAT.node .nil .nil 1 10 10) 1 0 0)
        (AAT.node .nil .nil 1 30 30) 2 20 20) := by
  refine ⟨by decide, by decide, by decide⟩

/-- C9, amended: inserting a detached node with a fresh key and then deleting
by that key returns that very node (same key and identity, container fields
zeroed; the insert itself replaced nothing), and the resulting tree is again
a valid AA tree with exactly the pre-insert key sequence — though not, in
general, the identical pre-insert tree. -/
theorem C9_insert_delete_amended (t : AAT) (item : AatNode)
    (hv : aat_valid t = true) (hfresh : nodeAtKey t item.key = none) :
    (aat_insert t item).2 = none ∧
    (aat_delete (aat_insert t item).1 item.key).2 =
      some ⟨none, none, 0, item.key, item.id⟩ ∧
    (aat_delete (aat_insert t item).1 item.key).1.keys = t.keys ∧
    aat_valid (aat_delete (aat_insert t item).1 item.key).1 = true := by
  have hs := aat_valid_structB hv
  have hp := increasing_iff_pairwise.mp (aat_valid_increasing hv)
  have hfst := insert_fst t item
  have hpk : List.Pairwise (fun a b => a < b) (aat_insert0 t item).1.keys := by
    rw [keys_insert0 item hp]
    exact pairwise_linsert hp
  have hnotmem : item.key ∉ t.keys := (nodeAtKey_none_iff hp).mp hfresh
  have hkid := delete0_deleted (aat_insert0 t item).1 item.key
  rw [insert0_kid hp hfresh] at hkid
  refine ⟨?_, ?_, ?_, ?_⟩
  · unfold aat_insert
    simp only [insert0_snd, hfresh]
  · show ((aat_delete0 (aat_insert t item).1 item.key).2.map aat_clear) = _
    rw [hfst]
    cases hq : (aat_delete0 (aat_insert0 t item).1 item.key).2 with
    | none => rw [hq] at hkid; simp at hkid
    | some n =>
      rw [hq] at hkid
      simp only [Option.map_some', Option.some.injEq, Prod.mk.injEq] at hkid
      simp only [Option.map_some', Option.some.injEq]
      unfold aat_clear
      rw [hkid.1, hkid.2]
  · show (aat_delete0 (aat_insert t item).1 item.key).1.keys = _
    rw [hfst, keys_delete0 item.key hpk, keys_insert0 item hp,
      filter_linsert_fresh hnotmem]
  · show aat_valid (aat_delete0 (aat_insert t item).1 item.key).1 = true
    rw [hfst]
    unfold aat_valid
    rw [Bool.and_eq_true]
    refine ⟨(delete0_ok item.key (insert0_ok item hs).1).1, ?_⟩
    rw [increasing_iff_pairwise, keys_delete0 item.key hpk, keys_insert0 item hp,
      filter_linsert_fresh hnotmem]
    exact hp

/-- Witness for the amended C9 on the counterexample tree itself. -/
theorem C9_insert_delete_amended_witness :
    aat_valid (AAT.node (AAT.node .nil (AAT.node .nil .nil 1 10 10) 1 0 0)
      (AAT.node .nil .nil 1 30 30) 2 20 20) = true ∧
    nodeAtKey (AAT.node (AAT.node .nil (AAT.node .nil .nil 1 10 10) 1 0 0)
      (AAT.node .nil .nil 1 30 30) 2 20 20) (AatNode.key ⟨none, none, 0, -5, 777⟩)
      = none ∧
    ((aat_insert (AAT.node (AAT.node .nil (AAT.node .nil .nil 1 10 10) 1 0 0)
        (AAT.node .nil .nil 1 30 30) 2 20 20) ⟨none, none, 0, -5, 777⟩).2 = none ∧
     (aat_delete (aat_insert (AAT.node (AAT.node .nil (AAT.node .nil .nil 1 10 10) 1 0 0)
        (AAT.node .nil .nil 1 30 30) 2 20 20) ⟨none, none, 0, -5, 777⟩).1
        (AatNode.key ⟨none, none, 0, -5, 777⟩)).2 =
      some ⟨none, none, 0, AatNode.key ⟨none, none, 0, -5, 777⟩,
        AatNode.id ⟨none, none, 0, -5, 777⟩⟩ ∧
     (aat_delete (aat_insert (AAT.node (AAT.node .nil (AAT.node .nil .nil 1 10 10) 1 0 0)
        (AAT.node .nil .nil 1 30 30) 2 20 20) ⟨none, none, 0, -5, 777⟩).1
        (AatNode.key ⟨none, none, 0, -5, 777⟩)).1.keys =
      (AAT.node (AAT.node .nil (AAT.node .nil .nil 1 10 10) 1 0 0)
        (AAT.node .nil .nil 1 30 30) 2 20 20).keys ∧
     aat_valid (aat_delete (aat_insert
        (AAT.node (AAT.node .nil (AAT.node .nil .nil 1 10 10) 1 0 0)
          (AAT.node .nil .nil 1 30 30) 2 20 20) ⟨none, none, 0, -5, 777⟩).1
        (AatNode.key ⟨none, none, 0, -5, 777⟩)).1 = true) :=
  ⟨by decide, by decide,
   C9_insert_delete_amended
     (AAT.node (AAT.node .nil (AAT.node .nil .nil 1 10 10) 1 0 0)
       (AAT.node .nil .nil 1 30 30) 2 20 20)
     ⟨none, none, 0, -5, 777⟩ (by decide) (by decide)⟩

/-- Search descends left below the root key. -/
theorem search_lt {l r : AAT} {lv : Nat} {k0 key : Int} {id : Nat} (h : key < k0) :
    aat_search (AAT.node l r lv k0 id) key = aat_search l key := by
  simp only [aat_search, eq_true (aat_compare_lt_zero.mpr h), if_true]

/-- Search descends right above the root key. -/
theorem search_gt {l r : AAT} {lv : Nat} {k0 key : Int} {id : Nat} (h : k0 < key) :
    aat_search (AAT.node l r lv k0 id) key = aat_search r key := by
  have hc1 := eq_false (show ¬ aat_compare key k0 < 0 by rw [aat_compare_lt_zero]; omega)
  have hc2 := eq_true (show aat_compare key k0 > 0 from aat_compare_pos.mpr h)
  simp only [aat_search, hc1, hc2, if_true, if_false]

/-- Search stops at the root key. -/
theorem search_root {l r : AAT} {lv : Nat} {k0 : Int} {id : Nat} :
    aat_search (AAT.node l r lv k0 id) k0 = AAT.node l r lv k0 id := by
  have hc1 := eq_false (show ¬ aat_compare k0 k0 < 0 by rw [aat_compare_lt_zero]; omega)
  have hc2 := eq_false (show ¬ aat_compare k0 k0 > 0 by
    rw [gt_iff_lt, aat_compare_pos]; omega)
  simp only [aat_search, hc1, hc2, if_false]

/-- Search at the root key of a node returns the node itself. -/
theorem search_of_rootKey {t : AAT} {c : Int} (h : t.rootKey = some c) :
    aat_search t c = t := by
  cases t with
  | nil => simp at h
  | node l r lv k0 id =>
    simp only [AAT.rootKey_node, Option.some.injEq] at h
    subst h
    exact search_root

/-- The parent-descent accumulator is returned untouched exactly on an
immediate root match. -/
theorem parent0_of_rootKey {t : AAT} {c : Int} (acc : AAT) (h : t.rootKey = some c) :
    aat_parent0 t c acc = acc := by
  cases t with
  | nil => simp at h
  | node l r lv k0 id =>
    simp only [AAT.rootKey_node, Option.some.injEq] at h
    subst h
    have hc1 := eq_false (show ¬ aat_compare k0 k0 < 0 by rw [aat_compare_lt_zero]; omega)
    have hc2 := eq_false (show ¬ aat_compare k0 k0 > 0 by
      rw [gt_iff_lt, aat_compare_pos]; omega)
    simp only [aat_parent0, hc1, hc2, if_false]

/-- The parent descent does not depend on its accumulator once it has passed
a node that is not an immediate match. -/
theorem parent0_acc_irrel {t : AAT} {c : Int} (acc1 acc2 : AAT)
    (hn : t ≠ .nil) (hr : t.rootKey ≠ some c) :
    aat_parent0 t c acc1 = aat_parent0 t c acc2 := by
  cases t with
  | nil => exact absurd rfl hn
  | node l r lv k0 id =>
    have hk : c ≠ k0 := by
      intro h
      subst h
      exact hr rfl
    rcases lt_trichotomy c k0 with h1 | h1 | h1
    · have hc := eq_true (aat_compare_lt_zero.mpr h1)
      simp only [aat_parent0, hc, if_true]
    · exact absurd h1 hk
    · have hc1 := eq_false (show ¬ aat_compare c k0 < 0 by rw [aat_compare_lt_zero]; omega)
      have hc2 := eq_true (show aat_compare c k0 > 0 from aat_compare_pos.mpr h1)
      simp only [aat_parent0, hc1, hc2, if_true, if_false]

/-- The subtree found by search occupies a contiguous block of the in-order
key list. -/
theorem search_block : ∀ {t : AAT},
    List.Pairwise (fun a b => a < b) t.keys → ∀ {c : Int}, c ∈ t.keys →
    ∃ pre suf, t.keys = pre ++ (aat_search t c).keys ++ suf := by
  intro t
  induction t with
  | nil =>
    intro _ c hc
    simp at hc
  | node l r lv k0 id ihl ihr =>
    intro hp c hc
    obtain ⟨hpl, hpr, hlk, hkr⟩ := @pairwise_node_facts l r lv k0 id hp
    rcases lt_trichotomy c k0 with h1 | h1 | h1
    · have hcl : c ∈ l.keys := by
        rw [AAT.keys_node] at hc
        rcases List.mem_append.mp hc with h | h
        · exact h
        · rcases List.mem_cons.mp h with h | h
          · omega
          · have := hkr c h
            omega
      obtain ⟨pre, suf, hdec⟩ := ihl hpl hcl
      refine ⟨pre, suf ++ k0 :: r.keys, ?_⟩
      rw [search_lt h1, AAT.keys_node, hdec]
      simp
    · subst h1
      refine ⟨[], [], ?_⟩
      rw [search_root]
      simp
    · have hcr : c ∈ r.keys := by
        rw [AAT.keys_node] at hc
        rcases List.mem_append.mp hc with h | h
        · have := hlk c h
          omega
        · rcases List.mem_cons.mp h with h | h
          · omega
          · exact h
      obtain ⟨pre, suf, hdec⟩ := ihr hpr hcr
      refine ⟨l.keys ++ k0 :: pre, suf, ?_⟩
      rw [search_gt h1, AAT.keys_node, hdec]
      simp

/-- A contiguous block of a sorted list is sorted. -/
theorem pairwise_middle {pre mid suf : List Int}
    (h : List.Pairwise (fun a b => a < b) (pre ++ mid ++ suf)) :
    List.Pairwise (fun a b => a < b) mid := by
  rw [List.pairwise_append] at h
  have := (List.pairwise_append.mp h.1).2.1
  exact this

/-- Searching for a key of the found subtree descends into that subtree. -/
theorem search_congr : ∀ {t : AAT},
    List.Pairwise (fun a b => a < b) t.keys → ∀ {c : Int}, c ∈ t.keys →
    ∀ {b : Int}, b ∈ (aat_search t c).keys →
    aat_search t b = aat_search (aat_search t c) b := by
  intro t
  induction t with
  | nil =>
    intro _ c hc
    simp at hc
  | node l r lv k0 id ihl ihr =>
    intro hp c hc b hb
    obtain ⟨hpl, hpr, hlk, hkr⟩ := @pairwise_node_facts l r lv k0 id hp
    rcases lt_trichotomy c k0 with h1 | h1 | h1
    · have hcl : c ∈ l.keys := by
        rw [AAT.keys_node] at hc
        rcases List.mem_append.mp hc with h | h
        · exact h
        · rcases List.mem_cons.mp h with h | h
          · omega
          · have := hkr c h
            omega
      rw [search_lt h1] at hb ⊢
      have hbl : b ∈ l.keys := by
        obtain ⟨pre, suf, hdec⟩ := search_block hpl hcl
        rw [hdec]
        simp only [List.mem_append]
        exact Or.inl (Or.inr hb)
      have hblt : b < k0 := hlk b hbl
      rw [search_lt hblt]
      exact ihl hpl hcl hb
    · subst h1
      rw [search_root]
    · have hcr : c ∈ r.keys := by
        rw [AAT.keys_node] at hc
        rcases List.mem_append.mp hc with h | h
        · have := hlk c h
          omega
        · rcases List.mem_cons.mp h with h | h
          · omega
          · exact h
      rw [search_gt h1] at hb ⊢
      have hbr : b ∈ r.keys := by
        obtain ⟨pre, suf, hdec⟩ := search_block hpr hcr
        rw [hdec]
        simp only [List.mem_append]
        exact Or.inl (Or.inr hb)
      have hbgt : k0 < b := hkr b hbr
      rw [search_gt hbgt]
      exact ihr hpr hcr hb

/-- `aat_first` walks to the node holding the minimum key. -/
theorem first_eq_search_min : ∀ {t : AAT},
    List.Pairwise (fun a b => a < b) t.keys → ∀ {hd : Int},
    t.keys.head? = some hd → aat_first t = aat_search t hd := by
  intro t
  induction t with
  | nil =>
    intro _ hd h
    simp at h
  | node l r lv k0 id ihl ihr =>
    intro hp hd h
    obtain ⟨hpl, hpr, hlk, hkr⟩ := @pairwise_node_facts l r lv k0 id hp
    cases l with
    | nil =>
      rw [AAT.keys_node, AAT.keys_nil, List.nil_append, List.head?_cons,
        Option.some.injEq] at h
      subst h
      rw [search_root]
      rfl
    | node a b c d e =>
      have hne : (AAT.node a b c d e).keys ≠ [] := keys_ne_nil (by simp)
      rw [AAT.keys_node, head?_append_ne hne] at h
      have hmem : hd ∈ (AAT.node a b c d e).keys :=
        List.mem_of_mem_head? (Option.mem_def.mpr h)
      have hlt : hd < k0 := hlk hd hmem
      rw [search_lt hlt]
      have hfst : aat_first (AAT.node (AAT.node a b c d e) r lv k0 id) =
          aat_first (AAT.node a b c d e) := rfl
      rw [hfst]
      exact ihl hpl h

/-- The number of nodes is the length of the in-order key list. -/
theorem size_eq_length_keys : ∀ (t : AAT), t.size = t.keys.length := by
  intro t
  induction t with
  | nil => rfl
  | node l r lv k id ihl ihr =>
    rw [AAT.size_node, AAT.keys_node, List.length_append, List.length_cons, ihl, ihr]
    omega

/-- `aat_parent` of a non-root member key finds an in-tree node of which the
searched node is a child. -/
theorem parent_spec : ∀ {t : AAT},
    List.Pairwise (fun a b => a < b) t.keys → ∀ {c : Int}, c ∈ t.keys →
    t.rootKey ≠ some c →
    ∃ p, p ∈ t.keys ∧ aat_parent t c = aat_search t p ∧
      ((aat_search t p).left = aat_search t c ∨
       (aat_search t p).right = aat_search t c) := by
  intro t
  induction t with
  | nil =>
    intro _ c hc
    simp at hc
  | node l r lv k0 id ihl ihr =>
    intro hp c hc hroot
    obtain ⟨hpl, hpr, hlk, hkr⟩ := @pairwise_node_facts l r lv k0 id hp
    have hck : c ≠ k0 := by
      intro h
      subst h
      exact hroot rfl
    rcases lt_trichotomy c k0 with h1 | h1 | h1
    · have hcl : c ∈ l.keys := by
        rw [AAT.keys_node] at hc
        rcases List.mem_append.mp hc with h | h
        · exact h
        · rcases List.mem_cons.mp h with h | h
          · omega
          · have := hkr c h
            omega
      have hln : l ≠ .nil := by
        intro h
        rw [h] at hcl
        simp at hcl
      have heq : aat_parent (AAT.node l r lv k0 id) c =
          aat_parent0 l c (AAT.node l r lv k0 id) := by
        show aat_parent0 (AAT.node l r lv k0 id) c .nil = _
        simp only [aat_parent0, eq_true (aat_compare_lt_zero.mpr h1), if_true]
      by_cases hlr : l.rootKey = some c
      · refine ⟨k0, by simp, ?_, ?_⟩
        · rw [heq, parent0_of_rootKey _ hlr, search_root]
        · left
          rw [search_root, search_lt h1, search_of_rootKey hlr]
          rfl
      · obtain ⟨p, hpmem, hpar, hchild⟩ := ihl hpl hcl hlr
        have hplt : p < k0 := hlk p hpmem
        refine ⟨p, ?_, ?_, ?_⟩
        · rw [AAT.keys_node]
          simp only [List.mem_append]
          exact Or.inl hpmem
        · rw [heq, parent0_acc_irrel (AAT.node l r lv k0 id) AAT.nil hln hlr,
            search_lt hplt]
          exact hpar
        · rw [search_lt hplt, search_lt h1]
          exact hchild
    · exact absurd h1 hck
    · have hcr : c ∈ r.keys := by
        rw [AAT.keys_node] at hc
        rcases List.mem_append.mp hc with h | h
        · have := hlk c h
          omega
        · rcases List.mem_cons.mp h with h | h
          · omega
          · exact h
      have hrn : r ≠ .nil := by
        intro h
        rw [h] at hcr
        simp at hcr
      have hc1 := eq_false (show ¬ aat_compare c k0 < 0 by rw [aat_compare_lt_zero]; omega)
      have hc2 := eq_true (show aat_compare c k0 > 0 from aat_compare_pos.mpr h1)
      have heq : aat_parent (AAT.node l r lv k0 id) c =
          aat_parent0 r c (AAT.node l r lv k0 id) := by
        show aat_parent0 (AAT.node l r lv k0 id) c .nil = _
        simp only [aat_parent0, hc1, hc2, if_true, if_false]
      by_cases hrr : r.rootKey = some c
      · refine ⟨k0, by simp, ?_, ?_⟩
        · rw [heq, parent0_of_rootKey _ hrr, search_root]
        · right
          rw [search_root, search_gt h1, search_of_rootKey hrr]
          rfl
      · obtain ⟨p, hpmem, hpar, hchild⟩ := ihr hpr hcr hrr
        have hpgt : k0 < p := hkr p hpmem
        refine ⟨p, ?_, ?_, ?_⟩
        · rw [AAT.keys_node]
          simp only [List.mem_append, List.mem_cons]
          exact Or.inr (Or.inr hpmem)
        · rw [heq, parent0_acc_irrel (AAT.node l r lv k0 id) AAT.nil hrn hrr,
            search_gt hpgt]
          exact hpar
        · rw [search_gt hpgt, search_gt h1]
          exact hchild

/-- A tree whose root key is known is a node with that key. -/
theorem exists_node_of_rootKey {t : AAT} {c : Int} (h : t.rootKey = some c) :
    ∃ l r lv id, t = AAT.node l r lv c id := by
  cases t with
  | nil => simp at h
  | node l r lv k id =>
    simp only [AAT.rootKey_node, Option.some.injEq] at h
    subst h
    exact ⟨l, r, lv, id, rfl⟩

/-- Nothing in a sorted list lies strictly above its last element. -/
theorem filter_gt_getLast? {m : Int} {xs : List Int}
    (hp : List.Pairwise (fun a b => a < b) xs) (h : xs.getLast? = some m) :
    xs.filter (fun a => decide (m < a)) = [] := by
  have hdec : xs.dropLast ++ m :: ([] : List Int) = xs ++ [] :=
    dropLast_getLast?_append h
  rw [List.append_nil] at hdec
  rw [← hdec] at hp ⊢
  exact filter_gt_sorted _ _ hp

/-- The climbing loop of `aat_next`, started at the node found at `c` whose
subtree maximum is `m`, ends at the node holding the least key above `m`
(nil when there is none), provided the fuel covers the remaining height. -/
theorem climb_spec (t : AAT) (hp : List.Pairwise (fun a b => a < b) t.keys) (m : Int) :
    ∀ (fuel : Nat) (c : Int), c ∈ t.keys →
    (aat_search t c).keys.getLast? = some m →
    t.keys.length ≤ fuel + (aat_search t c).keys.length →
    aat_next_climb t fuel (aat_search t c) (aat_parent t c) =
      (match (t.keys.filter fun a => decide (m < a)).head? with
       | none => AAT.nil
       | some k2 => aat_search t k2) := by
  intro fuel
  induction fuel with
  | zero =>
    intro c hc hlast hlen
    by_cases hroot : t.rootKey = some c
    · have hcur : aat_search t c = t := search_of_rootKey hroot
      have hparnil : aat_parent t c = AAT.nil := parent0_of_rootKey AAT.nil hroot
      rw [hcur] at hlast
      rw [hcur, hparnil, filter_gt_getLast? hp hlast]
      rfl
    · exfalso
      obtain ⟨p, hpmem, hpar, hchild⟩ := parent_spec hp hc hroot
      obtain ⟨pl, pr, plv, pid, hP⟩ := exists_node_of_rootKey (search_rootKey hp hpmem)
      obtain ⟨pre, suf, hblock⟩ := search_block hp hpmem
      have hlenP : (aat_search t c).keys.length + 1 ≤ (aat_search t p).keys.length := by
        rcases hchild with h | h
        · rw [hP] at h
          simp only [AAT.left_node] at h
          rw [hP, AAT.keys_node, ← h]
          simp only [List.length_append, List.length_cons]
          omega
        · rw [hP] at h
          simp only [AAT.right_node] at h
          rw [hP, AAT.keys_node, ← h]
          simp only [List.length_append, List.length_cons]
          omega
      have hlenT : (aat_search t p).keys.length ≤ t.keys.length := by
        rw [hblock]
        simp only [List.length_append]
        omega
      omega
  | succ fuel ih =>
    intro c hc hlast hlen
    by_cases hroot : t.rootKey = some c
    · have hcur : aat_search t c = t := search_of_rootKey hroot
      have hparnil : aat_parent t c = AAT.nil := parent0_of_rootKey AAT.nil hroot
      rw [hcur] at hlast
      rw [hcur, hparnil, filter_gt_getLast? hp hlast]
      simp [aat_next_climb]
    · obtain ⟨p, hpmem, hpar, hchild⟩ := parent_spec hp hc hroot
      obtain ⟨pl, pr, plv, pid, hP⟩ := exists_node_of_rootKey (search_rootKey hp hpmem)
      obtain ⟨xl, xr, xlv, xid, hX⟩ := exists_node_of_rootKey (search_rootKey hp hc)
      obtain ⟨pre, suf, hblock⟩ := search_block hp hpmem
      rw [hpar]
      simp only [aat_next_climb]
      rw [if_neg (by rw [hP]; simp)]
      by_cases hleft : (aat_search t p).left = aat_search t c
      · rw [if_pos hleft]
        have hpl_cur : pl = aat_search t c := by
          rw [hP] at hleft
          simpa using hleft
        have hPkeys : (aat_search t p).keys =
            (aat_search t c).keys ++ p :: pr.keys := by
          rw [hP, AAT.keys_node, hpl_cur]
        have hsplit : (aat_search t c).keys.dropLast ++ m :: (p :: pr.keys) =
            (aat_search t c).keys ++ p :: pr.keys :=
          dropLast_getLast?_append hlast
        have hdec2 : t.keys =
            (pre ++ (aat_search t c).keys.dropLast) ++ m :: (p :: (pr.keys ++ suf)) := by
          rw [hblock, hPkeys, ← hsplit]
          simp [List.append_assoc]
        have hfilter : t.keys.filter (fun a => decide (m < a)) =
            p :: (pr.keys ++ suf) := by
          rw [hdec2]
          refine filter_gt_sorted _ _ ?_
          rw [← hdec2]
          exact hp
        rw [hfilter]
        rfl
      · rw [if_neg hleft]
        have hpr_cur : pr = aat_search t c := by
          rcases hchild with h | h
          · exact absurd h hleft
          · rw [hP] at h
            simpa using h
        have hcur_ne : (aat_search t c).keys ≠ [] := by
          rw [hX]
          exact keys_ne_nil (by simp)
        have hlast2 : (aat_search t p).keys.getLast? = some m := by
          rw [hP, AAT.keys_node, hpr_cur, getLast?_append_ne (by simp),
            List.getLast?_cons, hlast]
          rfl
        have hlen2 : t.keys.length ≤ fuel + (aat_search t p).keys.length := by
          have : (aat_search t p).keys.length =
              pl.keys.length + 1 + (aat_search t c).keys.length := by
            rw [hP, AAT.keys_node, hpr_cur]
            simp only [List.length_append, List.length_cons]
            omega
          omega
        have hkeyD : (aat_search t p).keyD = p := by
          rw [hP]
          rfl
        rw [hkeyD]
        exact ih p hpmem hlast2 hlen2

/-- `aat_next` moves from the node holding `k` to the in-tree node holding
the least key above `k`, or to nil when `k` is the maximum. -/
theorem next_spec (t : AAT) (hp : List.Pairwise (fun a b => a < b) t.keys)
    {k : Int} (hk : k ∈ t.keys) :
    aat_next t (aat_search t k) =
      (match (t.keys.filter fun a => decide (k < a)).head? with
       | none => AAT.nil
       | some k2 => aat_search t k2) := by
  obtain ⟨xl, xr, xlv, xid, hX⟩ := exists_node_of_rootKey (search_rootKey hp hk)
  obtain ⟨pre, suf, hblock⟩ := search_block hp hk
  by_cases hxr : xr = .nil
  · subst hxr
    have hnext : aat_next t (aat_search t k) =
        aat_next_climb t t.size (aat_search t k) (aat_parent t k) := by
      rw [hX]
      simp only [aat_next, AAT.isNil_nil, Bool.not_true, Bool.false_eq_true, if_false]
    have hlast : (aat_search t k).keys.getLast? = some k := by
      rw [hX, AAT.keys_node, AAT.keys_nil, getLast?_append_ne (by simp)]
      rfl
    have hbud : t.keys.length ≤ t.size + (aat_search t k).keys.length := by
      rw [size_eq_length_keys]
      omega
    rw [hnext]
    exact climb_spec t hp k t.size k hk hlast hbud
  · have hxr1 : xr.isNil = false := by simpa using hxr
    have hnext : aat_next t (aat_search t k) = aat_first xr := by
      rw [hX]
      simp only [aat_next, hxr1, Bool.not_false, if_true]
    have hXkeys : (aat_search t k).keys = xl.keys ++ k :: xr.keys := by
      rw [hX]
      rfl
    have hdec2 : t.keys = (pre ++ xl.keys) ++ k :: (xr.keys ++ suf) := by
      rw [hblock, hXkeys]
      simp [List.append_assoc]
    have hfilter : t.keys.filter (fun a => decide (k < a)) = xr.keys ++ suf := by
      rw [hdec2]
      refine filter_gt_sorted _ _ ?_
      rw [← hdec2]
      exact hp
    have hxrne : xr.keys ≠ [] := keys_ne_nil hxr
    cases hhd : xr.keys.head? with
    | none => exact absurd (List.head?_eq_none_iff.mp hhd) hxrne
    | some b =>
      have hbmem_xr : b ∈ xr.keys := List.mem_of_mem_head? (Option.mem_def.mpr hhd)
      have hbmem_cur : b ∈ (aat_search t k).keys := by
        rw [hXkeys]
        simp [hbmem_xr]
      have hpcur : List.Pairwise (fun a b => a < b) (aat_search t k).keys :=
        @pairwise_middle pre (aat_search t k).keys suf (by rw [← hblock]; exact hp)
      have hpcur2 := hpcur
      rw [hXkeys, List.pairwise_append] at hpcur2
      have hkb : k < b := List.rel_of_pairwise_cons hpcur2.2.1 hbmem_xr
      have hpxr : List.Pairwise (fun a b => a < b) xr.keys :=
        (List.pairwise_cons.mp hpcur2.2.1).2
      have hsc : aat_search t b = aat_search (aat_search t k) b :=
        search_congr hp hk hbmem_cur
      have hs2 : aat_search (aat_search t k) b = aat_search xr b := by
        rw [hX]
        exact search_gt hkb
      have hfst : aat_first xr = aat_search xr b := first_eq_search_min hpxr hhd
      rw [hnext, hfilter, head?_append_ne hxrne, hhd]
      show aat_first xr = aat_search t b
      rw [hfst, hsc, hs2]

/-- Mirroring is an involution. -/
theorem mirror_mirror : ∀ (t : AAT), mirror (mirror t) = t := by
  intro t
  induction t with
  | nil => rfl
  | node l r lv k id ihl ihr => simp [mirror, ihl, ihr]

/-- Mirroring keeps the number of nodes. -/
theorem size_mirror : ∀ (t : AAT), (mirror t).size = t.size := by
  intro t
  induction t with
  | nil => rfl
  | node l r lv k id ihl ihr =>
    simp only [mirror, AAT.size_node, ihl, ihr]
    omega

/-- The in-order keys of the mirror are the reversed negated keys. -/
theorem keys_mirror : ∀ (t : AAT), (mirror t).keys = (t.keys.map fun a => -a).reverse := by
  intro t
  induction t with
  | nil => rfl
  | node l r lv k id ihl ihr =>
    simp [mirror, ihl, ihr, List.reverse_append]

/-- Mirroring keeps nil-ness. -/
theorem mirror_eq_nil_iff {t : AAT} : mirror t = .nil ↔ t = .nil := by
  cases t <;> simp [mirror]

/-- Mirroring is injective. -/
theorem mirror_inj {a b : AAT} (h : mirror a = mirror b) : a = b := by
  have h2 := congrArg mirror h
  rwa [mirror_mirror, mirror_mirror] at h2

/-- Search commutes with mirroring (keys negated). -/
theorem search_mirror : ∀ (t : AAT) (key : Int),
    aat_search (mirror t) (-key) = mirror (aat_search t key) := by
  intro t
  induction t with
  | nil => intro key; rfl
  | node l r lv k id ihl ihr =>
    intro key
    show aat_search (AAT.node (mirror r) (mirror l) lv (-k) id) (-key) = _
    rcases lt_trichotomy key k with h1 | h1 | h1
    · rw [search_gt (by omega : (-k : Int) < -key), search_lt h1]
      exact ihl key
    · subst h1
      rw [search_root, search_root]
      rfl
    · rw [search_lt (by omega : (-key : Int) < -k), search_gt h1]
      exact ihr key

/-- The parent descent commutes with mirroring. -/
theorem parent0_mirror : ∀ (t : AAT) (key : Int) (acc : AAT),
    aat_parent0 (mirror t) (-key) (mirror acc) = mirror (aat_parent0 t key acc) := by
  intro t
  induction t with
  | nil => intro key acc; rfl
  | node l r lv k id ihl ihr =>
    intro key acc
    show aat_parent0 (AAT.node (mirror r) (mirror l) lv (-k) id) (-key) (mirror acc) = _
    rcases lt_trichotomy key k with h1 | h1 | h1
    · have hA : aat_parent0 (AAT.node (mirror r) (mirror l) lv (-k) id) (-key)
          (mirror acc) = aat_parent0 (mirror l) (-key)
            (AAT.node (mirror r) (mirror l) lv (-k) id) := by
        have hc1 := eq_false (show ¬ aat_compare (-key) (-k) < 0 by
          rw [aat_compare_lt_zero]; omega)
        have hc2 := eq_true (show aat_compare (-key) (-k) > 0 from
          aat_compare_pos.mpr (by omega))
        simp only [aat_parent0, hc1, hc2, if_true, if_false]
      have hB : aat_parent0 (AAT.node l r lv k id) key acc =
          aat_parent0 l key (AAT.node l r lv k id) := by
        simp only [aat_parent0, eq_true (aat_compare_lt_zero.mpr h1), if_true]
      rw [hA, hB]
      exact ihl key (AAT.node l r lv k id)
    · subst h1
      have hc1 := eq_false (show ¬ aat_compare (-key) (-key) < 0 by
        rw [aat_compare_lt_zero]; omega)
      have hc2 := eq_false (show ¬ aat_compare (-key) (-key) > 0 by
        rw [gt_iff_lt, aat_compare_pos]; omega)
      have hd1 := eq_false (show ¬ aat_compare key key < 0 by
        rw [aat_compare_lt_zero]; omega)
      have hd2 := eq_false (show ¬ aat_compare key key > 0 by
        rw [gt_iff_lt, aat_compare_pos]; omega)
      have hA : aat_parent0 (AAT.node (mirror r) (mirror l) lv (-key) id) (-key)
          (mirror acc) = mirror acc := by
        simp only [aat_parent0, hc1, hc2, if_false]
      have hB : aat_parent0 (AAT.node l r lv key id) key acc = acc := by
        simp only [aat_parent0, hd1, hd2, if_false]
      rw [hA, hB]
    · have hA : aat_parent0 (AAT.node (mirror r) (mirror l) lv (-k) id) (-key)
          (mirror acc) = aat_parent0 (mirror r) (-key)
            (AAT.node (mirror r) (mirror l) lv (-k) id) := by
        simp only [aat_parent0,
          eq_true (aat_compare_lt_zero.mpr (by omega : (-key : Int) < -k)), if_true]
      have hB : aat_parent0 (AAT.node l r lv k id) key acc =
          aat_parent0 r key (AAT.node l r lv k id) := by
        have hd1 := eq_false (show ¬ aat_compare key k < 0 by
          rw [aat_compare_lt_zero]; omega)
        have hd2 := eq_true (show aat_compare key k > 0 from aat_compare_pos.mpr h1)
        simp only [aat_parent0, hd1, hd2, if_true, if_false]
      rw [hA, hB]
      exact ihr key (AAT.node l r lv k id)

/-- The leftmost node of the mirror is the mirror of the rightmost node. -/
theorem first_mirror : ∀ (t : AAT), aat_first (mirror t) = mirror (aat_last t) := by
  intro t
  induction t with
  | nil => rfl
  | node l r lv k id ihl ihr =>
    cases r with
    | nil => rfl
    | node a b c d e =>
      have hA : aat_first (AAT.node (AAT.node (mirror b) (mirror a) c (-d) e)
          (mirror l) lv (-k) id) =
          aat_first (AAT.node (mirror b) (mirror a) c (-d) e) := rfl
      have hB : aat_last (AAT.node l (AAT.node a b c d e) lv k id) =
          aat_last (AAT.node a b c d e) := rfl
      show aat_first (AAT.node (AAT.node (mirror b) (mirror a) c (-d) e)
          (mirror l) lv (-k) id) = mirror (aat_last (AAT.node l (AAT.node a b c d e) lv k id))
      rw [hA, hB]
      exact ihr

/-- The predecessor climb is the mirror of the successor climb. -/
theorem climb_mirror : ∀ (t : AAT) (fuel : Nat) (x parent : AAT),
    aat_next_climb (mirror t) fuel (mirror x) (mirror parent) =
      mirror (aat_prev_climb t fuel x parent) := by
  intro t fuel
  induction fuel with
  | zero => intro x parent; rfl
  | succ fuel ih =>
    intro x parent
    by_cases hnil : parent = .nil
    · subst hnil
      simp [aat_next_climb, aat_prev_climb, mirror]
    · cases parent with
      | nil => exact absurd rfl hnil
      | node pl pr plv pk pid =>
        have hmn : mirror (AAT.node pl pr plv pk pid) ≠ .nil := by
          rw [Ne, mirror_eq_nil_iff]
          exact hnil
        have hA : aat_next_climb (mirror t) (fuel + 1) (mirror x)
            (mirror (AAT.node pl pr plv pk pid)) =
            if mirror pr = mirror x then mirror (AAT.node pl pr plv pk pid)
            else aat_next_climb (mirror t) fuel (mirror (AAT.node pl pr plv pk pid))
              (aat_parent (mirror t) (-pk)) := by
          have hleft : (mirror (AAT.node pl pr plv pk pid)).left = mirror pr := rfl
          have hkd : (mirror (AAT.node pl pr plv pk pid)).keyD = -pk := rfl
          simp only [aat_next_climb, if_neg hmn, hleft, hkd]
        have hB : aat_prev_climb t (fuel + 1) x (AAT.node pl pr plv pk pid) =
            if pr = x then AAT.node pl pr plv pk pid
            else aat_prev_climb t fuel (AAT.node pl pr plv pk pid) (aat_parent t pk) := by
          simp only [aat_prev_climb, if_neg hnil, AAT.right_node, AAT.keyD_node]
        rw [hA, hB]
        by_cases hr : pr = x
        · rw [if_pos (by rw [hr]), if_pos hr]
        · rw [if_neg (fun h => hr (mirror_inj h)), if_neg hr]
          have hpar : aat_parent (mirror t) (-pk) = mirror (aat_parent t pk) :=
            parent0_mirror t pk .nil
          rw [hpar]
          exact ih (AAT.node pl pr plv pk pid) (aat_parent t pk)

/-- `aat_prev` is the mirror of `aat_next` on the mirrored tree. -/
theorem prev_eq_mirror_next : ∀ (t x : AAT),
    aat_prev t x = mirror (aat_next (mirror t) (mirror x)) := by
  intro t x
  cases x with
  | nil => rfl
  | node l r lv k id =>
    by_cases hln : l = .nil
    · subst hln
      have hA : aat_prev t (AAT.node .nil r lv k id) =
          aat_prev_climb t t.size (AAT.node .nil r lv k id) (aat_parent t k) := by
        simp only [aat_prev, AAT.isNil_nil, Bool.not_true, Bool.false_eq_true, if_false]
      have hB : aat_next (mirror t) (AAT.node (mirror r) .nil lv (-k) id) =
          aat_next_climb (mirror t) (mirror t).size
            (AAT.node (mirror r) .nil lv (-k) id) (aat_parent (mirror t) (-k)) := by
        simp only [aat_next, AAT.isNil_nil, Bool.not_true, Bool.false_eq_true, if_false]
      show aat_prev t (AAT.node .nil r lv k id) =
        mirror (aat_next (mirror t) (AAT.node (mirror r) .nil lv (-k) id))
      have hpar : aat_parent (mirror t) (-k) = mirror (aat_parent t k) :=
        parent0_mirror t k .nil
      rw [hA, hB, size_mirror, hpar]
      have h2 : aat_next_climb (mirror t) t.size (AAT.node (mirror r) .nil lv (-k) id)
          (mirror (aat_parent t k)) =
          mirror (aat_prev_climb t t.size (AAT.node .nil r lv k id) (aat_parent t k)) :=
        climb_mirror t t.size (AAT.node .nil r lv k id) (aat_parent t k)
      rw [h2, mirror_mirror]
    · have hl1 : l.isNil = false := by simpa using hln
      have hml : (mirror l).isNil = false := by
        simp only [AAT.isNil_eq_false_iff, Ne, mirror_eq_nil_iff]
        exact hln
      have hA : aat_prev t (AAT.node l r lv k id) = aat_last l := by
        simp only [aat_prev, hl1, Bool.not_false, if_true]
      have hB : aat_next (mirror t) (AAT.node (mirror r) (mirror l) lv (-k) id) =
          aat_first (mirror l) := by
        simp only [aat_next, hml, Bool.not_false, if_true]
      show aat_prev t (AAT.node l r lv k id) =
        mirror (aat_next (mirror t) (AAT.node (mirror r) (mirror l) lv (-k) id))
      rw [hA, hB, first_mirror, mirror_mirror]

/-- Filtering commutes with reversal. -/
theorem filter_reverse2 (p : Int → Bool) : ∀ (l : List Int),
    l.reverse.filter p = (l.filter p).reverse := by
  intro l
  induction l with
  | nil => rfl
  | cons a l ih =>
    rw [List.reverse_cons, List.filter_append, ih, List.filter_cons]
    by_cases h : p a = true
    · simp [h]
    · simp [h]

/-- Negating a list turns the keys below `k` into the keys above `-k`. -/
theorem filter_map_neg (k : Int) : ∀ (l : List Int),
    (l.map fun a => -a).filter (fun a => decide (-k < a)) =
      (l.filter fun a => decide (a < k)).map fun a => -a := by
  intro l
  induction l with
  | nil => rfl
  | cons a l ih =>
    simp only [List.map_cons, List.filter_cons, ih]
    by_cases h : a < k
    · have h1 : decide ((-k : Int) < -a) = true := by
        simp only [decide_eq_true_eq]
        omega
      have h2 : decide (a < k) = true := by
        simp only [decide_eq_true_eq]
        omega
      rw [h1, h2]
      simp
    · have h1 : decide ((-k : Int) < -a) = false := by
        simp only [decide_eq_false_iff_not]
        omega
      have h2 : decide (a < k) = false := by
        simp only [decide_eq_false_iff_not]
        omega
      rw [h1, h2]
      simp

/-- `aat_prev` moves from the node holding `k` to the in-tree node holding
the greatest key below `k`, or to nil when `k` is the minimum. -/
theorem prev_spec (t : AAT) (hp : List.Pairwise (fun a b => a < b) t.keys)
    {k : Int} (hk : k ∈ t.keys) :
    aat_prev t (aat_search t k) =
      (match (t.keys.filter fun a => decide (a < k)).getLast? with
       | none => AAT.nil
       | some k2 => aat_search t k2) := by
  have hpm : List.Pairwise (fun a b => a < b) (mirror t).keys := by
    rw [keys_mirror, List.pairwise_reverse, List.pairwise_map]
    exact hp.imp (fun h => by omega)
  have hkm : -k ∈ (mirror t).keys := by
    rw [keys_mirror]
    simp only [List.mem_reverse, List.mem_map]
    exact ⟨k, hk, rfl⟩
  have hsm : aat_search (mirror t) (-k) = mirror (aat_search t k) := search_mirror t k
  have hnext := next_spec (mirror t) hpm hkm
  have hfl : (mirror t).keys.filter (fun a => decide (-k < a)) =
      ((t.keys.filter fun a => decide (a < k)).map fun a => -a).reverse := by
    rw [keys_mirror, filter_reverse2, filter_map_neg k t.keys]
  rw [prev_eq_mirror_next t (aat_search t k), ← hsm, hnext, hfl]
  cases hlast : (t.keys.filter fun a => decide (a < k)).getLast? with
  | none =>
    have hemp : (t.keys.filter fun a => decide (a < k)) = [] := by
      cases hq : (t.keys.filter fun a => decide (a < k)) with
      | nil => rfl
      | cons y ys =>
        rw [hq, List.getLast?_cons] at hlast
        simp at hlast
    rw [hemp]
    rfl
  | some k2 =>
    have hhead : (((t.keys.filter fun a => decide (a < k)).map fun a => -a).reverse).head?
        = some (-k2) := by
      rw [← List.map_reverse, List.head?_map, List.head?_reverse, hlast]
      rfl
    rw [hhead]
    show mirror (aat_search (mirror t) (-k2)) = aat_search t k2
    rw [search_mirror t k2, mirror_mirror]

/-- C8: from any in-tree node (the one found at key `k`), `aat_next` returns
the in-order successor node — nil when `k` is the maximum — and `aat_prev`
its mirror, the in-order predecessor — nil when `k` is the minimum; the
parent used by the climb is recovered by comparator re-descent from the
root: it is itself an in-tree node of which the start node is a child. -/
theorem C8_next_prev (t : AAT) (k : Int) (hv : aat_valid t = true)
    (hk : k ∈ t.keys) :
    (aat_next t (aat_search t k) =
      (match (t.keys.filter fun a => decide (k < a)).head? with
       | none => AAT.nil
       | some k2 => aat_search t k2)) ∧
    (aat_prev t (aat_search t k) =
      (match (t.keys.filter fun a => decide (a < k)).getLast? with
       | none => AAT.nil
       | some k2 => aat_search t k2)) ∧
    (aat_search t k).rootKey = some k ∧
    (t.rootKey ≠ some k →
      ∃ p, p ∈ t.keys ∧ aat_parent t k = aat_search t p ∧
        ((aat_search t p).left = aat_search t k ∨
         (aat_search t p).right = aat_search t k)) := by
  have hp : List.Pairwise (fun a b => a < b) t.keys :=
    increasing_iff_pairwise.mp (aat_valid_increasing hv)
  exact ⟨next_spec t hp hk, prev_spec t hp hk, search_rootKey hp hk,
    fun hroot => parent_spec hp hk hroot⟩

/-- Witness for C8 on a concrete valid tree at an inner key. -/
theorem C8_next_prev_witness :
    aat_valid (AAT.node (AAT.node .nil .nil 1 0 0) (AAT.node .nil .nil 1 20 2) 2 10 1)
      = true ∧
    (10 : Int) ∈ (AAT.node (AAT.node .nil .nil 1 0 0)
      (AAT.node .nil .nil 1 20 2) 2 10 1).keys ∧
    ((aat_next (AAT.node (AAT.node .nil .nil 1 0 0) (AAT.node .nil .nil 1 20 2) 2 10 1)
        (aat_search (AAT.node (AAT.node .nil .nil 1 0 0)
          (AAT.node .nil .nil 1 20 2) 2 10 1) 10) =
      (match ((AAT.node (AAT.node .nil .nil 1 0 0)
          (AAT.node .nil .nil 1 20 2) 2 10 1).keys.filter
            fun a => decide ((10 : Int) < a)).head? with
       | none => AAT.nil
       | some k2 => aat_search (AAT.node (AAT.node .nil .nil 1 0 0)
          (AAT.node .nil .nil 1 20 2) 2 10 1) k2)) ∧
     (aat_prev (AAT.node (AAT.node .nil .nil 1 0 0) (AAT.node .nil .nil 1 20 2) 2 10 1)
        (aat_search (AAT.node (AAT.node .nil .nil 1 0 0)
          (AAT.node .nil .nil 1 20 2) 2 10 1) 10) =
      (match ((AAT.node (AAT.node .nil .nil 1 0 0)
          (AAT.node .nil .nil 1 20 2) 2 10 1).keys.filter
            fun a => decide (a < (10 : Int))).getLast? with
       | none => AAT.nil
       | some k2 => aat_search (AAT.node (AAT.node .nil .nil 1 0 0)
          (AAT.node .nil .nil 1 20 2) 2 10 1) k2)) ∧
     (aat_search (AAT.node (AAT.node .nil .nil 1 0 0)
        (AAT.node .nil .nil 1 20 2) 2 10 1) 10).rootKey = some 10 ∧
     ((AAT.node (AAT.node .nil .nil 1 0 0)
        (AAT.node .nil .nil 1 20 2) 2 10 1 : AAT).rootKey ≠ some 10 →
      ∃ p, p ∈ (AAT.node (AAT.node .nil .nil 1 0 0)
          (AAT.node .nil .nil 1 20 2) 2 10 1).keys ∧
        aat_parent (AAT.node (AAT.node .nil .nil 1 0 0)
          (AAT.node .nil .nil 1 20 2) 2 10 1) 10 =
          aat_search (AAT.node (AAT.node .nil .nil 1 0 0)
            (AAT.node .nil .nil 1 20 2) 2 10 1) p ∧
        ((aat_search (AAT.node (AAT.node .nil .nil 1 0 0)
            (AAT.node .nil .nil 1 20 2) 2 10 1) p).left =
          aat_search (AAT.node (AAT.node .nil .nil 1 0 0)
            (AAT.node .nil .nil 1 20 2) 2 10 1) 10 ∨
         (aat_search (AAT.node (AAT.node .nil .nil 1 0 0)
            (AAT.node .nil .nil 1 20 2) 2 10 1) p).right =
          aat_search (AAT.node (AAT.node .nil .nil 1 0 0)
            (AAT.node .nil .nil 1 20 2) 2 10 1) 10))) :=
  ⟨by decide, by decide,
   C8_next_prev (AAT.node (AAT.node .nil .nil 1 0 0) (AAT.node .nil .nil 1 20 2) 2 10 1)
     10 (by decide) (by decide)⟩
